import Mathlib

/-!
Chrysalis: compiler, stack machine and bitmap proof of work

A shallow embedding of `src/compiler/chrysalis.c` and `src/compiler/qrcode.c`.

Conventions of the embedding.

* A byte is a natural number below 256; a C string is the list of its bytes
  before the terminating NUL.
* A byte buffer (`unsigned char *`, `uint8_t *`) is a function from indices
  to bytes; a store converts the stored value to `unsigned char`, that is,
  reduces it modulo 256. Stores and reads outside the allocated size, which
  C leaves undefined, hit the same function.
* `int` is `Int`; results of `+`, `-`, `*`, `/` are wrapped to 32 bits. The
  one division whose quotient is not an `int`, `INT_MIN / -1`, traps on the
  target: the pass of the dispatch loop that reaches it does not return.
* `float` and `double` values are exact dyadic rationals `mant / 2 ^ exp`;
  the single-precision division rounds to nearest, ties to even, as IEEE 754
  does. Comparisons are exact.
* `static` variables of a function are passed in and returned explicitly.
* Loops whose trip count is not a constant take a fuel argument; the entry
  points supply a fuel that the loop cannot exhaust, except for the mining
  search, which has no bound in the source either.
* Allocations succeed. The hash function of `crypto.c` (OpenSSL) is a
  parameter, and so is what the machine makes of raw memory where the four
  VM opcodes that bridge to the bitmap engine cast it to a structure
  (`Host`). The dispatch loop takes the four handlers as its argument
  `bridge`; `qr_bridge` is the one that lines 164-246 define.
-/

namespace Chrysalis

/-! ## Constants (chrysalis.c, lines 9-39) -/

abbrev OP_PUSH : Nat := 0x01
abbrev OP_POP : Nat := 0x02
abbrev OP_ADD : Nat := 0x03
abbrev OP_SUB : Nat := 0x04
abbrev OP_MUL : Nat := 0x05
abbrev OP_DIV : Nat := 0x06
abbrev OP_STORE : Nat := 0x07
abbrev OP_LOAD : Nat := 0x08
abbrev OP_CALL : Nat := 0x09
abbrev OP_RET : Nat := 0x0A
abbrev OP_JMP : Nat := 0x0B
abbrev OP_JZ : Nat := 0x0C
abbrev OP_PRINT : Nat := 0x0D
abbrev OP_HASH : Nat := 0x0E
abbrev OP_VERIFY : Nat := 0x0F
abbrev OP_QR_MINE : Nat := 0x10
abbrev OP_QR_GENERATE : Nat := 0x11
abbrev OP_QR_PRINT : Nat := 0x12
abbrev OP_QR_VERIFY : Nat := 0x13
abbrev OP_CONCAT : Nat := 0x14
abbrev OP_DUP : Nat := 0x15
abbrev OP_SWAP : Nat := 0x16

abbrev STACK_SIZE : Nat := 1024
abbrev VM_MEMORY_SIZE : Nat := 1024 * 1024
abbrev STRING_POOL_SIZE : Nat := 4096
abbrev STRING_POOL_START : Nat := 65536
abbrev STRING_MARKER : Nat := 0xFF

/-! ## Bytes, text and buffers -/

/-- The bytes of a text literal. -/
def cstr (s : String) : List Nat := s.toList.map Char.toNat

/-- A byte buffer: the byte held at each index. -/
abbrev Buffer := Nat → Nat

/-- The buffer `calloc` returns: every byte zero. -/
def zeroBuffer : Buffer := fun _ => 0

/-- The store `buf[i] = v` into an `unsigned char` buffer. -/
def poke (buf : Buffer) (i v : Nat) : Buffer :=
  fun j => if j = i then v % 256 else buf j

/-- Conversion of an `int` to `unsigned char`. -/
def byteOfInt (x : Int) : Nat := (x % 256).toNat

/-- Wrap an integer to the range of a 32-bit `int`. -/
def wrap32 (x : Int) : Int := (x + 2147483648) % 4294967296 - 2147483648

/-! ## C library functions the sources call -/

/-- The predicate `isspace` of the C locale. -/
def isspace (c : Nat) : Bool := c == 32 || (9 ≤ c && c ≤ 13)

/-- The test `'0' <= c && c <= '9'`. -/
def isDigit (c : Nat) : Bool := 48 ≤ c && c ≤ 57

/-- The digit loop of `atoi`: accumulate decimal digits, stop at the first
byte that is not one. -/
def atoiDigits : Nat → List Nat → Nat
  | acc, [] => acc
  | acc, c :: cs => if isDigit c then atoiDigits (acc * 10 + (c - 48)) cs else acc

/-- The C library's `atoi`: skip white space, read an optional sign, then
the longest run of decimal digits (values outside `int` are not modelled). -/
def atoi (p : List Nat) : Int :=
  match p.dropWhile isspace with
  | [] => 0
  | c :: cs =>
    if c = 45 then - (atoiDigits 0 cs : Int)
    else if c = 43 then (atoiDigits 0 cs : Int)
    else (atoiDigits 0 (c :: cs) : Int)

/-- The decimal digits of `n`, most significant first, as ASCII bytes;
`fuel` bounds the number of digits. -/
def decDigits : Nat → Nat → List Nat
  | 0, _ => []
  | fuel + 1, n => if n < 10 then [48 + n] else decDigits fuel (n / 10) ++ [48 + n % 10]

/-- The text `printf("%d")` writes for a natural number. -/
def decimal (n : Nat) : List Nat := decDigits (n + 1) n

/-- The text `printf("%d")` writes for an `int`. -/
def showInt (a : Int) : List Nat :=
  if a < 0 then 45 :: decimal a.natAbs else decimal a.toNat

/-- The NUL-terminated string that starts at index `a` of a buffer; `fuel`
bounds the scan, and the callers pass the number of bytes from `a` to the
end of the buffer (`printf("%s")` and `strlen` read past the end when no NUL
is found, which is not modelled). -/
def cstringAt (buf : Buffer) : Nat → Nat → List Nat
  | 0, _ => []
  | fuel + 1, a => if buf a = 0 then [] else buf a :: cstringAt buf fuel (a + 1)

/-! ## Compiler (chrysalis.c, lines 291-383) -/

/-- The two `static size_t str_offset` variables of `compile`: the one of
function scope (line 297), which line 298 resets on every call, and the one
of block scope (line 325), which shadows it inside the string branch and is
the one that lines 326 and 343 read and write. -/
structure Statics where
  str_offset : Nat
  str_offset_inner : Nat

/-- The statics of a process that has not called `compile` yet. -/
def Statics.fresh : Statics := ⟨0, 0⟩

/-- The locals of `compile` that the token loop updates. -/
structure Compiler where
  bytecode : Buffer
  length : Nat
  statics : Statics

/-- The statement `bytecode[(*length)++] = b`. -/
def emit (c : Compiler) (b : Nat) : Compiler :=
  { c with bytecode := poke c.bytecode c.length b, length := c.length + 1 }

/-- Lines 304-309: skip blanks and `#` comments. With `inComment` the scan
is inside the inner loop of line 306, which runs to the end of the line;
the newline itself is consumed by line 308. -/
def skipSpace : Bool → List Nat → List Nat
  | _, [] => []
  | true, c :: cs => if c = 10 then skipSpace false cs else skipSpace true cs
  | false, c :: cs =>
    if c = 32 ∨ c = 10 ∨ c = 9 then skipSpace false cs
    else if c = 35 then skipSpace true cs
    else c :: cs

/-- Lines 313-317: read a token of at most `n` bytes; returns the token and
the rest of the text. -/
def readToken : Nat → List Nat → List Nat × List Nat
  | 0, p => ([], p)
  | _ + 1, [] => ([], [])
  | n + 1, c :: cs =>
    if c = 32 ∨ c = 10 ∨ c = 9 ∨ c = 35 then ([], c :: cs)
    else ((readToken n cs).1.cons c, (readToken n cs).2)

/-- Lines 322 and 358: skip spaces and tabs. -/
def skipInline (p : List Nat) : List Nat := p.dropWhile (fun c => c == 32 || c == 9)

/-- Lines 330-333: copy the literal's bytes to `str_loc + i` up to the
closing quote or the end of the text; returns the buffer, the final `i` and
the rest of the text. -/
def copyLiteral (str_loc : Nat) : Buffer → Nat → List Nat → Buffer × Nat × List Nat
  | buf, i, [] => (buf, i, [])
  | buf, i, c :: cs =>
    if c = 34 then (buf, i, c :: cs)
    else copyLiteral str_loc (poke buf (str_loc + i) c) (i + 1) cs

/-- Line 335: `if (*p == '"') p++`. -/
def skipQuote : List Nat → List Nat
  | [] => []
  | c :: cs => if c = 34 then cs else c :: cs

/-- Lines 324-343: the string branch of `PUSH`, entered after the opening
quote. The literal goes to the pool at `str_loc`; then four bytes are
emitted: `OP_PUSH`, the marker, `OP_PUSH`, and `str_loc` converted to
`unsigned char`. -/
def compilePushString (c : Compiler) (q : List Nat) : Compiler × List Nat :=
  let str_loc := STRING_POOL_START + c.statics.str_offset_inner
  let r := copyLiteral str_loc c.bytecode 0 q
  let i := r.2.1
  let c := { c with bytecode := poke r.1 (str_loc + i) 0 }
  let c := emit (emit (emit (emit c OP_PUSH) STRING_MARKER) OP_PUSH) str_loc
  ({ c with statics := { c.statics with
      str_offset_inner := c.statics.str_offset_inner + i + 1 } }, skipQuote r.2.2)

/-- Lines 345-346: the integer branch of `PUSH`. -/
def compilePushInt (c : Compiler) (q : List Nat) : Compiler × List Nat :=
  (emit c (byteOfInt (atoi q)), q.dropWhile isDigit)

/-- Lines 320-348: the `PUSH` branch. Line 321 emits `OP_PUSH` before the
operand is looked at. -/
def compilePush (c : Compiler) (p : List Nat) : Compiler × List Nat :=
  let c := emit c OP_PUSH
  match skipInline p with
  | [] => compilePushInt c []
  | d :: q => if d = 34 then compilePushString c q else compilePushInt c (d :: q)

/-- Lines 356-375: the `CALL` branch. -/
def compileCall (c : Compiler) (p : List Nat) : Compiler × List Nat :=
  let c := emit c OP_CALL
  let q := skipInline p
  if (cstr "qr_mine").isPrefixOf q then (emit c OP_QR_MINE, q.drop 7)
  else if (cstr "qr_generate").isPrefixOf q then (emit c OP_QR_GENERATE, q.drop 11)
  else if (cstr "qr_print").isPrefixOf q then (emit c OP_QR_PRINT, q.drop 8)
  else if (cstr "qr_verify").isPrefixOf q then (emit c OP_QR_VERIFY, q.drop 9)
  else (c, q)

/-- Lines 319-379: dispatch on the token just read. -/
def compileToken (token : List Nat) (c : Compiler) (p : List Nat) : Compiler × List Nat :=
  if token = cstr "PUSH" then compilePush c p
  else if token = cstr "POP" then (emit c OP_POP, p)
  else if token = cstr "ADD" then (emit c OP_ADD, p)
  else if token = cstr "SUB" then (emit c OP_SUB, p)
  else if token = cstr "MUL" then (emit c OP_MUL, p)
  else if token = cstr "DIV" then (emit c OP_DIV, p)
  else if token = cstr "STORE" then (emit c OP_STORE, p)
  else if token = cstr "LOAD" then (emit c OP_LOAD, p)
  else if token = cstr "CALL" then compileCall c p
  else if token = cstr "CONCAT" then (emit c OP_CONCAT, p)
  else if token = cstr "DUP" then (emit c OP_DUP, p)
  else if token = cstr "SWAP" then (emit c OP_SWAP, p)
  else if token = cstr "PRINT" then (emit c OP_PRINT, p)
  else (c, p)

/-- Lines 302-380: the token loop. Every pass consumes at least one byte,
so `fuel` above the length of the text is never exhausted. -/
def compileLoop : Nat → List Nat → Compiler → Compiler
  | 0, _, c => c
  | fuel + 1, p, c =>
    match skipSpace false p with
    | [] => c
    | q =>
      let t := readToken 255 q
      let r := compileToken t.1 c t.2
      compileLoop fuel r.2 r.1

/-- What `compile` hands back: the buffer, `*length`, and the statics it
leaves behind for the next call. -/
structure Compiled where
  bytecode : Buffer
  length : Nat
  statics : Statics

/-- The function `compile` (lines 292-383), for a successful `calloc`. -/
def compile (st : Statics) (source : List Nat) : Compiled :=
  let c := compileLoop (source.length + 1) source
    { bytecode := zeroBuffer, length := 0, statics := { st with str_offset := 0 } }
  { bytecode := c.bytecode, length := c.length, statics := c.statics }

/-! ## Stack machine (chrysalis.c, lines 34-289) -/

/-- The operand stack: the live cells `data[0..top]`, the top one first;
`top + 1` is the length of the list. -/
abbrev Stack := List Int

/-- The function `stack_push`: success flag and the stack afterwards. -/
def stack_push (s : Stack) (value : Int) : Bool × Stack :=
  if s.length < STACK_SIZE then (true, value :: s) else (false, s)

/-- The function `stack_pop`: the popped value and the stack afterwards, or
`none` when it reports failure. -/
def stack_pop (s : Stack) : Option (Int × Stack) :=
  match s with
  | [] => none
  | v :: rest => some (v, rest)

/-- The VM of lines 69-76, with the lines written to standard output. -/
structure VM where
  stack : Stack
  memory : Buffer
  mem_size : Nat
  call_stack_ptr : Nat
  running : Bool
  out : List (List Nat)

/-- The function `vm_init`, for successful allocations. -/
def vm_init (mem_size : Nat) : VM :=
  { stack := [], memory := zeroBuffer, mem_size := mem_size,
    call_stack_ptr := 0, running := true, out := [] }

/-- A call `stack_push(&vm->stack, v)` whose result is ignored. -/
def VM.push (vm : VM) (v : Int) : VM := { vm with stack := (stack_push vm.stack v).2 }

/-- The shape shared by `OP_ADD`, `OP_SUB`, `OP_MUL` and `OP_DIV`: pop `b`,
then pop `a`, then push `f a b` when there is one. A failed second pop
leaves the first one done. -/
def binop (f : Int → Int → Option Int) (vm : VM) : VM :=
  match stack_pop vm.stack with
  | none => vm
  | some (b, s1) =>
    match stack_pop s1 with
    | none => { vm with stack := s1 }
    | some (a, s2) =>
      match f a b with
      | some r => VM.push { vm with stack := s2 } r
      | none => { vm with stack := s2 }

/-- The test `(size_t)x < vm->mem_size` for an `int` x on a 64-bit target. -/
def inMemory (vm : VM) (x : Int) : Bool :=
  decide ((x % 18446744073709551616).toNat < vm.mem_size)

/-- Lines 148-154: `OP_STORE`. -/
def op_store (vm : VM) : VM :=
  match stack_pop vm.stack with
  | none => vm
  | some (a, s1) =>
    match stack_pop s1 with
    | none => { vm with stack := s1 }
    | some (b, s2) =>
      if inMemory vm b then
        { vm with stack := s2, memory := poke vm.memory b.toNat (byteOfInt a) }
      else { vm with stack := s2 }

/-- Lines 156-162: `OP_LOAD`. -/
def op_load (vm : VM) : VM :=
  match stack_pop vm.stack with
  | none => vm
  | some (a, s1) =>
    if inMemory vm a then VM.push { vm with stack := s1 } (vm.memory a.toNat)
    else { vm with stack := s1 }

/-- Store the bytes `bs` from index `loc` on. -/
def writeBytes (buf : Buffer) : Nat → List Nat → Buffer
  | _, [] => buf
  | loc, b :: bs => writeBytes (poke buf loc b) (loc + 1) bs

/-- Lines 248-259: `OP_CONCAT` (for operands that are offsets of strings
inside memory whose joint length fits `combined[256]`). -/
def op_concat (vm : VM) : VM :=
  match stack_pop vm.stack with
  | none => vm
  | some (b, s1) =>
    match stack_pop s1 with
    | none => { vm with stack := s1 }
    | some (a, s2) =>
      let combined := cstringAt vm.memory (vm.mem_size - a.toNat) a.toNat
        ++ cstringAt vm.memory (vm.mem_size - b.toNat) b.toNat
      let new_loc := vm.mem_size - combined.length - 1
      VM.push { vm with stack := s2,
                        memory := writeBytes vm.memory new_loc (combined ++ [0]) }
        (wrap32 new_loc)

/-- Lines 261-265: `OP_DUP`. -/
def op_dup (vm : VM) : VM :=
  match vm.stack with
  | [] => vm
  | v :: _ => VM.push vm v

/-- Lines 267-273: `OP_SWAP`. -/
def op_swap (vm : VM) : VM :=
  match vm.stack with
  | x :: y :: rest => { vm with stack := y :: x :: rest }
  | _ => vm

/-- Lines 275-285: `OP_PRINT`. -/
def op_print (vm : VM) : VM :=
  match stack_pop vm.stack with
  | none => vm
  | some (a, s1) =>
    if a = STRING_MARKER then
      match stack_pop s1 with
      | none => { vm with stack := s1 }
      | some (a, s2) =>
        { vm with stack := s2,
                  out := vm.out ++ [cstringAt vm.memory (vm.mem_size - a.toNat) a.toNat] }
    else { vm with stack := s1, out := vm.out ++ [showInt a] }

/-- Whether `OP_DIV` finds `-1` on top of the stack and `INT_MIN` below it.
The quotient `a / b` of line 143 is then not an `int`, and the division
instruction of the target raises a trap that ends the process. -/
def divTraps (s : Stack) : Bool :=
  match s with
  | b :: a :: _ => decide (a = -2147483648 ∧ b = -1)
  | _ => false

/-- One pass of the dispatch loop (lines 110-287) at program counter `pc`:
the next program counter and the VM afterwards, or `none` for a pass that
does not return to the loop: a bridge call that does not return, or the
division that traps. The handlers of the four opcodes that bridge to the
bitmap engine are the argument `bridge`; `qr_bridge` is the one that lines
164-246 define. -/
def vm_step (bridge : Nat → VM → Option VM) (bytecode : Buffer) (length : Nat)
    (pc : Nat) (vm : VM) : Option (Nat × VM) :=
  let op := bytecode pc
  if op = OP_PUSH then
    some (pc + 2, if pc + 1 < length then VM.push vm (bytecode (pc + 1)) else vm)
  else if op = OP_POP then
    some (pc + 1, match stack_pop vm.stack with
      | none => vm
      | some (_, s) => { vm with stack := s })
  else if op = OP_ADD then some (pc + 1, binop (fun a b => some (wrap32 (a + b))) vm)
  else if op = OP_SUB then some (pc + 1, binop (fun a b => some (wrap32 (a - b))) vm)
  else if op = OP_MUL then some (pc + 1, binop (fun a b => some (wrap32 (a * b))) vm)
  else if op = OP_DIV then
    if divTraps vm.stack then none
    else some (pc + 1,
      binop (fun a b => if b = 0 then none else some (wrap32 (Int.tdiv a b))) vm)
  else if op = OP_STORE then some (pc + 1, op_store vm)
  else if op = OP_LOAD then some (pc + 1, op_load vm)
  else if op = OP_QR_MINE ∨ op = OP_QR_GENERATE ∨ op = OP_QR_PRINT ∨ op = OP_QR_VERIFY then
    (bridge op vm).map (fun vm1 => (pc + 1, vm1))
  else if op = OP_CONCAT then some (pc + 1, op_concat vm)
  else if op = OP_DUP then some (pc + 1, op_dup vm)
  else if op = OP_SWAP then some (pc + 1, op_swap vm)
  else if op = OP_PRINT then some (pc + 1, op_print vm)
  else some (pc + 1, vm)

/-- The loop `while (pc < length && vm->running)` of line 109; `none` when
a pass does not return or the fuel runs out. -/
def vm_loop (bridge : Nat → VM → Option VM) (bytecode : Buffer) (length : Nat) :
    Nat → Nat → VM → Option VM
  | 0, pc, vm => if pc < length ∧ vm.running = true then none else some vm
  | fuel + 1, pc, vm =>
    if pc < length ∧ vm.running = true then
      match vm_step bridge bytecode length pc vm with
      | none => none
      | some r => vm_loop bridge bytecode length fuel r.1 r.2
    else some vm

/-- The function `vm_execute` (lines 105-289). Every pass advances `pc`,
so `length` passes reach the end of the stream. -/
def vm_execute (bridge : Nat → VM → Option VM) (vm : VM) (bytecode : Buffer)
    (length : Nat) : Option VM :=
  vm_loop bridge bytecode length length 0 vm

/-- Lines 430-433 of `main`: copy the string pool of the compiled buffer
into VM memory. -/
def copyPool (vm : VM) (bytecode : Buffer) : VM :=
  { vm with memory := fun i =>
      if STRING_POOL_START ≤ i ∧ i < STRING_POOL_START + STRING_POOL_SIZE then bytecode i
      else vm.memory i }

/-- The part of `main` after the source file is read (lines 416-435):
compile, set up the VM, copy the pool, execute. Returns the lines printed. -/
def run_main (bridge : Nat → VM → Option VM) (st : Statics) (source : List Nat) :
    Option (List (List Nat)) :=
  let r := compile st source
  let vm := copyPool (vm_init VM_MEMORY_SIZE) r.bytecode
  (vm_execute bridge vm r.bytecode r.length).map (fun v => v.out)

/-! ## Bitmap engine (qrcode.c and qrcode.h) -/

abbrev MAX_VERSION : Nat := 40
abbrev MIN_VERSION : Nat := 1
abbrev SHA256_DIGEST_LENGTH : Nat := 32

/-- A finite non-negative binary floating-point value, `mant / 2 ^ exp`.
Every value a `float` metric or `double` constant of this program takes has
this form (infinities and NaN are not represented). -/
structure Dyadic where
  mant : Nat
  exp : Nat
  deriving DecidableEq, Repr

/-- The rational number a floating-point value stands for. -/
def Dyadic.toRat (x : Dyadic) : ℚ := (x.mant : ℚ) / 2 ^ x.exp

/-- The comparison `x < y` of two floating-point values (exact). -/
def Dyadic.lt (x y : Dyadic) : Bool := decide (x.mant * 2 ^ y.exp < y.mant * 2 ^ x.exp)

/-- The `double` constant `0.3` (line 10). -/
def MIN_DENSITY : Dyadic := ⟨5404319552844595, 54⟩

/-- The `double` constant `0.8` (line 11). -/
def MAX_DENSITY : Dyadic := ⟨3602879701896397, 52⟩

/-- The `double` constant `0.2` (line 12). -/
def MAX_NOISE : Dyadic := ⟨3602879701896397, 54⟩

/-- The binary exponent of a single-precision quotient: from `k` on, the
least exponent with `2 ^ 23 * d ≤ n * 2 ^ k`. -/
def f32scale (n d : Nat) : Nat → Nat → Nat
  | 0, k => k
  | fuel + 1, k => if n * 2 ^ k < 2 ^ 23 * d then f32scale n d fuel (k + 1) else k

/-- The single-precision quotient `(float)n / d` of two integers below
`2 ^ 24` with `n ≤ d` and `0 < d`: the quotient is scaled to a 24-bit
significand and rounded to nearest, ties to even. -/
def f32div (n d : Nat) : Dyadic :=
  if n = 0 then ⟨0, 0⟩
  else
    let k := f32scale n d 64 0
    let q := n * 2 ^ k / d
    let r := n * 2 ^ k % d
    ⟨if d < 2 * r ∨ (2 * r = d ∧ q % 2 = 1) then q + 1 else q, k⟩

/-- The error-correction levels of `qrcode.h`. -/
inductive QRCodeECC where
  | L | M | Q | H
  deriving DecidableEq, Repr

/-- The enumeration value of a level. -/
def QRCodeECC.toNat : QRCodeECC → Nat
  | .L => 0
  | .M => 1
  | .Q => 2
  | .H => 3

/-- The structure `QRCode` of `qrcode.h`; `modules` is the buffer behind
the pointer of that name, the row-major module array. -/
structure QRCode where
  version : Nat
  size : Nat
  ecc : QRCodeECC
  modules : Nat → Nat
  density : Dyadic
  noise : Dyadic

/-- The function `qrcode_is_valid_version`. -/
def qrcode_is_valid_version (version : Nat) : Bool :=
  decide (MIN_VERSION ≤ version ∧ version ≤ MAX_VERSION)

/-- The function `qrcode_get_size_for_version`. -/
def qrcode_get_size_for_version (version : Nat) : Nat :=
  if qrcode_is_valid_version version then 17 + 4 * version else 0

/-- The store `modules[row * size + col] = v` of a truth value. -/
def setModule (size : Nat) (modules : Nat → Nat) (row col : Nat) (v : Bool) : Nat → Nat :=
  poke modules (row * size + col) (if v then 1 else 0)

/-- The read `qr->modules[row * qr->size + col]`. -/
def getModule (qr : QRCode) (row col : Nat) : Nat :=
  qr.modules (row * qr.size + col)

/-- The values `lo`, `lo + 1`, ..., `lo + n - 1` of a counting loop. -/
def upFrom (lo n : Nat) : List Nat := (List.range n).map (fun i => lo + i)

/-- The function `initialize_modules`. -/
def initialize_modules (qr : QRCode) : QRCode :=
  { qr with modules := fun _ => 0 }

/-- Lines 258-264: the 7x7 finder pattern with its corner at `(row, col)`. -/
def stampFinder (size : Nat) (modules : Nat → Nat) (row col : Nat) : Nat → Nat :=
  (List.range 7).foldl (fun m r =>
    (List.range 7).foldl (fun m c =>
      setModule size m (row + r) (col + c)
        ((r == 0 || r == 6 || c == 0 || c == 6) || (2 ≤ r && r ≤ 4 && 2 ≤ c && c ≤ 4)))
      m) modules

/-- The function `add_finder_patterns`: corners `(0, 0)`, `(size - 7, 0)`
and `(0, size - 7)`. -/
def add_finder_patterns (qr : QRCode) : QRCode :=
  { qr with modules :=
      stampFinder qr.size (stampFinder qr.size (stampFinder qr.size qr.modules 0 0)
        (qr.size - 7) 0) 0 (qr.size - 7) }

/-- The function `add_alignment_patterns`. -/
def add_alignment_patterns (qr : QRCode) : QRCode :=
  if 1 < qr.version then
    let modules := (List.range 5).foldl (fun m i =>
      (List.range 5).foldl (fun m j =>
        setModule qr.size m (qr.size - 9 + i) (qr.size - 9 + j)
          (i == 0 || i == 4 || j == 0 || j == 4)) m) qr.modules
    { qr with modules := modules }
  else qr

/-- The function `add_timing_patterns`: the horizontal run, then the
vertical one, for `i` from 8 to `size - 9`. -/
def add_timing_patterns (qr : QRCode) : QRCode :=
  let horizontal := (upFrom 8 (qr.size - 16)).foldl
    (fun m i => setModule qr.size m 6 i (i % 2 == 0)) qr.modules
  let vertical := (upFrom 8 (qr.size - 16)).foldl
    (fun m i => setModule qr.size m i 6 (i % 2 == 0)) horizontal
  { qr with modules := vertical }

/-- The function `add_format_info`; `format` is `(uint16_t)qr->ecc << 13`. -/
def add_format_info (qr : QRCode) : QRCode :=
  let format := qr.ecc.toNat * 2 ^ 13 % 2 ^ 16
  let modules := (List.range 15).foldl (fun m i =>
    if i < 6 then setModule qr.size m i 8 (format / 2 ^ i % 2 == 1)
    else if i < 8 then setModule qr.size m (i + 1) 8 (format / 2 ^ i % 2 == 1)
    else setModule qr.size m 8 (qr.size - 15 + i) (format / 2 ^ i % 2 == 1)) qr.modules
  { qr with modules := modules }

/-- The locals of `add_data` that its loops update: the module array,
`data_idx`, and whether the `return` of line 325 has been taken. -/
structure DataState where
  modules : Nat → Nat
  data_idx : Nat
  returned : Bool

/-- Lines 322-326: the body of the column loop at one module. -/
def placeBit (size : Nat) (data : List Nat) (length : Nat) (st : DataState)
    (row col : Nat) : DataState :=
  if st.returned then st
  else if st.modules (row * size + col) = 0 then
    { modules := setModule size st.modules row col
        (data.getD (st.data_idx / 8) 0 / 2 ^ (7 - st.data_idx % 8) % 2 == 1),
      data_idx := st.data_idx + 1,
      returned := decide (length * 8 ≤ st.data_idx + 1) }
  else st

/-- Lines 316-328: one band of two columns, `pos` and `pos - 1`, swept
upwards or downwards. -/
def sweepBand (size : Nat) (data : List Nat) (length : Nat) (pos : Nat) (up : Bool)
    (st : DataState) : DataState :=
  (if up then (List.range size).reverse else List.range size).foldl
    (fun st row => (if 1 ≤ pos then [pos, pos - 1] else [pos]).foldl
      (fun st col => placeBit size data length st row col) st) st

/-- Lines 315-332: the loop `while (pos >= 0 && data_idx < length)`; `pos`
is an `int`, and the loop ends when it drops below zero. -/
def dataLoop (size : Nat) (data : List Nat) (length : Nat) :
    Nat → Int → Bool → DataState → DataState
  | 0, _, _, st => st
  | fuel + 1, pos, up, st =>
    if st.returned then st
    else if 0 ≤ pos ∧ st.data_idx < length then
      dataLoop size data length fuel (pos - 2) (!up) (sweepBand size data length pos.toNat up st)
    else st

/-- The function `add_data`. Line 315 compares `data_idx`, a count of
bits, with `length`, a count of bytes. -/
def add_data (qr : QRCode) (data : List Nat) (length : Nat) : QRCode :=
  { qr with modules :=
      (dataLoop qr.size data length qr.size ((qr.size : Int) - 1) true
        { modules := qr.modules, data_idx := 0, returned := false }).modules }

/-- The counter `set_modules` of `qrcode_calculate_density`. -/
def set_modules (qr : QRCode) : Nat :=
  ((List.range (qr.size * qr.size)).filter (fun i => qr.modules i != 0)).length

/-- The function `qrcode_calculate_density`. -/
def qrcode_calculate_density (qr : QRCode) : Dyadic :=
  f32div (set_modules qr) (qr.size * qr.size)

/-- Lines 118-125: the number of the 8 neighbours of `(y, x)` whose truth
value differs from `current`; the offsets `dy`, `dx` run over -1, 0, 1 and
are written here as 0, 1, 2 less one. -/
def countDifferent (qr : QRCode) (y x : Nat) (current : Bool) : Nat :=
  (List.range 3).foldl (fun n dy =>
    (List.range 3).foldl (fun n dx =>
      if dx = 1 ∧ dy = 1 then n
      else if (getModule qr (y + dy - 1) (x + dx - 1) != 0) != current then n + 1
      else n) n) 0

/-- Lines 114-125: `different_neighbors` for the module at `(y, x)`. -/
def different_neighbors (qr : QRCode) (y x : Nat) : Nat :=
  countDifferent qr y x (getModule qr y x != 0)

/-- The counter `noise_count` of `qrcode_calculate_noise`. -/
def noise_count (qr : QRCode) : Nat :=
  (upFrom 1 (qr.size - 2)).foldl (fun n y =>
    (upFrom 1 (qr.size - 2)).foldl (fun n x =>
      if 5 < different_neighbors qr y x then n + 1 else n) n) 0

/-- The function `qrcode_calculate_noise`. -/
def qrcode_calculate_noise (qr : QRCode) : Dyadic :=
  f32div (noise_count qr) (qr.size * qr.size)

/-- Lines 58-59 of `qrcode_create`: store the two metrics. -/
def computeMetrics (qr : QRCode) : QRCode :=
  { qr with density := qrcode_calculate_density qr,
            noise := qrcode_calculate_noise { qr with density := qrcode_calculate_density qr } }

/-- Lines 24-29 of `qrcode_create`: the version search, from `version`. -/
def findVersion (length : Nat) : Nat → Nat → Nat
  | 0, version => version
  | fuel + 1, version =>
    if version ≤ MAX_VERSION then
      if length ≤ qrcode_get_size_for_version version * qrcode_get_size_for_version version / 8
      then version
      else findVersion length fuel (version + 1)
    else version

/-- The function `qrcode_create`, for successful allocations; `none` is the
`NULL` of line 31. -/
def qrcode_create (data : List Nat) (ecc : QRCodeECC) : Option QRCode :=
  let version := findVersion data.length 41 1
  if MAX_VERSION < version then none
  else
    let size := qrcode_get_size_for_version version
    let qr : QRCode := { version := version, size := size, ecc := ecc,
                         modules := fun _ => 0,
                         density := ⟨0, 0⟩, noise := ⟨0, 0⟩ }
    some (computeMetrics (add_data (add_format_info (add_timing_patterns
      (add_alignment_patterns (add_finder_patterns (initialize_modules qr))))) data data.length))

/-- The `size * size` bytes of the module array, the input of the hash. -/
def moduleBytes (qr : QRCode) : List Nat := (List.range (qr.size * qr.size)).map qr.modules

/-- Lines 85-90 of `qrcode_validate_pow`: the byte-by-byte comparison of
the hash with the target, from index `i`, `n` bytes to go. -/
def compareHash (hash target : List Nat) : Nat → Nat → Bool
  | 0, _ => true
  | n + 1, i =>
    if target.getD i 0 < hash.getD i 0 then false
    else if hash.getD i 0 < target.getD i 0 then true
    else compareHash hash target n (i + 1)

/-- The function `qrcode_validate_pow` for non-null arguments. The hashing
collaborator `sha256` of `crypto.c` (OpenSSL) is a parameter. -/
def qrcode_validate_pow (sha256 : List Nat → List Nat) (qr : QRCode)
    (target : List Nat) : Bool :=
  if Dyadic.lt qr.density MIN_DENSITY || Dyadic.lt MAX_DENSITY qr.density then false
  else if Dyadic.lt MAX_NOISE qr.noise then false
  else compareHash (sha256 (moduleBytes qr)) target SHA256_DIGEST_LENGTH 0

/-- The 8 bytes `memcpy(..., &attempt, 8)` copies on a little-endian
target. -/
def nonceBytes (attempt : Nat) : List Nat :=
  (List.range 8).map (fun i => attempt / 256 ^ i % 256)

/-- Lines 202-222: whether the trial with nonce `attempt` sets `found`. -/
def attemptAccepted (sha256 : List Nat → List Nat) (block_header target : List Nat)
    (attempt : Nat) : Bool :=
  match qrcode_create (block_header ++ nonceBytes attempt) QRCodeECC.H with
  | some qr => qrcode_validate_pow sha256 qr target
  | none => false

/-- The search loop of `qrcode_generate_pow_nonce` (lines 196-226) from
`attempt` on, for successful allocations; `attempt` is a `uint64_t`. The
loop has no bound: `none` stands for a search that `fuel` passes do not
finish. -/
def mineFrom (sha256 : List Nat → List Nat) (block_header target : List Nat) :
    Nat → Nat → Option Nat
  | 0, _ => none
  | fuel + 1, attempt =>
    if attemptAccepted sha256 block_header target attempt then some attempt
    else mineFrom sha256 block_header target fuel ((attempt + 1) % 2 ^ 64)

/-- The function `qrcode_generate_pow_nonce`: the nonce whose 8 bytes the
returned buffer starts with. -/
def qrcode_generate_pow_nonce (sha256 : List Nat → List Nat) (block_header target : List Nat)
    (fuel : Nat) : Option Nat :=
  mineFrom sha256 block_header target fuel 0

/-! ## Bridge opcodes (chrysalis.c, lines 164-246) -/

/-- A byte that ends a token (line 314). -/
def isDelim (c : Nat) : Prop := c = 32 ∨ c = 10 ∨ c = 9 ∨ c = 35

instance (c : Nat) : Decidable (isDelim c) := by unfold isDelim; infer_instance

/-- A bridge that never returns; programs without a bridge opcode do not
call it. -/
def noBridge : Nat → VM → Option VM := fun _ _ => none

/-- The source text of a `PUSH` with the string literal `s`. -/
def pushStringProgram (s : List Nat) : List Nat := cstr "PUSH " ++ 34 :: (s ++ [34])

/-- The source text `PUSH "s"`, newline, `PRINT`. -/
def printStringProgram (s : List Nat) : List Nat :=
  cstr "PUSH " ++ 34 :: (s ++ 34 :: 10 :: cstr "PRINT")

/-- The source text `PUSH a`, `PUSH b`, `ADD`, `PRINT`, one per line, the
operands written in decimal. -/
def addPrintProgram (a b : Nat) : List Nat :=
  cstr "PUSH " ++ decimal a ++ 10 :: (cstr "PUSH " ++ decimal b ++
    10 :: (cstr "ADD" ++ 10 :: cstr "PRINT"))

/-- The result of two calls of `compile` on the same text in one process:
the second call starts from the statics the first one left behind. -/
def compileTwice (source : List Nat) : Compiled × Compiled :=
  (compile Statics.fresh source,
    compile (compile Statics.fresh source).statics source)

/-- A single-precision value in the model: zero, or a significand of 24
bits (`2 ^ 23 ≤ mant ≤ 2 ^ 24`, the upper end reached by rounding up). -/
def Dyadic.IsSingle (x : Dyadic) : Prop :=
  x.mant = 0 ∨ (2 ^ 23 ≤ x.mant ∧ x.mant ≤ 2 ^ 24)

instance (x : Dyadic) : Decidable x.IsSingle := by unfold Dyadic.IsSingle; infer_instance

/-- Big-endian lexicographic order on the first 32 bytes of two byte
strings: all 32 bytes agree, or at the first index where they differ the
byte of `a` is the smaller one. -/
def LexLe (a b : List Nat) : Prop :=
  (∀ i, i < 32 → a.getD i 0 = b.getD i 0) ∨
    ∃ i, i < 32 ∧ a.getD i 0 < b.getD i 0 ∧ ∀ j, j < i → a.getD j 0 = b.getD j 0

/-- The maximal target: 32 bytes `0xFF`. -/
def maxTarget : List Nat := List.replicate 32 255

/-- The minimal target: 32 bytes zero. -/
def zeroTarget : List Nat := List.replicate 32 0

/-- A stand-in for the hash collaborator whose digest is 32 zero bytes. -/
def zeroHash : List Nat → List Nat := fun _ => List.replicate 32 0

/-- The capacity in bytes of version `v`: `floor (side ^ 2 / 8)`. -/
def capacity (v : Nat) : Nat := (17 + 4 * v) ^ 2 / 8

/-- The density of a matrix as an exact ratio: set modules over `side ^ 2`. -/
def exactDensity (qr : QRCode) : ℚ := (set_modules qr : ℚ) / ((qr.size * qr.size : Nat) : ℚ)

/-- The noise of a matrix as an exact ratio: interior modules that differ
from more than 5 of their 8 neighbours, over `side ^ 2`. -/
def exactNoise (qr : QRCode) : ℚ := (noise_count qr : ℚ) / ((qr.size * qr.size : Nat) : ℚ)

/-- A version-2 matrix (25 x 25) whose first 300 modules are set, with the
metrics `qrcode_create` would store for it. -/
def halfMatrix : QRCode :=
  computeMetrics { version := 2, size := 25, ecc := QRCodeECC.L,
                   modules := fun i => if i < 300 then 1 else 0,
                   density := ⟨0, 0⟩, noise := ⟨0, 0⟩ }

/-- A version-2 matrix (25 x 25) whose first 500 modules are set, 4/5 of
all, with the metrics `qrcode_create` would store for it. -/
def denseMatrix : QRCode :=
  computeMetrics { version := 2, size := 25, ecc := QRCodeECC.L,
                   modules := fun i => if i < 500 then 1 else 0,
                   density := ⟨0, 0⟩, noise := ⟨0, 0⟩ }

/-- A version-2 matrix (25 x 25): the last row is unset, 125 isolated
modules at odd rows and columns are unset (rows 1 to 19, and columns 1 to 9
of row 21), every other module is set. Each isolated module differs from
all 8 neighbours. -/
def holeMatrix : QRCode :=
  computeMetrics { version := 2, size := 25, ecc := QRCodeECC.L,
                   modules := fun i =>
                     if i / 25 = 24 then 0
                     else if (i / 25) % 2 = 1 ∧ (i % 25) % 2 = 1 ∧
                        (i / 25 ≤ 19 ∨ (i / 25 = 21 ∧ i % 25 ≤ 9)) then 0
                     else 1,
                   density := ⟨0, 0⟩, noise := ⟨0, 0⟩ }

/-- The function `stack_init` (lines 46-48): `top = -1`, no live cell. -/
def stack_init : Stack := []

/-- A call of `stack_push` or of `stack_pop` on the operand stack. -/
inductive StackOp where
  | push (value : Int)
  | pop

/-- The stack after one call, whatever the call reports. -/
def StackOp.run (s : Stack) : StackOp → Stack
  | StackOp.push v => (stack_push s v).2
  | StackOp.pop =>
    match stack_pop s with
    | none => s
    | some (_, rest) => rest

/-- The stack after a sequence of calls, the first call first. -/
def runStackOps (ops : List StackOp) (s : Stack) : Stack := ops.foldl StackOp.run s

/-- The buffer holds the NUL-terminated string `s` at index `off`: the bytes
of `s`, none of them 0, and then a 0. -/
def IsCStringAt (buf : Buffer) : Nat → List Nat → Prop
  | off, [] => buf off = 0
  | off, x :: xs => buf off = x ∧ x ≠ 0 ∧ x < 256 ∧ IsCStringAt buf (off + 1) xs

/-- The string at the offset that is on top of the operand stack. -/
def stringAtTop (vm : VM) : List Nat :=
  match vm.stack with
  | [] => []
  | o :: _ => cstringAt vm.memory (vm.mem_size - o.toNat) o.toNat

/-- The opcodes of `CONCAT(CONCAT(a, b), c)`: push `a`, push `b`, `CONCAT`,
push `c`, `CONCAT`. -/
def concatLeft (vm : VM) (a b c : Int) : VM :=
  op_concat (VM.push (op_concat (VM.push (VM.push vm a) b)) c)

/-- The opcodes of `CONCAT(a, CONCAT(b, c))`: push `a`, push `b`, push `c`,
`CONCAT`, `CONCAT`. -/
def concatRight (vm : VM) (a b c : Int) : VM :=
  op_concat (op_concat (VM.push (VM.push (VM.push vm a) b) c))

instance instDecidableIsCStringAt (buf : Buffer) :
    (s : List Nat) → (off : Nat) → Decidable (IsCStringAt buf off s)
  | [], off => inferInstanceAs (Decidable (buf off = 0))
  | x :: xs, off =>
    have := instDecidableIsCStringAt buf xs (off + 1)
    inferInstanceAs (Decidable (buf off = x ∧ x ≠ 0 ∧ x < 256 ∧ IsCStringAt buf (off + 1) xs))

/-- A VM of 1024 bytes whose memory holds the strings `a`, `b` and `c` at
the offsets 0, 2 and 4. -/
def abcMachine : VM :=
  { vm_init 1024 with
    memory := fun i => if i = 0 then 97 else if i = 2 then 98 else if i = 4 then 99 else 0 }

/-- The VM `abcMachine` after `CONCAT` of `a` and `b`. -/
def firstConcat : VM := op_concat (VM.push (VM.push abcMachine 0) 2)

/-- The VM `firstConcat` after `CONCAT` of `c` and `b`. -/
def secondConcat : VM := op_concat (VM.push (VM.push firstConcat 4) 2)

/-- The locals of `compile` when the token loop starts (lines 293-300). -/
def compileStart (st : Statics) : Compiler :=
  { bytecode := zeroBuffer, length := 0, statics := { st with str_offset := 0 } }

/-- The token loop run to the end of the text `p` from the state `c`. -/
def compileFrom (c : Compiler) (p : List Nat) : Compiler := compileLoop (p.length + 1) p c

/-- The source text `PUSH n` for a decimal literal `n`. -/
def pushIntProgram (n : Nat) : List Nat := cstr "PUSH " ++ decimal n

/-- The mnemonics that `compile` recognises (lines 320-379). -/
def mnemonics : List (List Nat) :=
  [cstr "PUSH", cstr "POP", cstr "ADD", cstr "SUB", cstr "MUL", cstr "DIV", cstr "STORE",
    cstr "LOAD", cstr "CALL", cstr "CONCAT", cstr "DUP", cstr "SWAP", cstr "PRINT"]

/-- A word of 258 bytes without blanks: 255 times `x`, then `POP`. -/
def longWord : List Nat := List.replicate 255 120 ++ cstr "POP"

/-- The mnemonics that take no operand. -/
inductive SimpleOp where
  | POP | ADD | SUB | MUL | DIV | STORE | LOAD | CONCAT | DUP | SWAP | PRINT

/-- The spelling of a mnemonic. -/
def SimpleOp.text : SimpleOp → List Nat
  | .POP => cstr "POP"
  | .ADD => cstr "ADD"
  | .SUB => cstr "SUB"
  | .MUL => cstr "MUL"
  | .DIV => cstr "DIV"
  | .STORE => cstr "STORE"
  | .LOAD => cstr "LOAD"
  | .CONCAT => cstr "CONCAT"
  | .DUP => cstr "DUP"
  | .SWAP => cstr "SWAP"
  | .PRINT => cstr "PRINT"

/-- The opcode of a mnemonic. -/
def SimpleOp.code : SimpleOp → Nat
  | .POP => OP_POP
  | .ADD => OP_ADD
  | .SUB => OP_SUB
  | .MUL => OP_MUL
  | .DIV => OP_DIV
  | .STORE => OP_STORE
  | .LOAD => OP_LOAD
  | .CONCAT => OP_CONCAT
  | .DUP => OP_DUP
  | .SWAP => OP_SWAP
  | .PRINT => OP_PRINT

/-- The names that `CALL` recognises (lines 359-374). -/
inductive CallTarget where
  | qr_mine | qr_generate | qr_print | qr_verify

/-- The spelling of a call target. -/
def CallTarget.text : CallTarget → List Nat
  | .qr_mine => cstr "qr_mine"
  | .qr_generate => cstr "qr_generate"
  | .qr_print => cstr "qr_print"
  | .qr_verify => cstr "qr_verify"

/-- The opcode of a call target. -/
def CallTarget.code : CallTarget → Nat
  | .qr_mine => OP_QR_MINE
  | .qr_generate => OP_QR_GENERATE
  | .qr_print => OP_QR_PRINT
  | .qr_verify => OP_QR_VERIFY

/-- A statement of a program that is written one statement per line. -/
inductive Stmt where
  | simple (o : SimpleOp)
  | pushInt (n : Nat)
  | pushStr (s : List Nat)
  | call (t : CallTarget)

/-- The source text of a statement. -/
def Stmt.text : Stmt → List Nat
  | .simple o => o.text
  | .pushInt n => cstr "PUSH " ++ decimal n
  | .pushStr s => cstr "PUSH " ++ 34 :: (s ++ [34])
  | .call t => cstr "CALL " ++ t.text

/-- The source text of a program: every statement is followed by a newline. -/
def programText : List Stmt → List Nat
  | [] => []
  | st :: rest => st.text ++ 10 :: programText rest

/-- The string literals of a program, in source order. -/
def literals : List Stmt → List (List Nat)
  | [] => []
  | Stmt.pushStr s :: rest => s :: literals rest
  | _ :: rest => literals rest

/-- The sum over `j < i` of `length (s_j) + 1`. -/
def poolOffset (lits : List (List Nat)) (i : Nat) : Nat :=
  ((lits.take i).map (fun s => s.length + 1)).sum

/-- What the token loop does to the locals of `compile` on one statement. -/
def Stmt.effect (c : Compiler) : Stmt → Compiler
  | .simple o => emit c o.code
  | .pushInt n => emit (emit c OP_PUSH) n
  | .pushStr s => (compilePushString (emit c OP_PUSH) (s ++ [34])).1
  | .call t => emit (emit c OP_CALL) t.code

/-- The number of bytes that a statement adds to the opcode stream. -/
def Stmt.size : Stmt → Nat
  | .simple _ => 1
  | .pushInt _ => 2
  | .pushStr _ => 5
  | .call _ => 2

/-- A program whose opcode stream reaches the string pool: 65532 lines
`POP`, then a line that pushes the string literal `hi`. -/
def longProgram : List Stmt :=
  List.replicate 65532 (Stmt.simple SimpleOp.POP) ++ [Stmt.pushStr (cstr "hi")]

/-- The number of bytes that a program adds to the opcode stream. -/
def streamSize (prog : List Stmt) : Nat := (prog.map Stmt.size).sum

/-- A program with two string literals: `PUSH "hi"`, `PUSH 7`, `PUSH "yo"`. -/
def twoLiterals : List Stmt :=
  [Stmt.pushStr (cstr "hi"), Stmt.pushInt 7, Stmt.pushStr (cstr "yo")]

/-- The matrix of `qrcode_create` after line 54, for a payload of `length`
bytes: the structural patterns are stamped, `add_data` has not run. -/
def structuralMatrix (length : Nat) (ecc : QRCodeECC) : QRCode :=
  let version := findVersion length 41 1
  let size := qrcode_get_size_for_version version
  let qr : QRCode := { version := version, size := size, ecc := ecc,
                       modules := fun _ => 0,
                       density := ⟨0, 0⟩, noise := ⟨0, 0⟩ }
  add_format_info (add_timing_patterns
    (add_alignment_patterns (add_finder_patterns (initialize_modules qr))))

/-- The locals of `add_data` when it returns. -/
def add_data_final (qr : QRCode) (data : List Nat) (length : Nat) : DataState :=
  dataLoop qr.size data length qr.size ((qr.size : Int) - 1) true
    { modules := qr.modules, data_idx := 0, returned := false }

/-- The number of unset modules of a matrix. -/
def unset_modules (qr : QRCode) : Nat :=
  ((List.range (qr.size * qr.size)).filter (fun i => qr.modules i == 0)).length

/-- A payload of six bytes `0xFF`. -/
def sixBytes : List Nat := List.replicate 6 255

/-- The opcodes of the round trip on a stack that holds the value on top
and the address below it: `STORE`, a push of the address, `LOAD`. -/
def storeThenLoad (vm : VM) (address : Int) : VM := op_load (VM.push (op_store vm) address)

/-- The bytes between the end of the opcode stream and the start of the
string pool are 0, as `calloc` left them. -/
def GapZero (c : Compiler) : Prop :=
  ∀ j, c.length ≤ j → j < STRING_POOL_START → c.bytecode j = 0

/-- The truth value that line 262 stores at row `r`, column `c` of a finder
pattern: `is_border || is_inner`. -/
def finderModule (r c : Nat) : Bool :=
  (r == 0 || r == 6 || c == 0 || c == 6) || (2 ≤ r && r ≤ 4 && 2 ≤ c && c ≤ 4)

/-- The modules of a band of `add_data` in the order in which the loops of
lines 320-321 visit them: the rows upwards or downwards, in each row the
column `pos` and then `pos - 1`. -/
def bandCells (size pos : Nat) (up : Bool) : List (Nat × Nat) :=
  (if up then (List.range size).reverse else List.range size).flatMap
    (fun row => (if 1 ≤ pos then [pos, pos - 1] else [pos]).map (fun col => (row, col)))

/-- The body of the column loop (lines 322-326) at the modules of a list,
in order. -/
def placeAll (size : Nat) (data : List Nat) (length : Nat) (cells : List (Nat × Nat))
    (st : DataState) : DataState :=
  cells.foldl (fun st p => placeBit size data length st p.1 p.2) st

/-- The number of modules of a list that are unset. -/
def unsetCells (size : Nat) (modules : Nat → Nat) (cells : List (Nat × Nat)) : Nat :=
  (cells.filter (fun p => modules (p.1 * size + p.2) == 0)).length

/-- Two payloads agree in their first `n` bytes. -/
def AgreeBelow (n : Nat) (d1 d2 : List Nat) : Prop :=
  ∀ i, i < n → d1.getD i 0 = d2.getD i 0

/-! ## Lemmas: compiler and stack machine -/

theorem cstr_PUSH : cstr "PUSH" = [80, 85, 83, 72] := by decide
theorem cstr_PUSH_sp : cstr "PUSH " = [80, 85, 83, 72, 32] := by decide
theorem cstr_ADD : cstr "ADD" = [65, 68, 68] := by decide
theorem cstr_PRINT : cstr "PRINT" = [80, 82, 73, 78, 84] := by decide

theorem isDigit_iff (c : Nat) : isDigit c = true ↔ 48 ≤ c ∧ c ≤ 57 := by
  simp [isDigit]

/-- Reading the digits of `n` adds `n` to the shifted accumulator. -/
theorem atoiDigits_decDigits (fuel : Nat) :
    ∀ n, n < fuel → ∃ k, ∀ acc rest,
      atoiDigits acc (decDigits fuel n ++ rest) = atoiDigits (acc * 10 ^ k + n) rest := by
  induction fuel with
  | zero => intro n h; omega
  | succ f ih =>
    intro n hn
    by_cases h10 : n < 10
    · refine ⟨1, fun acc rest => ?_⟩
      have hd : isDigit (48 + n) = true := by rw [isDigit_iff]; omega
      simp [decDigits, h10, atoiDigits, hd]
    · obtain ⟨k, hk⟩ := ih (n / 10) (by omega)
      refine ⟨k + 1, fun acc rest => ?_⟩
      have hd : isDigit (48 + n % 10) = true := by rw [isDigit_iff]; omega
      simp only [decDigits, h10, if_false, List.append_assoc, hk, List.singleton_append,
        atoiDigits, hd, if_true]
      congr 1
      have := Nat.div_add_mod n 10
      rw [pow_succ]
      have e : 48 + n % 10 - 48 = n % 10 := by omega
      rw [e]
      nlinarith [this]

theorem decDigits_digits (fuel : Nat) : ∀ n, ∀ c ∈ decDigits fuel n, isDigit c = true := by
  induction fuel with
  | zero => intro n c h; simp [decDigits] at h
  | succ f ih =>
    intro n c h
    by_cases h10 : n < 10
    · simp [decDigits, h10] at h
      rw [isDigit_iff]; omega
    · simp only [decDigits, h10, if_false, List.mem_append, List.mem_singleton] at h
      rcases h with h | h
      · exact ih _ _ h
      · rw [isDigit_iff]; omega

theorem decimal_ne_nil (n : Nat) : decimal n ≠ [] := by
  unfold decimal
  by_cases h10 : n < 10
  · simp [decDigits, h10]
  · simp [decDigits, h10]

theorem dropWhile_append_all (p : Nat → Bool) (l rest : List Nat)
    (h : ∀ c ∈ l, p c = true) : (l ++ rest).dropWhile p = rest.dropWhile p := by
  induction l with
  | nil => rfl
  | cons x xs ih =>
    have hx : p x = true := h x (List.mem_cons_self _ _)
    simp only [List.cons_append, List.dropWhile_cons, hx, if_true]
    exact ih (fun c hc => h c (List.mem_cons_of_mem _ hc))

theorem atoiDigits_stop (acc : Nat) (rest : List Nat) :
    atoiDigits acc (10 :: rest) = acc := by
  simp [atoiDigits, isDigit]

theorem emit_byteOfInt (c : Compiler) (n : Nat) : emit c (byteOfInt (n : Int)) = emit c n := by
  have h : byteOfInt (n : Int) = n % 256 := by
    unfold byteOfInt
    omega
  unfold emit poke
  rw [h]
  simp

theorem compileLoop_nil (fuel : Nat) (c : Compiler) : compileLoop fuel [] c = c := by
  cases fuel <;> simp [compileLoop, skipSpace]

/-- A word of at most `n` bytes followed by a delimiter is read whole. -/
theorem readToken_word (w : List Nat) : ∀ (n : Nat) (d : Nat) (rest : List Nat),
    (∀ c ∈ w, ¬ isDelim c) → w.length ≤ n → isDelim d →
    readToken (n + 1) (w ++ d :: rest) = (w, d :: rest) := by
  induction w with
  | nil =>
    intro n d rest _ _ hd
    unfold isDelim at hd
    simp [readToken, hd]
  | cons x xs ih =>
    intro n d rest hw hlen hd
    have hx : ¬ isDelim x := hw x (List.mem_cons_self _ _)
    unfold isDelim at hx
    cases n with
    | zero => simp at hlen
    | succ m =>
      have := ih m d rest (fun c hc => hw c (List.mem_cons_of_mem _ hc))
        (by simpa using hlen) hd
      simp [readToken, hx, this]

/-- A word of at most `n` bytes at the end of the text is read whole. -/
theorem readToken_last (w : List Nat) : ∀ (n : Nat),
    (∀ c ∈ w, ¬ isDelim c) → w.length ≤ n → readToken (n + 1) w = (w, []) := by
  induction w with
  | nil => intro n _ _; simp [readToken]
  | cons x xs ih =>
    intro n hw hlen
    have hx : ¬ isDelim x := hw x (List.mem_cons_self _ _)
    unfold isDelim at hx
    cases n with
    | zero => simp at hlen
    | succ m =>
      have := ih m (fun c hc => hw c (List.mem_cons_of_mem _ hc)) (by simpa using hlen)
      simp [readToken, hx, this]

/-- One pass of the token loop over a line `PUSH n`. -/
theorem compileLoop_push_decimal (fuel n : Nat) (rest : List Nat) (c : Compiler) :
    compileLoop (fuel + 1) (cstr "PUSH " ++ decimal n ++ 10 :: rest) c
      = compileLoop fuel (10 :: rest) (emit (emit c OP_PUSH) n) := by
  have hall := decDigits_digits (n + 1) n
  obtain ⟨k, hk⟩ := atoiDigits_decDigits (n + 1) n (Nat.lt_succ_self n)
  have hne := decimal_ne_nil n
  have hdrop := dropWhile_append_all isDigit (decimal n) (10 :: rest) hall
  have hval := hk 0 (10 :: rest)
  change atoiDigits 0 (decimal n ++ 10 :: rest) = _ at hval
  rw [atoiDigits_stop] at hval
  cases hdn : decimal n with
  | nil => exact absurd hdn hne
  | cons d ds =>
    rw [hdn] at hdrop hval
    have hd : 48 ≤ d ∧ d ≤ 57 := by
      have := hall d (by unfold decimal at hdn; rw [hdn]; exact List.mem_cons_self _ _)
      exact (isDigit_iff d).1 this
    have h1 : d ≠ 32 := by omega
    have h2 : d ≠ 9 := by omega
    have h3 : d ≠ 34 := by omega
    have h4 : d ≠ 45 := by omega
    have h5 : d ≠ 43 := by omega
    have hsp : isspace d = false := by
      simp [isspace]; omega
    have htok : readToken 255 (cstr "PUSH" ++ 32 :: (d :: ds ++ 10 :: rest))
        = (cstr "PUSH", 32 :: (d :: ds ++ 10 :: rest)) :=
      readToken_word (cstr "PUSH") 254 32 _ (by decide) (by decide) (by decide)
    rw [cstr_PUSH] at htok
    rw [cstr_PUSH_sp]
    simp only [List.cons_append, List.nil_append] at htok ⊢
    simp only [compileLoop, skipSpace]
    simp only [show ¬ ((80:Nat) = 32 ∨ (80:Nat) = 10 ∨ (80:Nat) = 9) by decide,
      show ¬ ((80:Nat) = 35) by decide, if_false, htok]
    simp [compileToken, cstr_PUSH, compilePush, skipInline, h1, h2, h3, compilePushInt, atoi,
      hsp, h4, h5]
    simp only [List.cons_append] at hval hdrop
    rw [hval, emit_byteOfInt]
    rw [hdrop]
    simp [List.dropWhile, isDigit]

/-- A newline in front of the next token does not change the pass. -/
theorem compileLoop_newline (fuel : Nat) (p : List Nat) (c : Compiler) :
    compileLoop (fuel + 1) (10 :: p) c = compileLoop (fuel + 1) p c := by
  simp [compileLoop, skipSpace]

/-- One pass of the token loop over a line `ADD` that follows a newline. -/
theorem compileLoop_add (fuel : Nat) (rest : List Nat) (c : Compiler) :
    compileLoop (fuel + 1) (10 :: (cstr "ADD" ++ 10 :: rest)) c
      = compileLoop fuel (10 :: rest) (emit c OP_ADD) := by
  have htok : readToken 255 (cstr "ADD" ++ 10 :: rest) = (cstr "ADD", 10 :: rest) :=
    readToken_word (cstr "ADD") 254 10 _ (by decide) (by decide) (by decide)
  rw [cstr_ADD] at htok ⊢
  simp only [List.cons_append, List.nil_append] at htok ⊢
  simp only [compileLoop, skipSpace]
  simp [htok, compileToken, cstr_PUSH, cstr_ADD, show cstr "POP" = [80, 79, 80] by decide]

/-- The last pass of the token loop over a final line `PRINT`. -/
theorem compileLoop_print_last (fuel : Nat) (c : Compiler) :
    compileLoop (fuel + 1) (10 :: cstr "PRINT") c = emit c OP_PRINT := by
  have htok : readToken 255 (cstr "PRINT") = (cstr "PRINT", []) :=
    readToken_last (cstr "PRINT") 254 (by decide) (by decide)
  rw [cstr_PRINT] at htok ⊢
  simp only [compileLoop, skipSpace]
  simp [htok, compileToken, cstr_PUSH, cstr_ADD, cstr_PRINT, compileLoop_nil,
    show cstr "POP" = [80, 79, 80] by decide, show cstr "SUB" = [83, 85, 66] by decide,
    show cstr "MUL" = [77, 85, 76] by decide, show cstr "DIV" = [68, 73, 86] by decide,
    show cstr "STORE" = [83, 84, 79, 82, 69] by decide,
    show cstr "LOAD" = [76, 79, 65, 68] by decide,
    show cstr "CALL" = [67, 65, 76, 76] by decide,
    show cstr "CONCAT" = [67, 79, 78, 67, 65, 84] by decide,
    show cstr "DUP" = [68, 85, 80] by decide, show cstr "SWAP" = [83, 87, 65, 80] by decide]

theorem compile_addPrintProgram (st : Statics) (a b : Nat) :
    compile st (addPrintProgram a b)
      = { bytecode := poke (poke (poke (poke (poke (poke zeroBuffer 0 OP_PUSH) 1 a) 2 OP_PUSH)
            3 b) 4 OP_ADD) 5 OP_PRINT,
          length := 6,
          statics := { st with str_offset := 0 } } := by
  unfold compile addPrintProgram
  obtain ⟨m, hm⟩ : ∃ m, (cstr "PUSH " ++ decimal a ++ 10 :: (cstr "PUSH " ++ decimal b ++
      10 :: (cstr "ADD" ++ 10 :: cstr "PRINT"))).length + 1 = m + 4 := by
    refine ⟨(decimal a).length + (decimal b).length + 18, ?_⟩
    simp [cstr_PUSH_sp, cstr_ADD, cstr_PRINT]
    omega
  rw [hm, compileLoop_push_decimal, compileLoop_newline, compileLoop_push_decimal,
    compileLoop_add, compileLoop_print_last]
  simp [emit]

theorem wrap32_small (x : Int) (h0 : 0 ≤ x) (h1 : x < 2147483648) : wrap32 x = x := by
  unfold wrap32
  omega

/-- Running the six bytes `PUSH a PUSH b ADD PRINT` from an empty stack. -/
theorem vm_execute_addPrint (bridge : Nat → VM → Option VM) (bc : Buffer) (vm : VM)
    (a b : Nat) (hne : a + b ≠ 255) (hs : a + b < 2147483648)
    (h0 : bc 0 = 1) (h1 : bc 1 = a) (h2 : bc 2 = 1) (h3 : bc 3 = b) (h4 : bc 4 = 3)
    (h5 : bc 5 = 13) (hst : vm.stack = []) (hrun : vm.running = true) :
    vm_execute bridge vm bc 6
      = some { vm with stack := [], out := vm.out ++ [decimal (a + b)] } := by
  have hw : wrap32 ((a : Int) + (b : Int)) = ((a + b : Nat) : Int) := by
    rw [wrap32_small] <;> omega
  have hne2 : ¬ (((a + b : Nat) : Int) = 255) := by omega
  have hnn : ¬ (((a + b : Nat) : Int) < 0) := by omega
  simp only [vm_execute, vm_loop, vm_step, h0, h1, h2, h3, h4, h5, hst, hrun, VM.push,
    stack_push, binop, stack_pop, op_print, OP_PUSH, OP_POP, OP_ADD, OP_SUB, OP_MUL, OP_DIV,
    OP_STORE, OP_LOAD, OP_QR_MINE, OP_QR_GENERATE, OP_QR_PRINT, OP_QR_VERIFY, OP_CONCAT,
    OP_DUP, OP_SWAP, OP_PRINT, STACK_SIZE, STRING_MARKER, hw, showInt]
  have hne3 : ¬ ((a : Int) + (b : Int) = 255) := by omega
  have hnn3 : ¬ ((a : Int) + (b : Int) < 0) := by omega
  have htn : ((a : Int) + (b : Int)).toNat = a + b := by omega
  simp [hne2, hnn, h0, h1, h2, h3, h4, h5, hw, hne3, hnn3, htn]

/-! ## Lemmas: string literals -/

theorem poke_same (buf : Buffer) (i v : Nat) : poke buf i v i = v % 256 := by
  simp [poke]

theorem poke_other (buf : Buffer) (i v j : Nat) (h : j ≠ i) : poke buf i v j = buf j := by
  simp [poke, h]

/-- Copying a literal up to its closing quote: the bytes below the first
written index are unchanged, `i` advances by the length of the literal, and
the rest of the text starts at the closing quote. -/
theorem copyLiteral_spec (loc : Nat) : ∀ (s : List Nat) (buf : Buffer) (i : Nat)
    (rest : List Nat), 34 ∉ s →
    (∀ j, j < loc + i → (copyLiteral loc buf i (s ++ 34 :: rest)).1 j = buf j) ∧
      (copyLiteral loc buf i (s ++ 34 :: rest)).2.1 = i + s.length ∧
      (copyLiteral loc buf i (s ++ 34 :: rest)).2.2 = 34 :: rest := by
  intro s
  induction s with
  | nil =>
    intro buf i rest _
    simp [copyLiteral]
  | cons x xs ih =>
    intro buf i rest hs
    have hx : x ≠ 34 := fun h => hs (by rw [h]; exact List.mem_cons_self _ _)
    have hxs : 34 ∉ xs := fun h => hs (List.mem_cons_of_mem _ h)
    obtain ⟨h1, h2, h3⟩ := ih (poke buf (loc + i) x) (i + 1) rest hxs
    simp only [List.cons_append, copyLiteral, hx, if_false]
    refine ⟨?_, ?_, h3⟩
    · intro j hj
      refine (h1 j (by omega)).trans ?_
      unfold poke
      rw [if_neg (by omega)]
    · refine h2.trans ?_
      rw [List.length_cons]
      omega

/-- The token loop on a `PUSH` of the string literal `s`, from a state
whose pool cursor is 0: the literal goes to the pool and the four bytes
01 FF 01 00 follow the `OP_PUSH` that line 321 has already emitted. -/
theorem compileLoop_push_string (fuel : Nat) (s rest : List Nat) (c : Compiler)
    (hs : 34 ∉ s) (hc : c.statics.str_offset_inner = 0) (hlen : c.length + 5 ≤ 65536) :
    ∃ c2, compileLoop (fuel + 1) (cstr "PUSH " ++ 34 :: (s ++ 34 :: rest)) c
        = compileLoop fuel rest c2 ∧
      c2.length = c.length + 5 ∧
      (∀ j, j < c.length → c2.bytecode j = c.bytecode j) ∧
      c2.bytecode c.length = 1 ∧ c2.bytecode (c.length + 1) = 1 ∧
      c2.bytecode (c.length + 2) = 255 ∧ c2.bytecode (c.length + 3) = 1 ∧
      c2.bytecode (c.length + 4) = 0 := by
  have htok : readToken 255 (cstr "PUSH" ++ 32 :: 34 :: (s ++ 34 :: rest))
      = (cstr "PUSH", 32 :: 34 :: (s ++ 34 :: rest)) :=
    readToken_word (cstr "PUSH") 254 32 _ (by decide) (by decide) (by decide)
  rw [cstr_PUSH] at htok
  rw [cstr_PUSH_sp]
  simp only [List.cons_append, List.nil_append] at htok ⊢
  simp only [compileLoop, skipSpace]
  simp only [show ¬ ((80:Nat) = 32 ∨ (80:Nat) = 10 ∨ (80:Nat) = 9) by decide,
    show ¬ ((80:Nat) = 35) by decide, if_false, htok]
  obtain ⟨h1, h2, h3⟩ := copyLiteral_spec (STRING_POOL_START + 0) s
    (poke c.bytecode c.length OP_PUSH) 0 rest hs
  have hP : STRING_POOL_START = 65536 := rfl
  rw [hP] at h1 h2 h3
  simp only [compileToken, cstr_PUSH, if_true, compilePush, skipInline, List.dropWhile,
    show ((32:Nat) == 32 || (32:Nat) == 9) = true by decide,
    show ((34:Nat) == 32 || (34:Nat) == 9) = false by decide, compilePushString, emit, hc, hP,
    h3, skipQuote]
  refine ⟨_, rfl, ?_, ?_, ?_, ?_, ?_, ?_, ?_⟩
  · simp only []
  · intro j hj
    simp only []
    rw [poke_other _ _ _ _ (by omega), poke_other _ _ _ _ (by omega),
      poke_other _ _ _ _ (by omega), poke_other _ _ _ _ (by omega),
      poke_other _ _ _ _ (by omega), h1 j (by omega), poke_other _ _ _ _ (by omega)]
  · simp only []
    rw [poke_other _ _ _ _ (by omega), poke_other _ _ _ _ (by omega),
      poke_other _ _ _ _ (by omega), poke_other _ _ _ _ (by omega),
      poke_other _ _ _ _ (by omega), h1 c.length (by omega), poke_same]
    rfl
  · simp only []
    rw [poke_other _ _ _ _ (by omega), poke_other _ _ _ _ (by omega),
      poke_other _ _ _ _ (by omega), poke_same]
    rfl
  · simp only []
    rw [poke_other _ _ _ _ (by omega), poke_other _ _ _ _ (by omega), poke_same]
    rfl
  · simp only []
    rw [poke_other _ _ _ _ (by omega), poke_same]
    rfl
  · simp only []
    rw [poke_same]

/-- What `compile` makes of a `PUSH` of the string literal `s` from a fresh
state: five bytes, 01 01 FF 01 00. -/
theorem compile_pushStringProgram (s : List Nat) (hs : 34 ∉ s) :
    (compile Statics.fresh (pushStringProgram s)).length = 5 ∧
      (compile Statics.fresh (pushStringProgram s)).bytecode 0 = 1 ∧
      (compile Statics.fresh (pushStringProgram s)).bytecode 1 = 1 ∧
      (compile Statics.fresh (pushStringProgram s)).bytecode 2 = 255 ∧
      (compile Statics.fresh (pushStringProgram s)).bytecode 3 = 1 ∧
      (compile Statics.fresh (pushStringProgram s)).bytecode 4 = 0 := by
  unfold compile pushStringProgram
  obtain ⟨c2, h, hl, _, b0, b1, b2, b3, b4⟩ := compileLoop_push_string
    (cstr "PUSH " ++ 34 :: (s ++ [34])).length s []
    { bytecode := zeroBuffer, length := 0, statics := { Statics.fresh with str_offset := 0 } }
    hs rfl (by norm_num)
  simp only [] at h hl b0 b1 b2 b3 b4 ⊢
  rw [h, compileLoop_nil]
  simp only [Nat.zero_add] at hl b0 b1 b2 b3 b4
  exact ⟨hl, b0, b1, b2, b3, b4⟩

/-- What `compile` makes of a `PUSH` of the string literal `s` followed by
`PRINT` from a fresh state: six bytes, 01 01 FF 01 00 0D. -/
theorem compile_printStringProgram (s : List Nat) (hs : 34 ∉ s) :
    (compile Statics.fresh (printStringProgram s)).length = 6 ∧
      (compile Statics.fresh (printStringProgram s)).bytecode 0 = 1 ∧
      (compile Statics.fresh (printStringProgram s)).bytecode 1 = 1 ∧
      (compile Statics.fresh (printStringProgram s)).bytecode 2 = 255 ∧
      (compile Statics.fresh (printStringProgram s)).bytecode 3 = 1 ∧
      (compile Statics.fresh (printStringProgram s)).bytecode 4 = 0 ∧
      (compile Statics.fresh (printStringProgram s)).bytecode 5 = 13 := by
  unfold compile printStringProgram
  obtain ⟨m, hm⟩ : ∃ m, (cstr "PUSH " ++ 34 :: (s ++ 34 :: 10 :: cstr "PRINT")).length + 1
      = m + 1 + 1 := ⟨_, by simp; rfl⟩
  obtain ⟨c2, h, hl, _, b0, b1, b2, b3, b4⟩ := compileLoop_push_string
    (m + 1) s (10 :: cstr "PRINT")
    { bytecode := zeroBuffer, length := 0, statics := { Statics.fresh with str_offset := 0 } }
    hs rfl (by norm_num)
  simp only [] at h hl b0 b1 b2 b3 b4 ⊢
  rw [hm, h, compileLoop_print_last]
  simp only [Nat.zero_add] at hl b0 b1 b2 b3 b4
  simp only [emit, hl]
  refine ⟨trivial, ?_, ?_, ?_, ?_, ?_, ?_⟩
  · rw [poke_other _ _ _ _ (by omega)]; exact b0
  · rw [poke_other _ _ _ _ (by omega)]; exact b1
  · rw [poke_other _ _ _ _ (by omega)]; exact b2
  · rw [poke_other _ _ _ _ (by omega)]; exact b3
  · rw [poke_other _ _ _ _ (by omega)]; exact b4
  · rw [poke_same]
    rfl

/-- Running the five bytes 01 01 FF 01 00 from an empty stack: `PUSH 1`, an
unknown opcode, `PUSH 0`. -/
theorem vm_execute_pushString (bridge : Nat → VM → Option VM) (bc : Buffer) (vm : VM)
    (h0 : bc 0 = 1) (h1 : bc 1 = 1) (h2 : bc 2 = 255) (h3 : bc 3 = 1) (h4 : bc 4 = 0)
    (hst : vm.stack = []) (hrun : vm.running = true) :
    vm_execute bridge vm bc 5 = some { vm with stack := [0, 1] } := by
  simp only [vm_execute, vm_loop, vm_step, h0, h1, h2, h3, h4, hst, hrun, VM.push,
    stack_push, OP_PUSH, OP_POP, OP_ADD, OP_SUB, OP_MUL, OP_DIV,
    OP_STORE, OP_LOAD, OP_QR_MINE, OP_QR_GENERATE, OP_QR_PRINT, OP_QR_VERIFY, OP_CONCAT,
    OP_DUP, OP_SWAP, OP_PRINT, STACK_SIZE]
  simp [h0, h1, h2, h3, h4]

/-- Running the six bytes 01 01 FF 01 00 0D from an empty stack: `PRINT`
pops the 0 on top, which is not the marker, and prints it as an integer. -/
theorem vm_execute_printString (bridge : Nat → VM → Option VM) (bc : Buffer) (vm : VM)
    (h0 : bc 0 = 1) (h1 : bc 1 = 1) (h2 : bc 2 = 255) (h3 : bc 3 = 1) (h4 : bc 4 = 0)
    (h5 : bc 5 = 13) (hst : vm.stack = []) (hrun : vm.running = true) :
    vm_execute bridge vm bc 6 = some { vm with stack := [1], out := vm.out ++ [cstr "0"] } := by
  have hz : showInt 0 = cstr "0" := by decide
  simp only [vm_execute, vm_loop, vm_step, h0, h1, h2, h3, h4, h5, hst, hrun, VM.push,
    stack_push, stack_pop, op_print, OP_PUSH, OP_POP, OP_ADD, OP_SUB, OP_MUL, OP_DIV,
    OP_STORE, OP_LOAD, OP_QR_MINE, OP_QR_GENERATE, OP_QR_PRINT, OP_QR_VERIFY, OP_CONCAT,
    OP_DUP, OP_SWAP, OP_PRINT, STACK_SIZE, STRING_MARKER]
  simp [h0, h1, h2, h3, h4, h5, hz]

/-! ## Lemmas: the token loop is never cut short -/

theorem skipSpace_length_le : ∀ (p : List Nat) (b : Bool), (skipSpace b p).length ≤ p.length := by
  intro p
  induction p with
  | nil => intro b; cases b <;> simp [skipSpace]
  | cons x xs ih =>
    intro b
    cases b
    · simp only [skipSpace]
      split
      · exact Nat.le_succ_of_le (ih false)
      · split
        · exact Nat.le_succ_of_le (ih true)
        · exact le_refl _
    · simp only [skipSpace]
      split
      · exact Nat.le_succ_of_le (ih false)
      · exact Nat.le_succ_of_le (ih true)

/-- The text left after the blanks and comments starts with a token byte. -/
theorem skipSpace_head : ∀ (p : List Nat) (b : Bool) (x : Nat) (xs : List Nat),
    skipSpace b p = x :: xs → ¬ isDelim x := by
  intro p
  induction p with
  | nil => intro b x xs h; cases b <;> simp [skipSpace] at h
  | cons y ys ih =>
    intro b x xs h
    cases b
    · simp only [skipSpace] at h
      split at h
      · exact ih false x xs h
      · split at h
        · exact ih true x xs h
        · rename_i h1 h2
          have hxy : y = x := (List.cons.inj h).1
          rw [← hxy]
          unfold isDelim
          omega
    · simp only [skipSpace] at h
      split at h
      · exact ih false x xs h
      · exact ih true x xs h

theorem readToken_length_le : ∀ (n : Nat) (p : List Nat),
    (readToken n p).2.length ≤ p.length := by
  intro n
  induction n with
  | zero => intro p; simp [readToken]
  | succ n ih =>
    intro p
    cases p with
    | nil => simp [readToken]
    | cons x xs =>
      simp only [readToken]
      split
      · exact le_refl _
      · exact Nat.le_succ_of_le (ih xs)

/-- A token that starts with a token byte takes at least that byte. -/
theorem readToken_length_lt (n x : Nat) (xs : List Nat) (hx : ¬ isDelim x) :
    (readToken (n + 1) (x :: xs)).2.length < (x :: xs).length := by
  unfold isDelim at hx
  simp only [readToken, hx, if_false, List.length_cons]
  exact Nat.lt_succ_of_le (readToken_length_le n xs)

theorem copyLiteral_length_le (loc : Nat) : ∀ (q : List Nat) (buf : Buffer) (i : Nat),
    (copyLiteral loc buf i q).2.2.length ≤ q.length := by
  intro q
  induction q with
  | nil => intro buf i; simp [copyLiteral]
  | cons x xs ih =>
    intro buf i
    simp only [copyLiteral]
    split
    · exact le_refl _
    · exact Nat.le_succ_of_le (ih _ _)

theorem skipQuote_length_le (p : List Nat) : (skipQuote p).length ≤ p.length := by
  cases p with
  | nil => simp [skipQuote]
  | cons x xs =>
    simp only [skipQuote]
    split
    · exact Nat.le_succ _
    · exact le_refl _

theorem dropWhile_length_le (f : Nat → Bool) (p : List Nat) :
    (p.dropWhile f).length ≤ p.length :=
  (List.dropWhile_sublist f).length_le

theorem compilePush_length_le (c : Compiler) (p : List Nat) :
    (compilePush c p).2.length ≤ p.length := by
  unfold compilePush
  have h := dropWhile_length_le (fun c => c == 32 || c == 9) p
  unfold skipInline
  cases hq : p.dropWhile (fun c => c == 32 || c == 9) with
  | nil => simp [compilePushInt]
  | cons d q =>
    rw [hq] at h
    simp only []
    split
    · simp only [compilePushString]
      have h1 := skipQuote_length_le
        (copyLiteral (STRING_POOL_START + (emit c OP_PUSH).statics.str_offset_inner)
          (emit c OP_PUSH).bytecode 0 q).2.2
      have h2 := copyLiteral_length_le
        (STRING_POOL_START + (emit c OP_PUSH).statics.str_offset_inner) q
        (emit c OP_PUSH).bytecode 0
      simp only [List.length_cons] at h
      omega
    · simp only [compilePushInt]
      have h1 := dropWhile_length_le isDigit (d :: q)
      omega

theorem compileCall_length_le (c : Compiler) (p : List Nat) :
    (compileCall c p).2.length ≤ p.length := by
  unfold compileCall
  have h := dropWhile_length_le (fun c => c == 32 || c == 9) p
  unfold skipInline
  simp only []
  split
  · simp only [List.length_drop]; omega
  · split
    · simp only [List.length_drop]; omega
    · split
      · simp only [List.length_drop]; omega
      · split
        · simp only [List.length_drop]; omega
        · exact h

theorem ite_snd_length_le {C : Prop} [Decidable C] (a b : Compiler × List Nat) (n : Nat)
    (ha : a.2.length ≤ n) (hb : b.2.length ≤ n) : (if C then a else b).2.length ≤ n := by
  split
  · exact ha
  · exact hb

theorem compileToken_length_le (token : List Nat) (c : Compiler) (p : List Nat) :
    (compileToken token c p).2.length ≤ p.length := by
  unfold compileToken
  have hp := compilePush_length_le c p
  have hc := compileCall_length_le c p
  repeat' (first | exact hp | exact hc | exact Nat.le_refl _ | apply ite_snd_length_le)

/-- The token loop does not depend on the fuel once the fuel exceeds the
length of the text: `compile` is never cut short. -/
theorem compileLoop_fuel : ∀ (fuel1 fuel2 : Nat) (p : List Nat) (c : Compiler),
    p.length < fuel1 → p.length < fuel2 →
    compileLoop fuel1 p c = compileLoop fuel2 p c := by
  intro fuel1
  induction fuel1 with
  | zero => intro fuel2 p c h1 _; omega
  | succ f1 ih =>
    intro fuel2 p c h1 h2
    cases fuel2 with
    | zero => omega
    | succ f2 =>
      simp only [compileLoop]
      have hlen := skipSpace_length_le p false
      cases hq : skipSpace false p with
      | nil => rfl
      | cons x xs =>
        simp only []
        have hx := skipSpace_head p false x xs hq
        have h3 : (readToken 255 (x :: xs)).2.length < (x :: xs).length :=
          readToken_length_lt 254 x xs hx
        have h4 := compileToken_length_le (readToken 255 (x :: xs)).1 c
          (readToken 255 (x :: xs)).2
        rw [hq] at hlen
        apply ih
        · omega
        · omega

/-! ## Lemmas: floating-point metrics -/

theorem f32scale_spec (n d : Nat) : ∀ (fuel k : Nat),
    2 ^ 23 * d ≤ n * 2 ^ (k + fuel) →
    (∀ j, j < k → n * 2 ^ j < 2 ^ 23 * d) →
    2 ^ 23 * d ≤ n * 2 ^ (f32scale n d fuel k) ∧
      ∀ j, j < f32scale n d fuel k → n * 2 ^ j < 2 ^ 23 * d := by
  intro fuel
  induction fuel with
  | zero =>
    intro k h1 h2
    simpa [f32scale] using ⟨h1, h2⟩
  | succ f ih =>
    intro k h1 h2
    unfold f32scale
    by_cases hlt : n * 2 ^ k < 2 ^ 23 * d
    · rw [if_pos hlt]
      apply ih (k + 1)
      · rw [show k + 1 + f = k + (f + 1) by omega]; exact h1
      · intro j hj
        rcases Nat.lt_succ_iff_lt_or_eq.1 hj with h | h
        · exact h2 j h
        · rw [h]; exact hlt
    · rw [if_neg hlt]
      exact ⟨Nat.le_of_not_lt hlt, h2⟩

/-- The significand of a single-precision quotient has 24 bits. -/
theorem f32div_isSingle (n d : Nat) (hn : n ≤ d) (hd : 0 < d) (hd2 : d < 2 ^ 24) :
    (f32div n d).IsSingle := by
  unfold f32div
  by_cases h0 : n = 0
  · simp [h0, Dyadic.IsSingle]
  · rw [if_neg h0]
    have hn1 : 1 ≤ n := Nat.pos_of_ne_zero h0
    have hfuel : 2 ^ 23 * d ≤ n * 2 ^ (0 + 64) := by
      have : 2 ^ 23 * d ≤ 2 ^ 23 * 2 ^ 24 := Nat.mul_le_mul_left _ (le_of_lt hd2)
      have h2 : (2 : Nat) ^ 23 * 2 ^ 24 ≤ 1 * 2 ^ (0 + 64) := by norm_num
      exact le_trans this (le_trans h2 (Nat.mul_le_mul_right _ hn1))
    obtain ⟨hk1, hk2⟩ := f32scale_spec n d 64 0 hfuel (fun j hj => absurd hj (Nat.not_lt_zero j))
    generalize f32scale n d 64 0 = k at hk1 hk2
    have hkpos : 0 < k := by
      rcases Nat.eq_zero_or_pos k with h | h
      · rw [h] at hk1
        simp at hk1
        have : d < 2 ^ 23 * d := by omega
        omega
      · exact h
    have hprev := hk2 (k - 1) (by omega)
    have hpow : 2 ^ k = 2 * 2 ^ (k - 1) := by
      rw [← pow_succ']; congr 1; omega
    have hup : n * 2 ^ k < 2 ^ 24 * d := by
      rw [hpow]
      have : n * (2 * 2 ^ (k - 1)) = 2 * (n * 2 ^ (k - 1)) := by ring
      rw [this]
      omega
    have hq1 : 2 ^ 23 ≤ n * 2 ^ k / d := (Nat.le_div_iff_mul_le hd).2 hk1
    have hq2 : n * 2 ^ k / d < 2 ^ 24 := (Nat.div_lt_iff_lt_mul hd).2 hup
    right
    simp only []
    split <;> constructor <;> omega

/-- A single-precision quotient of `n ≤ d` is at most one. -/
theorem f32div_mant_le (n d : Nat) (hn : n ≤ d) (hd : 0 < d) :
    (f32div n d).mant ≤ 2 ^ (f32div n d).exp := by
  unfold f32div
  by_cases h0 : n = 0
  · simp [h0]
  · rw [if_neg h0]
    simp only []
    generalize f32scale n d 64 0 = k
    have hq : n * 2 ^ k / d ≤ 2 ^ k := by
      apply Nat.div_le_of_le_mul
      exact Nat.mul_le_mul_right _ hn
    by_cases heq : n * 2 ^ k / d = 2 ^ k
    · -- then the division is exact, nothing is rounded up
      have hmod : n * 2 ^ k % d = 0 := by
        have h1 := Nat.div_add_mod (n * 2 ^ k) d
        rw [heq] at h1
        have h2 : n * 2 ^ k ≤ d * 2 ^ k := Nat.mul_le_mul_right _ hn
        omega
      have hcond : ¬ (d < 2 * (n * 2 ^ k % d) ∨
          (2 * (n * 2 ^ k % d) = d ∧ n * 2 ^ k / d % 2 = 1)) := by
        rw [hmod]; omega
      rw [if_neg hcond]
      exact hq
    · have : n * 2 ^ k / d < 2 ^ k := lt_of_le_of_ne hq heq
      split <;> omega

theorem Dyadic.toRat_nonneg (x : Dyadic) : 0 ≤ x.toRat := by
  unfold Dyadic.toRat
  positivity

theorem Dyadic.toRat_le_one (x : Dyadic) (h : x.mant ≤ 2 ^ x.exp) : x.toRat ≤ 1 := by
  unfold Dyadic.toRat
  rw [div_le_one (by positivity)]
  exact_mod_cast h

theorem Dyadic.toRat_le_iff (x : Dyadic) (a b : Nat) (hb : 0 < b) :
    x.toRat ≤ (a : ℚ) / (b : ℚ) ↔ x.mant * b ≤ a * 2 ^ x.exp := by
  unfold Dyadic.toRat
  rw [div_le_div_iff₀ (by positivity) (by exact_mod_cast hb)]
  exact_mod_cast Iff.rfl

theorem Dyadic.le_toRat_iff (x : Dyadic) (a b : Nat) (hb : 0 < b) :
    (a : ℚ) / (b : ℚ) ≤ x.toRat ↔ a * 2 ^ x.exp ≤ x.mant * b := by
  unfold Dyadic.toRat
  rw [div_le_div_iff₀ (by exact_mod_cast hb) (by positivity)]
  exact_mod_cast Iff.rfl

theorem pow_cases (e c : Nat) : (e < c ∧ 2 ^ e * 2 ≤ 2 ^ c) ∨ e = c ∨ (c < e ∧ 2 ^ c * 2 ≤ 2 ^ e) := by
  rcases Nat.lt_trichotomy e c with h | h | h
  · left
    refine ⟨h, ?_⟩
    rw [← pow_succ]
    exact Nat.pow_le_pow_right (by norm_num) h
  · right; left; exact h
  · right; right
    refine ⟨h, ?_⟩
    rw [← pow_succ]
    exact Nat.pow_le_pow_right (by norm_num) h

/-- No single-precision value lies between 4/5 and the `double` 0.8. -/
theorem not_lt_MAX_DENSITY_iff (x : Dyadic) (hx : x.IsSingle) :
    Dyadic.lt MAX_DENSITY x = false ↔ x.toRat ≤ 4 / 5 := by
  have h := Dyadic.toRat_le_iff x 4 5 (by norm_num)
  simp only [Nat.cast_ofNat] at h
  rw [h]
  simp only [Dyadic.lt, MAX_DENSITY, decide_eq_false_iff_not, not_lt]
  rcases hx with h0 | ⟨h1, h2⟩
  · simp [h0]
  · rcases pow_cases x.exp 24 with ⟨_, hp⟩ | he | ⟨_, hp⟩
    · generalize 2 ^ x.exp = P at hp ⊢
      norm_num at hp h1 h2 ⊢
      constructor <;> intro h <;> omega
    · rw [he]
      norm_num at h1 h2 ⊢
      constructor <;> intro h <;> omega
    · generalize 2 ^ x.exp = P at hp ⊢
      norm_num at hp h1 h2 ⊢
      constructor <;> intro h <;> omega

/-- No single-precision value lies between the `double` 0.3 and 3/10. -/
theorem not_lt_MIN_DENSITY_iff (x : Dyadic) (hx : x.IsSingle) :
    Dyadic.lt x MIN_DENSITY = false ↔ 3 / 10 ≤ x.toRat := by
  have h := Dyadic.le_toRat_iff x 3 10 (by norm_num)
  simp only [Nat.cast_ofNat] at h
  rw [h]
  simp only [Dyadic.lt, MIN_DENSITY, decide_eq_false_iff_not, not_lt]
  rcases hx with h0 | ⟨h1, h2⟩
  · simp [h0]
  · rcases pow_cases x.exp 25 with ⟨_, hp⟩ | he | ⟨_, hp⟩
    · generalize 2 ^ x.exp = P at hp ⊢
      norm_num at hp h1 h2 ⊢
      constructor <;> intro h <;> omega
    · rw [he]
      norm_num at h1 h2 ⊢
      constructor <;> intro h <;> omega
    · generalize 2 ^ x.exp = P at hp ⊢
      norm_num at hp h1 h2 ⊢
      constructor <;> intro h <;> omega

/-- No single-precision value lies between 1/5 and the `double` 0.2. -/
theorem not_lt_MAX_NOISE_iff (x : Dyadic) (hx : x.IsSingle) :
    Dyadic.lt MAX_NOISE x = false ↔ x.toRat ≤ 1 / 5 := by
  have h := Dyadic.toRat_le_iff x 1 5 (by norm_num)
  simp only [Nat.cast_ofNat, Nat.cast_one] at h
  rw [h]
  simp only [Dyadic.lt, MAX_NOISE, decide_eq_false_iff_not, not_lt]
  rcases hx with h0 | ⟨h1, h2⟩
  · simp [h0]
  · rcases pow_cases x.exp 26 with ⟨_, hp⟩ | he | ⟨_, hp⟩
    · generalize 2 ^ x.exp = P at hp ⊢
      norm_num at hp h1 h2 ⊢
      constructor <;> intro h <;> omega
    · rw [he]
      norm_num at h1 h2 ⊢
      constructor <;> intro h <;> omega
    · generalize 2 ^ x.exp = P at hp ⊢
      norm_num at hp h1 h2 ⊢
      constructor <;> intro h <;> omega

/-! ## Lemmas: hash comparison -/

/-- The comparison loop from index `i` over `n` bytes decides the
lexicographic order of the two `n`-byte windows. -/
theorem compareHash_iff (a b : List Nat) : ∀ (n i : Nat),
    compareHash a b n i = true ↔
      ((∀ j, j < n → a.getD (i + j) 0 = b.getD (i + j) 0) ∨
        ∃ j, j < n ∧ a.getD (i + j) 0 < b.getD (i + j) 0 ∧
          ∀ l, l < j → a.getD (i + l) 0 = b.getD (i + l) 0) := by
  intro n
  induction n with
  | zero =>
    intro i
    simp [compareHash]
  | succ n ih =>
    intro i
    unfold compareHash
    by_cases hgt : b.getD i 0 < a.getD i 0
    · rw [if_pos hgt]
      constructor
      · intro h; exact absurd h (by simp)
      · rintro (h | ⟨j, hj, hlt, hpre⟩)
        · have := h 0 (Nat.succ_pos n)
          rw [Nat.add_zero] at this
          omega
        · cases j with
          | zero => rw [Nat.add_zero] at hlt; omega
          | succ j =>
            have := hpre 0 (Nat.succ_pos j)
            rw [Nat.add_zero] at this
            omega
    · rw [if_neg hgt]
      by_cases hlt : a.getD i 0 < b.getD i 0
      · rw [if_pos hlt]
        simp only [true_iff]
        right
        exact ⟨0, Nat.succ_pos n, by rw [Nat.add_zero]; exact hlt,
          fun l hl => absurd hl (Nat.not_lt_zero l)⟩
      · rw [if_neg hlt]
        have heq : a.getD i 0 = b.getD i 0 := by omega
        rw [ih (i + 1)]
        constructor
        · rintro (h | ⟨j, hj, hlt2, hpre⟩)
          · left
            intro j hj
            cases j with
            | zero => rw [Nat.add_zero]; exact heq
            | succ j =>
              have := h j (by omega)
              rw [show i + 1 + j = i + (j + 1) by omega] at this
              exact this
          · right
            refine ⟨j + 1, by omega, ?_, ?_⟩
            · rw [show i + 1 + j = i + (j + 1) by omega] at hlt2
              exact hlt2
            · intro l hl
              cases l with
              | zero => rw [Nat.add_zero]; exact heq
              | succ l =>
                have := hpre l (by omega)
                rw [show i + 1 + l = i + (l + 1) by omega] at this
                exact this
        · rintro (h | ⟨j, hj, hlt2, hpre⟩)
          · left
            intro j hj
            have := h (j + 1) (by omega)
            rw [show i + 1 + j = i + (j + 1) by omega]
            exact this
          · cases j with
            | zero => rw [Nat.add_zero] at hlt2; omega
            | succ j =>
              right
              refine ⟨j, by omega, ?_, ?_⟩
              · rw [show i + 1 + j = i + (j + 1) by omega]
                exact hlt2
              · intro l hl
                have := hpre (l + 1) (by omega)
                rw [show i + 1 + l = i + (l + 1) by omega]
                exact this

/-- The loop of `qrcode_validate_pow` accepts exactly when the hash is at
most the target in the lexicographic order. -/
theorem compareHash_eq_true_iff (a b : List Nat) :
    compareHash a b SHA256_DIGEST_LENGTH 0 = true ↔ LexLe a b := by
  rw [compareHash_iff]
  simp only [LexLe, SHA256_DIGEST_LENGTH, Nat.zero_add]

theorem LexLe.trans {a b c : List Nat} (hab : LexLe a b) (hbc : LexLe b c) : LexLe a c := by
  rcases hab with hab | ⟨i, hi, hlt, hpre⟩
  · rcases hbc with hbc | ⟨k, hk, hlt2, hpre2⟩
    · left
      intro i hi
      rw [hab i hi, hbc i hi]
    · right
      refine ⟨k, hk, ?_, ?_⟩
      · rw [hab k hk]; exact hlt2
      · intro j hj
        rw [hab j (by omega)]
        exact hpre2 j hj
  · rcases hbc with hbc | ⟨k, hk, hlt2, hpre2⟩
    · right
      refine ⟨i, hi, ?_, ?_⟩
      · rw [← hbc i hi]; exact hlt
      · intro j hj
        rw [← hbc j (by omega)]
        exact hpre j hj
    · right
      rcases Nat.lt_trichotomy i k with h | h | h
      · refine ⟨i, hi, ?_, ?_⟩
        · rw [← hpre2 i h]; exact hlt
        · intro j hj
          rw [hpre j hj]
          exact hpre2 j (by omega)
      · subst h
        refine ⟨i, hi, lt_trans hlt hlt2, ?_⟩
        intro j hj
        rw [hpre j hj]
        exact hpre2 j hj
      · refine ⟨k, hk, ?_, ?_⟩
        · rw [hpre k h]; exact hlt2
        · intro j hj
          rw [hpre j (by omega)]
          exact hpre2 j hj

/-! ## Lemmas: bitmap engine and validator -/

/-- Characterisation of `qrcode_validate_pow` on single-precision metrics. -/
theorem validate_pow_eq_true_iff (sha256 : List Nat → List Nat) (qr : QRCode)
    (target : List Nat) (hd : qr.density.IsSingle) (hn : qr.noise.IsSingle) :
    qrcode_validate_pow sha256 qr target = true ↔
      (3 / 10 ≤ qr.density.toRat ∧ qr.density.toRat ≤ 4 / 5) ∧ qr.noise.toRat ≤ 1 / 5 ∧
        LexLe (sha256 (moduleBytes qr)) target := by
  rw [← not_lt_MIN_DENSITY_iff _ hd, ← not_lt_MAX_DENSITY_iff _ hd, ← not_lt_MAX_NOISE_iff _ hn,
    ← compareHash_eq_true_iff]
  unfold qrcode_validate_pow
  cases h1 : Dyadic.lt qr.density MIN_DENSITY <;> cases h2 : Dyadic.lt MAX_DENSITY qr.density <;>
    cases h3 : Dyadic.lt MAX_NOISE qr.noise <;> simp

/-- Acceptance does not shrink when the target grows. -/
theorem validate_pow_mono_aux (sha256 : List Nat → List Nat) (qr : QRCode)
    (t1 t2 : List Nat) (h12 : LexLe t2 t1)
    (h : qrcode_validate_pow sha256 qr t2 = true) :
    qrcode_validate_pow sha256 qr t1 = true := by
  unfold qrcode_validate_pow at h ⊢
  cases h1 : (Dyadic.lt qr.density MIN_DENSITY || Dyadic.lt MAX_DENSITY qr.density)
  · cases h3 : Dyadic.lt MAX_NOISE qr.noise
    · rw [h1, h3] at h
      simp only [Bool.false_eq_true, if_false] at h ⊢
      rw [compareHash_eq_true_iff] at h ⊢
      exact LexLe.trans h h12
    · rw [h1, h3] at h
      simp at h
  · rw [h1] at h
    simp at h

theorem maxTarget_getD (i : Nat) (hi : i < 32) : maxTarget.getD i 0 = 255 := by
  interval_cases i <;> rfl

/-- Every 32-byte hash passes the comparison with the maximal target. -/
theorem compareHash_maxTarget (hash : List Nat) (hb : ∀ i, hash.getD i 0 ≤ 255) :
    ∀ (n i : Nat), i + n ≤ 32 → compareHash hash maxTarget n i = true := by
  intro n
  induction n with
  | zero => intro i _; rfl
  | succ n ih =>
    intro i hi
    unfold compareHash
    rw [maxTarget_getD i (by omega)]
    have := hb i
    rw [if_neg (by omega)]
    by_cases hlt : hash.getD i 0 < 255
    · rw [if_pos hlt]
    · rw [if_neg hlt]
      exact ih (i + 1) (by omega)

theorem qrcode_get_size_valid (v : Nat) (h1 : 1 ≤ v) (h2 : v ≤ 40) :
    qrcode_get_size_for_version v = 17 + 4 * v := by
  simp [qrcode_get_size_for_version, qrcode_is_valid_version, h1, h2]

theorem capacity_mono {v w : Nat} (h : v ≤ w) : capacity v ≤ capacity w := by
  unfold capacity
  apply Nat.div_le_div_right
  apply Nat.pow_le_pow_left
  omega

/-- The version search returns the least version from `version` on whose
capacity covers `length`, or 41 when there is none up to 40. -/
theorem findVersion_spec (length : Nat) : ∀ (fuel version : Nat),
    1 ≤ version → version ≤ 41 → version + fuel = 42 →
    let r := findVersion length fuel version
    version ≤ r ∧ r ≤ 41 ∧ (r ≤ 40 → length ≤ capacity r) ∧
      ∀ w, version ≤ w → w < r → capacity w < length := by
  intro fuel
  induction fuel with
  | zero =>
    intro version h1 h41 h2
    omega
  | succ f ih =>
    intro version h1 h41 h2
    simp only [findVersion]
    by_cases hv : version ≤ MAX_VERSION
    · rw [if_pos hv]
      have hv40 : version ≤ 40 := hv
      rw [qrcode_get_size_valid version h1 hv40]
      have hcap : (17 + 4 * version) * (17 + 4 * version) / 8 = capacity version := by
        unfold capacity; rw [sq]
      rw [hcap]
      by_cases hc : length ≤ capacity version
      · rw [if_pos hc]
        refine ⟨le_refl _, by omega, fun _ => hc, ?_⟩
        intro w h3 h4
        omega
      · rw [if_neg hc]
        obtain ⟨a1, a2, a3, a4⟩ := ih (version + 1) (by omega) (by omega) (by omega)
        refine ⟨by omega, a2, a3, ?_⟩
        intro w h3 h4
        rcases Nat.eq_or_lt_of_le h3 with h | h
        · rw [← h]; omega
        · exact a4 w h h4
    · rw [if_neg hv]
      have : version = 41 := by
        have : ¬ version ≤ 40 := hv
        omega
      subst this
      refine ⟨le_refl _, le_refl _, by omega, ?_⟩
      intro w h3 h4
      omega

theorem foldl_le_add {α : Type} (f : Nat → α → Nat) (c : Nat)
    (hf : ∀ n x, f n x ≤ n + c) : ∀ (l : List α) (init : Nat),
    l.foldl f init ≤ init + c * l.length := by
  intro l
  induction l with
  | nil => intro init; simp
  | cons x xs ih =>
    intro init
    simp only [List.foldl_cons, List.length_cons]
    have h1 := ih (f init x)
    have h2 := hf init x
    have : c * (xs.length + 1) = c * xs.length + c := by ring
    omega

theorem upFrom_length (lo n : Nat) : (upFrom lo n).length = n := by
  simp [upFrom]

/-- The noise counter visits `(size - 2) ^ 2` modules and counts each at
most once. -/
theorem noise_count_le (qr : QRCode) : noise_count qr ≤ (qr.size - 2) * (qr.size - 2) := by
  unfold noise_count
  have hin : ∀ (y : Nat) (n : Nat),
      (upFrom 1 (qr.size - 2)).foldl
        (fun n x => if 5 < different_neighbors qr y x then n + 1 else n) n
        ≤ n + (qr.size - 2) := by
    intro y n
    have := foldl_le_add (fun n x => if 5 < different_neighbors qr y x then n + 1 else n) 1
      (by intro n x; dsimp only; split <;> omega) (upFrom 1 (qr.size - 2)) n
    rw [upFrom_length] at this
    omega
  have := foldl_le_add (fun n y => (upFrom 1 (qr.size - 2)).foldl
      (fun n x => if 5 < different_neighbors qr y x then n + 1 else n) n) (qr.size - 2)
    (fun n y => hin y n) (upFrom 1 (qr.size - 2)) 0
  rw [upFrom_length] at this
  omega

theorem noise_count_le_total (qr : QRCode) : noise_count qr ≤ qr.size * qr.size := by
  have h := noise_count_le qr
  have : (qr.size - 2) * (qr.size - 2) ≤ qr.size * qr.size :=
    Nat.mul_le_mul (Nat.sub_le _ _) (Nat.sub_le _ _)
  omega

theorem set_modules_le_total (qr : QRCode) : set_modules qr ≤ qr.size * qr.size := by
  unfold set_modules
  have := List.length_filter_le (fun i => qr.modules i != 0) (List.range (qr.size * qr.size))
  simpa using this

theorem add_alignment_patterns_size (qr : QRCode) :
    (add_alignment_patterns qr).size = qr.size ∧
      (add_alignment_patterns qr).version = qr.version ∧
      (add_alignment_patterns qr).ecc = qr.ecc := by
  unfold add_alignment_patterns
  split <;> simp

/-- The metrics stored by `computeMetrics` are the single-precision
quotients of the two counters of the matrix itself by `size * size`. -/
theorem computeMetrics_eq (qr : QRCode) :
    (computeMetrics qr).density
        = f32div (set_modules (computeMetrics qr))
            ((computeMetrics qr).size * (computeMetrics qr).size) ∧
      (computeMetrics qr).noise
        = f32div (noise_count (computeMetrics qr))
            ((computeMetrics qr).size * (computeMetrics qr).size) :=
  ⟨rfl, rfl⟩

/-- What `qrcode_create` returns: `none` when the version search passes 40,
otherwise a matrix of the version found, with its side, its error class and
the two metrics computed from its own modules. -/
theorem qrcode_create_eq (data : List Nat) (ecc : QRCodeECC) :
    (40 < findVersion data.length 41 1 ∧ qrcode_create data ecc = none) ∨
    (findVersion data.length 41 1 ≤ 40 ∧ ∃ qr, qrcode_create data ecc = some qr ∧
      qr.version = findVersion data.length 41 1 ∧
      qr.size = qrcode_get_size_for_version (findVersion data.length 41 1) ∧
      qr.ecc = ecc ∧
      qr.density = f32div (set_modules qr) (qr.size * qr.size) ∧
      qr.noise = f32div (noise_count qr) (qr.size * qr.size)) := by
  unfold qrcode_create
  by_cases h : MAX_VERSION < findVersion data.length 41 1
  · left
    exact ⟨h, by simp [h]⟩
  · right
    refine ⟨Nat.le_of_not_lt h, ?_⟩
    simp only [h, if_false]
    refine ⟨_, rfl, ?_, ?_, ?_, (computeMetrics_eq _).1, (computeMetrics_eq _).2⟩
    · simp [computeMetrics, add_data, add_format_info, add_timing_patterns,
        add_alignment_patterns_size, add_finder_patterns, initialize_modules]
    · simp [computeMetrics, add_data, add_format_info, add_timing_patterns,
        add_alignment_patterns_size, add_finder_patterns, initialize_modules]
    · simp [computeMetrics, add_data, add_format_info, add_timing_patterns,
        add_alignment_patterns_size, add_finder_patterns, initialize_modules]

theorem capacity_40 : capacity 40 = 3916 := by decide

/-! ## Lemmas: mining search -/

theorem attemptAccepted_iff (sha256 : List Nat → List Nat) (header target : List Nat)
    (k : Nat) :
    attemptAccepted sha256 header target k = true ↔
      ∃ qr, qrcode_create (header ++ nonceBytes k) QRCodeECC.H = some qr ∧
        qrcode_validate_pow sha256 qr target = true := by
  unfold attemptAccepted
  cases h : qrcode_create (header ++ nonceBytes k) QRCodeECC.H with
  | none => simp
  | some qr => simp

/-- When no 64-bit nonce is accepted the search never returns. -/
theorem mineFrom_none (sha256 : List Nat → List Nat) (header target : List Nat)
    (hall : ∀ k, k < 2 ^ 64 → attemptAccepted sha256 header target k = false) :
    ∀ (fuel a : Nat), a < 2 ^ 64 → mineFrom sha256 header target fuel a = none := by
  intro fuel
  induction fuel with
  | zero => intro a _; rfl
  | succ f ih =>
    intro a ha
    unfold mineFrom
    rw [hall a ha]
    simp only [Bool.false_eq_true, if_false]
    exact ih _ (Nat.mod_lt _ (by norm_num))

/-- The search from `a`, all smaller nonces having been rejected, returns
`n` exactly when `n` is the least accepted nonce and the fuel reaches it. -/
theorem mineFrom_eq_some_iff (sha256 : List Nat → List Nat) (header target : List Nat) :
    ∀ (fuel a n : Nat), a < 2 ^ 64 →
      (∀ k, k < a → attemptAccepted sha256 header target k = false) →
      (mineFrom sha256 header target fuel a = some n ↔
        a ≤ n ∧ n < a + fuel ∧ n < 2 ^ 64 ∧ attemptAccepted sha256 header target n = true ∧
          ∀ k, k < n → attemptAccepted sha256 header target k = false) := by
  intro fuel
  induction fuel with
  | zero =>
    intro a n _ _
    simp only [mineFrom, Nat.add_zero]
    constructor
    · intro h; exact absurd h (by simp)
    · rintro ⟨h1, h2, _⟩; omega
  | succ f ih =>
    intro a n ha hrej
    unfold mineFrom
    by_cases hacc : attemptAccepted sha256 header target a = true
    · rw [if_pos hacc]
      constructor
      · intro h
        have : a = n := Option.some.inj h
        subst this
        exact ⟨le_refl _, by omega, ha, hacc, hrej⟩
      · rintro ⟨h1, _, _, _, h5⟩
        rcases Nat.eq_or_lt_of_le h1 with h | h
        · rw [h]
        · have := h5 a h
          rw [hacc] at this
          exact absurd this (by simp)
    · rw [if_neg hacc]
      have hacc' : attemptAccepted sha256 header target a = false := by
        simpa using hacc
      have hrej' : ∀ k, k < a + 1 → attemptAccepted sha256 header target k = false := by
        intro k hk
        rcases Nat.lt_succ_iff_lt_or_eq.1 hk with h | h
        · exact hrej k h
        · rw [h]; exact hacc'
      by_cases hwrap : a + 1 < 2 ^ 64
      · rw [Nat.mod_eq_of_lt hwrap, ih (a + 1) n hwrap hrej']
        constructor
        · rintro ⟨h1, h2, h3, h4, h5⟩
          exact ⟨by omega, by omega, h3, h4, h5⟩
        · rintro ⟨h1, h2, h3, h4, h5⟩
          refine ⟨?_, by omega, h3, h4, h5⟩
          rcases Nat.eq_or_lt_of_le h1 with h | h
          · rw [← h, hacc'] at h4
            exact absurd h4 (by simp)
          · exact h
      · have hall : ∀ k, k < 2 ^ 64 → attemptAccepted sha256 header target k = false := by
          intro k hk
          exact hrej' k (by omega)
        rw [mineFrom_none sha256 header target hall f _ (Nat.mod_lt _ (by norm_num))]
        constructor
        · intro h; exact absurd h (by simp)
        · rintro ⟨_, _, h3, h4, _⟩
          rw [hall n h3] at h4
          exact absurd h4 (by simp)

/-! ## Lemmas: single opcodes -/

theorem binop_two (f : Int → Int → Option Int) (vm : VM) (a b : Int) (rest : Stack)
    (hst : vm.stack = b :: a :: rest) (hdepth : vm.stack.length ≤ STACK_SIZE) :
    binop f vm = match f a b with
      | some r => { vm with stack := r :: rest }
      | none => { vm with stack := rest } := by
  have hlen : rest.length < 1024 := by
    rw [hst] at hdepth
    simp only [List.length_cons, STACK_SIZE] at hdepth
    omega
  unfold binop
  rw [hst]
  simp only [stack_pop]
  cases f a b with
  | none => rfl
  | some r => simp [VM.push, stack_push, hlen]

theorem binop_empty (f : Int → Int → Option Int) (vm : VM) (hst : vm.stack = []) :
    binop f vm = vm := by
  unfold binop
  rw [hst]
  rfl

theorem binop_one (f : Int → Int → Option Int) (vm : VM) (x : Int) (hst : vm.stack = [x]) :
    binop f vm = { vm with stack := [] } := by
  unfold binop
  rw [hst]
  rfl

/-- The quotient of two `int` values is an `int`, apart from
`INT_MIN / -1`. -/
theorem tdiv_in_range (a b : Int) (ha0 : -2147483648 ≤ a) (ha1 : a < 2147483648)
    (hb : b ≠ 0) (hex : ¬ (a = -2147483648 ∧ b = -1)) :
    wrap32 (Int.tdiv a b) = Int.tdiv a b := by
  have h : (Int.tdiv a b).natAbs = a.natAbs / b.natAbs := Int.natAbs_tdiv a b
  have hrange : -2147483648 ≤ Int.tdiv a b ∧ Int.tdiv a b < 2147483648 := by
    by_cases hb2 : 2 ≤ b.natAbs
    · have h2 : a.natAbs / b.natAbs ≤ a.natAbs / 2 := Nat.div_le_div_left hb2 (by norm_num)
      omega
    · have hb1 : b = 1 ∨ b = -1 := by omega
      rcases hb1 with h1 | h1
      · subst h1
        rw [Int.tdiv_one]
        omega
      · subst h1
        have : Int.tdiv a (-1) = -a := by
          rw [Int.tdiv_neg, Int.tdiv_one]
        rw [this]
        have : a ≠ -2147483648 := fun e => hex ⟨e, rfl⟩
        omega
  unfold wrap32
  omega

theorem vm_step_ADD (bridge : Nat → VM → Option VM) (bytecode : Buffer) (length pc : Nat)
    (vm : VM) (h : bytecode pc = OP_ADD) :
    vm_step bridge bytecode length pc vm
      = some (pc + 1, binop (fun a b => some (wrap32 (a + b))) vm) := by
  simp [vm_step, h]

theorem vm_step_SUB (bridge : Nat → VM → Option VM) (bytecode : Buffer) (length pc : Nat)
    (vm : VM) (h : bytecode pc = OP_SUB) :
    vm_step bridge bytecode length pc vm
      = some (pc + 1, binop (fun a b => some (wrap32 (a - b))) vm) := by
  simp [vm_step, h]

theorem vm_step_MUL (bridge : Nat → VM → Option VM) (bytecode : Buffer) (length pc : Nat)
    (vm : VM) (h : bytecode pc = OP_MUL) :
    vm_step bridge bytecode length pc vm
      = some (pc + 1, binop (fun a b => some (wrap32 (a * b))) vm) := by
  simp [vm_step, h]

theorem vm_step_DIV (bridge : Nat → VM → Option VM) (bytecode : Buffer) (length pc : Nat)
    (vm : VM) (h : bytecode pc = OP_DIV) (ht : divTraps vm.stack = false) :
    vm_step bridge bytecode length pc vm
      = some (pc + 1,
          binop (fun a b => if b = 0 then none else some (wrap32 (Int.tdiv a b))) vm) := by
  simp [vm_step, h, ht]

/-- The division of `INT_MIN` by `-1` does not return. -/
theorem vm_step_DIV_trap (bridge : Nat → VM → Option VM) (bytecode : Buffer)
    (length pc : Nat) (vm : VM) (h : bytecode pc = OP_DIV) (ht : divTraps vm.stack = true) :
    vm_step bridge bytecode length pc vm = none := by
  simp [vm_step, h, ht]

theorem divTraps_two (a b : Int) (rest : Stack) :
    divTraps (b :: a :: rest) = decide (a = -2147483648 ∧ b = -1) := rfl

theorem divTraps_nil : divTraps [] = false := rfl

theorem divTraps_one (x : Int) : divTraps [x] = false := rfl

theorem vm_step_STORE (bridge : Nat → VM → Option VM) (bytecode : Buffer) (length pc : Nat)
    (vm : VM) (h : bytecode pc = OP_STORE) :
    vm_step bridge bytecode length pc vm = some (pc + 1, op_store vm) := by
  simp [vm_step, h]

theorem vm_step_LOAD (bridge : Nat → VM → Option VM) (bytecode : Buffer) (length pc : Nat)
    (vm : VM) (h : bytecode pc = OP_LOAD) :
    vm_step bridge bytecode length pc vm = some (pc + 1, op_load vm) := by
  simp [vm_step, h]

theorem vm_step_CONCAT (bridge : Nat → VM → Option VM) (bytecode : Buffer) (length pc : Nat)
    (vm : VM) (h : bytecode pc = OP_CONCAT) :
    vm_step bridge bytecode length pc vm = some (pc + 1, op_concat vm) := by
  simp [vm_step, h]

theorem vm_step_PUSH (bridge : Nat → VM → Option VM) (bytecode : Buffer) (length pc : Nat)
    (vm : VM) (h : bytecode pc = OP_PUSH) :
    vm_step bridge bytecode length pc vm
      = some (pc + 2, if pc + 1 < length then VM.push vm (bytecode (pc + 1)) else vm) := by
  simp [vm_step, h]

/-- An `int` outside `0 ≤ x < mem_size` fails the test `(size_t)x < mem_size`. -/
theorem inMemory_out_of_range (vm : VM) (x : Int)
    (hint : -2147483648 ≤ x ∧ x < 2147483648) (hmem : vm.mem_size ≤ 9223372036854775807)
    (hout : ¬ (0 ≤ x ∧ x < vm.mem_size)) : inMemory vm x = false := by
  unfold inMemory
  rw [decide_eq_false_iff_not]
  omega

theorem runStackOps_depth (ops : List StackOp) :
    ∀ s : Stack, s.length ≤ STACK_SIZE → (runStackOps ops s).length ≤ STACK_SIZE := by
  induction ops with
  | nil => intro s hs; exact hs
  | cons op ops ih =>
    intro s hs
    unfold runStackOps
    rw [List.foldl_cons]
    apply ih
    cases op with
    | push v =>
      simp only [StackOp.run, stack_push]
      by_cases h : s.length < STACK_SIZE
      · rw [if_pos h]
        simp only [List.length_cons]
        omega
      · rw [if_neg h]
        exact hs
    | pop =>
      cases s with
      | nil => exact hs
      | cons x xs =>
        simp only [StackOp.run, stack_pop]
        simp only [List.length_cons] at hs
        omega

/-! ## Lemmas: strings in memory and CONCAT -/

theorem writeBytes_below : ∀ (bs : List Nat) (buf : Buffer) (loc j : Nat), j < loc →
    writeBytes buf loc bs j = buf j := by
  intro bs
  induction bs with
  | nil => intro buf loc j _; rfl
  | cons b bs ih =>
    intro buf loc j hj
    rw [writeBytes, ih _ _ _ (by omega), poke_other _ _ _ _ (by omega)]

theorem writeBytes_above : ∀ (bs : List Nat) (buf : Buffer) (loc j : Nat),
    loc + bs.length ≤ j → writeBytes buf loc bs j = buf j := by
  intro bs
  induction bs with
  | nil => intro buf loc j _; rfl
  | cons b bs ih =>
    intro buf loc j hj
    rw [List.length_cons] at hj
    rw [writeBytes, ih _ _ _ (by omega), poke_other _ _ _ _ (by omega)]

/-- Writing a string and its terminator puts that string at the index. -/
theorem writeBytes_cstring : ∀ (s : List Nat) (buf : Buffer) (loc : Nat),
    (∀ x ∈ s, x ≠ 0 ∧ x < 256) → IsCStringAt (writeBytes buf loc (s ++ [0])) loc s := by
  intro s
  induction s with
  | nil =>
    intro buf loc _
    show writeBytes buf loc [0] loc = 0
    rw [writeBytes, writeBytes, poke_same]
  | cons x xs ih =>
    intro buf loc h
    have hx := h x (List.mem_cons_self _ _)
    refine ⟨?_, hx.1, hx.2, ?_⟩
    · rw [List.cons_append, writeBytes, writeBytes_below _ _ _ _ (by omega), poke_same]
      exact Nat.mod_eq_of_lt hx.2
    · rw [List.cons_append, writeBytes]
      exact ih _ _ (fun y hy => h y (List.mem_cons_of_mem _ hy))

theorem IsCStringAt_bytes (buf : Buffer) : ∀ (s : List Nat) (off : Nat),
    IsCStringAt buf off s → ∀ x ∈ s, x ≠ 0 ∧ x < 256 := by
  intro s
  induction s with
  | nil => intro off _ x hx; simp at hx
  | cons y ys ih =>
    intro off h x hx
    obtain ⟨_, h1, h2, h3⟩ := h
    rcases List.mem_cons.1 hx with e | e
    · rw [e]; exact ⟨h1, h2⟩
    · exact ih _ h3 x e

/-- A string is where it was when none of its bytes has changed. -/
theorem IsCStringAt_congr (buf buf2 : Buffer) : ∀ (s : List Nat) (off : Nat),
    (∀ j, off ≤ j → j ≤ off + s.length → buf2 j = buf j) →
    IsCStringAt buf off s → IsCStringAt buf2 off s := by
  intro s
  induction s with
  | nil =>
    intro off hj h
    show buf2 off = 0
    rw [hj off (Nat.le_refl _) (by simp)]
    exact h
  | cons y ys ih =>
    intro off hj h
    obtain ⟨h0, h1, h2, h3⟩ := h
    refine ⟨?_, h1, h2, ?_⟩
    · rw [hj off (Nat.le_refl _) (by simp)]
      exact h0
    · refine ih _ (fun j hj1 hj2 => hj j (by omega) ?_) h3
      rw [List.length_cons]
      omega

/-- The scan `strlen` or `strcpy` does from `off` reads exactly `s`. -/
theorem cstringAt_of (buf : Buffer) : ∀ (s : List Nat) (off fuel : Nat),
    IsCStringAt buf off s → s.length < fuel → cstringAt buf fuel off = s := by
  intro s
  induction s with
  | nil =>
    intro off fuel h hf
    cases fuel with
    | zero => simp at hf
    | succ f =>
      have h0 : buf off = 0 := h
      simp [cstringAt, h0]
  | cons y ys ih =>
    intro off fuel h hf
    obtain ⟨h0, h1, _, h3⟩ := h
    cases fuel with
    | zero => simp at hf
    | succ f =>
      rw [List.length_cons] at hf
      rw [cstringAt, h0, if_neg h1, ih _ _ h3 (by omega)]

/-- `CONCAT` on the offsets of two strings in memory: the operands are
popped, the joined string and its terminator are written so that they end at
the last byte of memory, and the offset of the result is pushed. -/
theorem op_concat_spec (vm : VM) (a b : Nat) (sa sb : List Nat) (rest : Stack)
    (hst : vm.stack = (b : Int) :: (a : Int) :: rest) (hdepth : vm.stack.length ≤ STACK_SIZE)
    (ha : IsCStringAt vm.memory a sa) (ha2 : a + sa.length < vm.mem_size)
    (hb : IsCStringAt vm.memory b sb) (hb2 : b + sb.length < vm.mem_size)
    (hM : vm.mem_size < 2147483648) :
    op_concat vm = { vm with
      stack := ((vm.mem_size - (sa ++ sb).length - 1 : Nat) : Int) :: rest,
      memory := writeBytes vm.memory (vm.mem_size - (sa ++ sb).length - 1)
        (sa ++ sb ++ [0]) } := by
  have hlen : rest.length < 1024 := by
    rw [hst] at hdepth
    simp only [List.length_cons, STACK_SIZE] at hdepth
    omega
  have hra : cstringAt vm.memory (vm.mem_size - a) a = sa :=
    cstringAt_of _ _ _ _ ha (by omega)
  have hrb : cstringAt vm.memory (vm.mem_size - b) b = sb :=
    cstringAt_of _ _ _ _ hb (by omega)
  have hw : wrap32 ((vm.mem_size - (sa ++ sb).length - 1 : Nat) : Int)
      = ((vm.mem_size - (sa ++ sb).length - 1 : Nat) : Int) :=
    wrap32_small _ (by omega) (by omega)
  unfold op_concat
  rw [hst]
  simp only [stack_pop, Int.toNat_ofNat, hra, hrb, VM.push, stack_push, STACK_SIZE, hlen,
    if_true, hw]

/-- After `CONCAT` the joined string is at the pushed offset, and every byte
below that offset is as before. -/
theorem op_concat_result (vm : VM) (a b : Nat) (sa sb : List Nat) (rest : Stack)
    (hst : vm.stack = (b : Int) :: (a : Int) :: rest) (hdepth : vm.stack.length ≤ STACK_SIZE)
    (ha : IsCStringAt vm.memory a sa) (ha2 : a + sa.length < vm.mem_size)
    (hb : IsCStringAt vm.memory b sb) (hb2 : b + sb.length < vm.mem_size)
    (hM : vm.mem_size < 2147483648) :
    (op_concat vm).stack = ((vm.mem_size - (sa ++ sb).length - 1 : Nat) : Int) :: rest ∧
    (op_concat vm).mem_size = vm.mem_size ∧
    IsCStringAt (op_concat vm).memory (vm.mem_size - (sa ++ sb).length - 1) (sa ++ sb) ∧
    (∀ j, j < vm.mem_size - (sa ++ sb).length - 1 → (op_concat vm).memory j = vm.memory j) := by
  rw [op_concat_spec vm a b sa sb rest hst hdepth ha ha2 hb hb2 hM]
  refine ⟨rfl, rfl, ?_, fun j hj => writeBytes_below _ _ _ _ hj⟩
  refine writeBytes_cstring _ _ _ (fun x hx => ?_)
  rcases List.mem_append.1 hx with h | h
  · exact IsCStringAt_bytes _ _ _ ha x h
  · exact IsCStringAt_bytes _ _ _ hb x h

theorem VM_push_eq (vm : VM) (v : Int) (h : vm.stack.length < STACK_SIZE) :
    VM.push vm v = { vm with stack := v :: vm.stack } := by
  simp [VM.push, stack_push, h]

/-- After `CONCAT` the string at the offset on top of the stack is the
joined string. -/
theorem stringAtTop_concat (vm : VM) (a b : Nat) (sa sb : List Nat) (rest : Stack)
    (hst : vm.stack = (b : Int) :: (a : Int) :: rest) (hdepth : vm.stack.length ≤ STACK_SIZE)
    (ha : IsCStringAt vm.memory a sa) (ha2 : a + sa.length < vm.mem_size)
    (hb : IsCStringAt vm.memory b sb) (hb2 : b + sb.length < vm.mem_size)
    (hfit : (sa ++ sb).length < vm.mem_size) (hM : vm.mem_size < 2147483648) :
    stringAtTop (op_concat vm) = sa ++ sb := by
  obtain ⟨h1, h2, h3, _⟩ := op_concat_result vm a b sa sb rest hst hdepth ha ha2 hb hb2 hM
  unfold stringAtTop
  rw [h1]
  simp only [Int.toNat_ofNat, h2]
  exact cstringAt_of _ _ _ _ h3 (by omega)

/-! ## Lemmas: one pass of the token loop -/

theorem compile_eq_compileFrom (st : Statics) (source : List Nat) :
    compile st source
      = { bytecode := (compileFrom (compileStart st) source).bytecode,
          length := (compileFrom (compileStart st) source).length,
          statics := (compileFrom (compileStart st) source).statics } := rfl

theorem compileLoop_eq_compileFrom (fuel : Nat) (p : List Nat) (c : Compiler)
    (h : p.length < fuel) : compileLoop fuel p c = compileFrom c p :=
  compileLoop_fuel fuel (p.length + 1) p c h (Nat.lt_succ_self _)

theorem compileFrom_nil (c : Compiler) : compileFrom c [] = c := compileLoop_nil _ c

theorem compileFrom_newline (c : Compiler) (p : List Nat) :
    compileFrom c (10 :: p) = compileFrom c p := by
  unfold compileFrom
  rw [List.length_cons, compileLoop_newline]
  exact compileLoop_fuel _ _ p c (by omega) (by omega)

/-- A pass of the token loop that goes from the text `p` to the shorter text
`q`, stated for the loop run to the end. -/
theorem compileFrom_of_pass (p q : List Nat) (c c2 : Compiler) (hlen : q.length < p.length)
    (h : ∀ fuel, compileLoop (fuel + 1) p c = compileLoop fuel q c2) :
    compileFrom c p = compileFrom c2 q := by
  unfold compileFrom
  rw [h p.length]
  exact compileLoop_fuel _ _ q c2 hlen (Nat.lt_succ_self _)

/-- A word of at most `n` bytes followed by a delimiter is read whole by a
read of at most `n` bytes. -/
theorem readToken_word_max (w : List Nat) : ∀ (n : Nat) (d : Nat) (rest : List Nat),
    (∀ c ∈ w, ¬ isDelim c) → w.length ≤ n → isDelim d →
    readToken n (w ++ d :: rest) = (w, d :: rest) := by
  induction w with
  | nil =>
    intro n d rest _ _ hd
    unfold isDelim at hd
    cases n with
    | zero => rfl
    | succ m => simp [readToken, hd]
  | cons x xs ih =>
    intro n d rest hw hlen hd
    have hx : ¬ isDelim x := hw x (List.mem_cons_self _ _)
    unfold isDelim at hx
    cases n with
    | zero => simp at hlen
    | succ m =>
      have := ih m d rest (fun c hc => hw c (List.mem_cons_of_mem _ hc))
        (by simpa using hlen) hd
      simp [readToken, hx, this]

/-- A word of at most `n` bytes at the end of the text is read whole by a
read of at most `n` bytes. -/
theorem readToken_last_max (w : List Nat) : ∀ (n : Nat),
    (∀ c ∈ w, ¬ isDelim c) → w.length ≤ n → readToken n w = (w, []) := by
  induction w with
  | nil =>
    intro n _ _
    cases n with
    | zero => rfl
    | succ m => simp [readToken]
  | cons x xs ih =>
    intro n hw hlen
    have hx : ¬ isDelim x := hw x (List.mem_cons_self _ _)
    unfold isDelim at hx
    cases n with
    | zero => simp at hlen
    | succ m =>
      have := ih m (fun c hc => hw c (List.mem_cons_of_mem _ hc)) (by simpa using hlen)
      simp [readToken, hx, this]

/-- One pass over a word of at most 255 bytes that a delimiter follows: the
word is the token. -/
theorem compileLoop_word (fuel : Nat) (w : List Nat) (d : Nat) (rest : List Nat)
    (c : Compiler) (hne : w ≠ []) (hw : ∀ x ∈ w, ¬ isDelim x) (hlen : w.length ≤ 255)
    (hd : isDelim d) :
    compileLoop (fuel + 1) (w ++ d :: rest) c
      = compileLoop fuel (compileToken w c (d :: rest)).2 (compileToken w c (d :: rest)).1 := by
  have htok : readToken 255 (w ++ d :: rest) = (w, d :: rest) :=
    readToken_word_max w 255 d rest hw hlen hd
  cases w with
  | nil => exact absurd rfl hne
  | cons x xs =>
    have hx : ¬ isDelim x := hw x (List.mem_cons_self _ _)
    unfold isDelim at hx
    have hx1 : ¬ (x = 32 ∨ x = 10 ∨ x = 9) := by omega
    have hx2 : ¬ (x = 35) := by omega
    simp only [List.cons_append] at htok ⊢
    simp only [compileLoop, skipSpace, hx1, hx2, if_false, htok]

/-- One pass over a word of at most 255 bytes at the end of the text. -/
theorem compileLoop_word_last (fuel : Nat) (w : List Nat) (c : Compiler) (hne : w ≠ [])
    (hw : ∀ x ∈ w, ¬ isDelim x) (hlen : w.length ≤ 255) :
    compileLoop (fuel + 1) w c
      = compileLoop fuel (compileToken w c []).2 (compileToken w c []).1 := by
  have htok : readToken 255 w = (w, []) := readToken_last_max w 255 hw hlen
  cases w with
  | nil => exact absurd rfl hne
  | cons x xs =>
    have hx : ¬ isDelim x := hw x (List.mem_cons_self _ _)
    unfold isDelim at hx
    have hx1 : ¬ (x = 32 ∨ x = 10 ∨ x = 9) := by omega
    have hx2 : ¬ (x = 35) := by omega
    simp only [compileLoop, skipSpace, hx1, hx2, if_false, htok]

/-- A token that is no mnemonic emits nothing and consumes nothing. -/
theorem compileToken_unknown (w : List Nat) (c : Compiler) (p : List Nat)
    (h : w ∉ mnemonics) : compileToken w c p = (c, p) := by
  have hm : ∀ m, m ∈ mnemonics → w ≠ m := fun m hm e => h (e ▸ hm)
  unfold compileToken
  rw [if_neg (hm _ (by simp [mnemonics])), if_neg (hm _ (by simp [mnemonics])),
    if_neg (hm _ (by simp [mnemonics])), if_neg (hm _ (by simp [mnemonics])),
    if_neg (hm _ (by simp [mnemonics])), if_neg (hm _ (by simp [mnemonics])),
    if_neg (hm _ (by simp [mnemonics])), if_neg (hm _ (by simp [mnemonics])),
    if_neg (hm _ (by simp [mnemonics])), if_neg (hm _ (by simp [mnemonics])),
    if_neg (hm _ (by simp [mnemonics])), if_neg (hm _ (by simp [mnemonics])),
    if_neg (hm _ (by simp [mnemonics]))]

/-- The digits of `n`, followed by no further digit, are read as `n`. -/
theorem atoi_decimal (n : Nat) (rest : List Nat)
    (hrest : ∀ d r, rest = d :: r → isDigit d = false) :
    atoi (decimal n ++ rest) = (n : Int) ∧ (decimal n ++ rest).dropWhile isDigit = rest := by
  have hall := decDigits_digits (n + 1) n
  obtain ⟨k, hk⟩ := atoiDigits_decDigits (n + 1) n (Nat.lt_succ_self n)
  have hne := decimal_ne_nil n
  have hdrop := dropWhile_append_all isDigit (decimal n) rest hall
  have hval := hk 0 rest
  change atoiDigits 0 (decimal n ++ rest) = _ at hval
  have hstop : ∀ acc, atoiDigits acc rest = acc := by
    intro acc
    cases rest with
    | nil => rfl
    | cons d r => simp [atoiDigits, hrest d r rfl]
  have hdr : rest.dropWhile isDigit = rest := by
    cases rest with
    | nil => rfl
    | cons d r => simp [List.dropWhile, hrest d r rfl]
  rw [hstop] at hval
  refine ⟨?_, hdrop.trans hdr⟩
  cases hdn : decimal n with
  | nil => exact absurd hdn hne
  | cons d ds =>
    rw [hdn] at hval
    have hd : 48 ≤ d ∧ d ≤ 57 := by
      have := hall d (by unfold decimal at hdn; rw [hdn]; exact List.mem_cons_self _ _)
      exact (isDigit_iff d).1 this
    have h4 : d ≠ 45 := by omega
    have h5 : d ≠ 43 := by omega
    have hsp : isspace d = false := by
      simp [isspace]; omega
    simp only [List.cons_append] at hval ⊢
    simp [atoi, hsp, h4, h5, hval]

/-- The `PUSH` branch on a decimal literal. -/
theorem compilePush_decimal (c : Compiler) (n : Nat) (rest : List Nat)
    (hrest : ∀ d r, rest = d :: r → isDigit d = false) :
    compilePush c (32 :: (decimal n ++ rest)) = (emit (emit c OP_PUSH) n, rest) := by
  obtain ⟨hval, hdrop⟩ := atoi_decimal n rest hrest
  have hall := decDigits_digits (n + 1) n
  have hne := decimal_ne_nil n
  cases hdn : decimal n with
  | nil => exact absurd hdn hne
  | cons d ds =>
    rw [hdn] at hval hdrop
    have hd : 48 ≤ d ∧ d ≤ 57 := by
      have := hall d (by unfold decimal at hdn; rw [hdn]; exact List.mem_cons_self _ _)
      exact (isDigit_iff d).1 this
    have h1 : d ≠ 32 := by omega
    have h2 : d ≠ 9 := by omega
    have h3 : d ≠ 34 := by omega
    simp only [List.cons_append] at hval hdrop ⊢
    simp only [compilePush, skipInline, List.dropWhile,
      show ((32:Nat) == 32 || (32:Nat) == 9) = true by decide]
    have hsk : (d == 32 || d == 9) = false := by simp [h1, h2]
    simp only [hsk, h3, if_false, compilePushInt, hval, hdrop, emit_byteOfInt]

theorem compileToken_PUSH (c : Compiler) (p : List Nat) :
    compileToken (cstr "PUSH") c p = compilePush c p := by
  unfold compileToken
  rw [if_pos rfl]

theorem compileToken_simple (o : SimpleOp) (c : Compiler) (p : List Nat) :
    compileToken o.text c p = (emit c o.code, p) := by
  cases o <;> rfl

theorem SimpleOp.text_word (o : SimpleOp) :
    o.text ≠ [] ∧ (∀ x ∈ o.text, ¬ isDelim x) ∧ o.text.length ≤ 255 := by
  cases o <;> decide

/-- The token loop over a line that holds a mnemonic without operand. -/
theorem compileFrom_simple (o : SimpleOp) (c : Compiler) (rest : List Nat) :
    compileFrom c (o.text ++ 10 :: rest) = compileFrom (emit c o.code) rest := by
  obtain ⟨h1, h2, h3⟩ := SimpleOp.text_word o
  rw [compileFrom_of_pass (o.text ++ 10 :: rest) (10 :: rest) c (emit c o.code)
    (by
      have : 0 < o.text.length := List.length_pos.2 h1
      simp only [List.length_append, List.length_cons]
      omega)
    (fun fuel => by
      rw [compileLoop_word fuel o.text 10 rest c h1 h2 h3 (by decide), compileToken_simple])]
  exact compileFrom_newline _ _

/-- The token loop over a line `PUSH n`. -/
theorem compileFrom_pushInt (n : Nat) (c : Compiler) (rest : List Nat) :
    compileFrom c (cstr "PUSH " ++ decimal n ++ 10 :: rest)
      = compileFrom (emit (emit c OP_PUSH) n) rest := by
  rw [compileFrom_of_pass _ (10 :: rest) c (emit (emit c OP_PUSH) n)
    (by
      have : (cstr "PUSH ").length = 5 := rfl
      simp only [List.length_append, List.length_cons]
      omega)
    (fun fuel => compileLoop_push_decimal fuel n rest c)]
  exact compileFrom_newline _ _

/-- The token loop over a word that is no mnemonic, followed by a newline. -/
theorem compileFrom_unknown (w : List Nat) (c : Compiler) (rest : List Nat) (hne : w ≠ [])
    (hw : ∀ x ∈ w, ¬ isDelim x) (hlen : w.length ≤ 255) (hm : w ∉ mnemonics) :
    compileFrom c (w ++ 10 :: rest) = compileFrom c rest := by
  rw [compileFrom_of_pass (w ++ 10 :: rest) (10 :: rest) c c
    (by
      have : 0 < w.length := List.length_pos.2 hne
      simp only [List.length_append, List.length_cons]
      omega)
    (fun fuel => by
      rw [compileLoop_word fuel w 10 rest c hne hw hlen (by decide), compileToken_unknown _ _ _ hm])]
  exact compileFrom_newline _ _

/-- The token loop over a text that is one word and no mnemonic. -/
theorem compileFrom_unknown_last (w : List Nat) (c : Compiler) (hne : w ≠ [])
    (hw : ∀ x ∈ w, ¬ isDelim x) (hlen : w.length ≤ 255) (hm : w ∉ mnemonics) :
    compileFrom c w = c := by
  unfold compileFrom
  rw [compileLoop_word_last _ w c hne hw hlen, compileToken_unknown _ _ _ hm]
  exact compileLoop_nil _ _

/-- What `compile` makes of the text `PUSH n`: the two bytes 01 and
`n mod 256`. -/
theorem compile_pushIntProgram (st : Statics) (n : Nat) :
    compile st (pushIntProgram n)
      = { bytecode := poke (poke zeroBuffer 0 OP_PUSH) 1 n, length := 2,
          statics := { st with str_offset := 0 } } := by
  have hpass : compileFrom (compileStart st) (pushIntProgram n)
      = emit (emit (compileStart st) OP_PUSH) n := by
    unfold compileFrom pushIntProgram
    have e : cstr "PUSH " ++ decimal n = cstr "PUSH" ++ 32 :: (decimal n ++ []) := by
      rw [List.append_nil, cstr_PUSH_sp, cstr_PUSH]
      rfl
    rw [e, compileLoop_word _ (cstr "PUSH") 32 _ _ (by decide) (by decide) (by decide)
      (by decide), compileToken_PUSH,
      compilePush_decimal _ n [] (fun d r h => by cases h)]
    exact compileLoop_nil _ _
  rw [compile_eq_compileFrom, hpass]
  rfl

/-- Running a two-byte stream `PUSH v`. -/
theorem vm_execute_push (bridge : Nat → VM → Option VM) (bc : Buffer) (vm : VM)
    (h0 : bc 0 = OP_PUSH) (hrun : vm.running = true) (hroom : vm.stack.length < STACK_SIZE) :
    vm_execute bridge vm bc 2 = some { vm with stack := (bc 1 : Int) :: vm.stack } := by
  unfold vm_execute
  rw [vm_loop, if_pos ⟨by norm_num, hrun⟩, vm_step_PUSH _ _ _ _ _ h0]
  simp only [Nat.zero_add, show (1 : Nat) < 2 by norm_num, if_true]
  rw [VM_push_eq _ _ hroom, vm_loop]
  simp

/-! ## Lemmas: programs and the string pool -/

theorem writeBytes_append : ∀ (xs ys : List Nat) (buf : Buffer) (loc : Nat),
    writeBytes buf loc (xs ++ ys) = writeBytes (writeBytes buf loc xs) (loc + xs.length) ys := by
  intro xs
  induction xs with
  | nil => intro ys buf loc; rfl
  | cons x xs ih =>
    intro ys buf loc
    rw [List.cons_append, writeBytes, ih, writeBytes, List.length_cons]
    have e : loc + 1 + xs.length = loc + (xs.length + 1) := by omega
    rw [e]

/-- The copy loop of lines 330-333 on a literal that a quote ends. -/
theorem copyLiteral_eq (loc : Nat) : ∀ (s : List Nat) (buf : Buffer) (i : Nat)
    (rest : List Nat), 34 ∉ s →
    copyLiteral loc buf i (s ++ 34 :: rest)
      = (writeBytes buf (loc + i) s, i + s.length, 34 :: rest) := by
  intro s
  induction s with
  | nil =>
    intro buf i rest _
    simp [copyLiteral, writeBytes]
  | cons x xs ih =>
    intro buf i rest hs
    have hx : x ≠ 34 := fun h => hs (by rw [h]; exact List.mem_cons_self _ _)
    have hxs : 34 ∉ xs := fun h => hs (List.mem_cons_of_mem _ h)
    rw [List.cons_append, copyLiteral, if_neg hx, ih _ _ _ hxs, writeBytes, List.length_cons]
    have e1 : loc + (i + 1) = loc + i + 1 := by omega
    have e2 : i + 1 + xs.length = i + (xs.length + 1) := by omega
    rw [e1, e2]

/-- The string branch of `PUSH` in closed form. -/
theorem compilePushString_eq (c : Compiler) (s rest : List Nat) (hs : 34 ∉ s) :
    compilePushString c (s ++ 34 :: rest)
      = ({ bytecode :=
            poke (poke (poke (poke (poke
              (writeBytes c.bytecode (STRING_POOL_START + c.statics.str_offset_inner) s)
              (STRING_POOL_START + c.statics.str_offset_inner + s.length) 0)
              c.length OP_PUSH) (c.length + 1) STRING_MARKER) (c.length + 2) OP_PUSH)
              (c.length + 3) (STRING_POOL_START + c.statics.str_offset_inner),
           length := c.length + 4,
           statics := { c.statics with
             str_offset_inner := c.statics.str_offset_inner + s.length + 1 } }, rest) := by
  simp only [compilePushString,
    copyLiteral_eq (STRING_POOL_START + c.statics.str_offset_inner) s c.bytecode 0 rest hs,
    emit, skipQuote, Nat.add_zero, Nat.zero_add, if_true]

/-- The effect of a line that pushes a string literal, in closed form. -/
theorem pushStr_effect_eq (c : Compiler) (s : List Nat) (hs : 34 ∉ s) :
    Stmt.effect c (Stmt.pushStr s)
      = { bytecode :=
            poke (poke (poke (poke (poke
              (writeBytes (poke c.bytecode c.length OP_PUSH)
                (STRING_POOL_START + c.statics.str_offset_inner) s)
              (STRING_POOL_START + c.statics.str_offset_inner + s.length) 0)
              (c.length + 1) OP_PUSH) (c.length + 1 + 1) STRING_MARKER) (c.length + 1 + 2) OP_PUSH)
              (c.length + 1 + 3) (STRING_POOL_START + c.statics.str_offset_inner),
          length := c.length + 1 + 4,
          statics := { c.statics with
            str_offset_inner := c.statics.str_offset_inner + s.length + 1 } } := by
  show (compilePushString (emit c OP_PUSH) (s ++ 34 :: [])).1 = _
  rw [compilePushString_eq _ s [] hs]
  rfl

/-- The token loop over a line that pushes a string literal. -/
theorem compileFrom_pushStr (s : List Nat) (c : Compiler) (rest : List Nat) (hs : 34 ∉ s) :
    compileFrom c ((cstr "PUSH " ++ 34 :: (s ++ [34])) ++ 10 :: rest)
      = compileFrom (Stmt.effect c (Stmt.pushStr s)) rest := by
  have e : (cstr "PUSH " ++ 34 :: (s ++ [34])) ++ 10 :: rest
      = cstr "PUSH" ++ 32 :: 34 :: (s ++ 34 :: 10 :: rest) := by
    rw [cstr_PUSH_sp, cstr_PUSH]
    simp
  have hpush : compilePush c (32 :: 34 :: (s ++ 34 :: 10 :: rest))
      = ((compilePushString (emit c OP_PUSH) (s ++ 34 :: [])).1, 10 :: rest) := by
    simp only [compilePush, skipInline, List.dropWhile,
      show ((32:Nat) == 32 || (32:Nat) == 9) = true by decide,
      show ((34:Nat) == 32 || (34:Nat) == 9) = false by decide, if_true]
    rw [compilePushString_eq _ s (10 :: rest) hs, compilePushString_eq _ s [] hs]
  rw [e, compileFrom_of_pass _ (10 :: rest) c (Stmt.effect c (Stmt.pushStr s))
    (by simp only [List.length_append, List.length_cons]; omega)
    (fun fuel => by
      rw [compileLoop_word fuel (cstr "PUSH") 32 _ c (by decide) (by decide) (by decide)
        (by decide), compileToken_PUSH, hpush]
      rfl)]
  exact compileFrom_newline _ _

theorem compileToken_CALL (c : Compiler) (p : List Nat) :
    compileToken (cstr "CALL") c p = compileCall c p := rfl

theorem compileCall_target (t : CallTarget) (c : Compiler) (rest : List Nat) :
    compileCall c (32 :: (t.text ++ 10 :: rest)) = (emit (emit c OP_CALL) t.code, 10 :: rest) := by
  cases t <;> rfl

/-- The token loop over a line `CALL` with one of the four targets. -/
theorem compileFrom_call (t : CallTarget) (c : Compiler) (rest : List Nat) :
    compileFrom c ((cstr "CALL " ++ t.text) ++ 10 :: rest)
      = compileFrom (emit (emit c OP_CALL) t.code) rest := by
  have e : (cstr "CALL " ++ t.text) ++ 10 :: rest
      = cstr "CALL" ++ 32 :: (t.text ++ 10 :: rest) := by
    have : cstr "CALL " = cstr "CALL" ++ [32] := by decide
    rw [this]
    simp
  rw [e, compileFrom_of_pass _ (10 :: rest) c (emit (emit c OP_CALL) t.code)
    (by simp only [List.length_append, List.length_cons]; omega)
    (fun fuel => by
      rw [compileLoop_word fuel (cstr "CALL") 32 _ c (by decide) (by decide) (by decide)
        (by decide), compileToken_CALL, compileCall_target])]
  exact compileFrom_newline _ _

/-- The token loop over the line of one statement. -/
theorem compileFrom_stmt (st : Stmt) (c : Compiler) (rest : List Nat)
    (hq : ∀ s, st = Stmt.pushStr s → 34 ∉ s) :
    compileFrom c (st.text ++ 10 :: rest) = compileFrom (Stmt.effect c st) rest := by
  cases st with
  | simple o => exact compileFrom_simple o c rest
  | pushInt n => exact compileFrom_pushInt n c rest
  | pushStr s => exact compileFrom_pushStr s c rest (hq s rfl)
  | call t => exact compileFrom_call t c rest

/-- The token loop over a program is the fold of the effects of its
statements. -/
theorem compileFrom_program : ∀ (prog : List Stmt) (c : Compiler),
    (∀ st ∈ prog, ∀ s, st = Stmt.pushStr s → 34 ∉ s) →
    compileFrom c (programText prog) = prog.foldl Stmt.effect c := by
  intro prog
  induction prog with
  | nil => intro c _; exact compileFrom_nil c
  | cons st ps ih =>
    intro c h
    rw [programText, compileFrom_stmt st c _ (h st (List.mem_cons_self _ _)),
      ih _ (fun x hx => h x (List.mem_cons_of_mem _ hx)), List.foldl_cons]

theorem poolOffset_zero (lits : List (List Nat)) : poolOffset lits 0 = 0 := by
  simp [poolOffset]

theorem poolOffset_succ (s : List Nat) (lits : List (List Nat)) (i : Nat) :
    poolOffset (s :: lits) (i + 1) = s.length + 1 + poolOffset lits i := by
  simp [poolOffset]

theorem poolOffset_step : ∀ (lits : List (List Nat)) (i : Nat), i < lits.length →
    poolOffset lits (i + 1) = poolOffset lits i + (lits.getD i []).length + 1 := by
  intro lits
  induction lits with
  | nil => intro i hi; simp at hi
  | cons s l ih =>
    intro i hi
    cases i with
    | zero =>
      rw [poolOffset_succ, poolOffset_zero, poolOffset_zero]
      simp
    | succ k =>
      have hk : k < l.length := by
        simp only [List.length_cons] at hi
        omega
      rw [poolOffset_succ, poolOffset_succ, ih k hk]
      simp only [List.getD_cons_succ]
      omega

theorem poolOffset_mono : ∀ (lits : List (List Nat)) (i j : Nat), i ≤ j →
    poolOffset lits i ≤ poolOffset lits j := by
  intro lits
  induction lits with
  | nil => intro i j _; simp [poolOffset]
  | cons s l ih =>
    intro i j hij
    cases i with
    | zero => rw [poolOffset_zero]; exact Nat.zero_le _
    | succ i2 =>
      cases j with
      | zero => omega
      | succ j2 =>
        rw [poolOffset_succ, poolOffset_succ]
        have := ih i2 j2 (by omega)
        omega

theorem effect_length (c : Compiler) (st : Stmt) :
    (Stmt.effect c st).length = c.length + st.size := by
  cases st <;> rfl

theorem foldl_effect_length : ∀ (prog : List Stmt) (c : Compiler),
    (prog.foldl Stmt.effect c).length = c.length + streamSize prog := by
  intro prog
  induction prog with
  | nil => intro c; rfl
  | cons st ps ih =>
    intro c
    rw [List.foldl_cons, ih, effect_length]
    simp only [streamSize, List.map_cons, List.sum_cons]
    omega

/-- A statement that is no string literal leaves the pool cursor and every
byte from the pool start on as they are, when its bytes end below the pool. -/
theorem effect_other (c : Compiler) (st : Stmt) (hst : ∀ s, st ≠ Stmt.pushStr s)
    (hfit : c.length + st.size ≤ 65536) :
    (Stmt.effect c st).statics = c.statics ∧
    ∀ j, 65536 ≤ j → (Stmt.effect c st).bytecode j = c.bytecode j := by
  cases st with
  | simple o =>
    refine ⟨rfl, fun j hj => ?_⟩
    simp only [Stmt.size] at hfit
    exact poke_other _ _ _ _ (by omega)
  | pushInt n =>
    refine ⟨rfl, fun j hj => ?_⟩
    simp only [Stmt.size] at hfit
    show poke (poke c.bytecode c.length OP_PUSH) (c.length + 1) n j = _
    rw [poke_other _ _ _ _ (by omega), poke_other _ _ _ _ (by omega)]
  | pushStr s => exact absurd rfl (hst s)
  | call t =>
    refine ⟨rfl, fun j hj => ?_⟩
    simp only [Stmt.size] at hfit
    show poke (poke c.bytecode c.length OP_CALL) (c.length + 1) t.code j = _
    rw [poke_other _ _ _ _ (by omega), poke_other _ _ _ _ (by omega)]

/-- A line that pushes the literal `s`, when its five bytes end below the
pool: `s` and its terminator are at the pool cursor, the cursor advances by
`length s + 1`, and the pool below the cursor is as before. -/
theorem effect_pushStr (c : Compiler) (s : List Nat)
    (hs : ∀ x ∈ s, x ≠ 34 ∧ x ≠ 0 ∧ x < 256) (hfit : c.length + 5 ≤ 65536) :
    (Stmt.effect c (Stmt.pushStr s)).statics.str_offset_inner
      = c.statics.str_offset_inner + s.length + 1 ∧
    IsCStringAt (Stmt.effect c (Stmt.pushStr s)).bytecode
      (65536 + c.statics.str_offset_inner) s ∧
    ∀ j, 65536 ≤ j → j < 65536 + c.statics.str_offset_inner →
      (Stmt.effect c (Stmt.pushStr s)).bytecode j = c.bytecode j := by
  have hq : 34 ∉ s := fun h => (hs 34 h).1 rfl
  have hP : STRING_POOL_START = 65536 := rfl
  rw [pushStr_effect_eq c s hq, hP]
  refine ⟨rfl, ?_, fun j hj1 hj2 => ?_⟩
  · have hw := writeBytes_cstring s (poke c.bytecode c.length OP_PUSH)
      (65536 + c.statics.str_offset_inner) (fun x hx => ⟨(hs x hx).2.1, (hs x hx).2.2⟩)
    rw [writeBytes_append] at hw
    refine IsCStringAt_congr _ _ s _ (fun j hj1 _ => ?_) hw
    simp only []
    rw [poke_other _ _ _ _ (by omega), poke_other _ _ _ _ (by omega),
      poke_other _ _ _ _ (by omega), poke_other _ _ _ _ (by omega)]
    rfl
  · simp only []
    rw [poke_other _ _ _ _ (by omega), poke_other _ _ _ _ (by omega),
      poke_other _ _ _ _ (by omega), poke_other _ _ _ _ (by omega),
      poke_other _ _ _ _ (by omega), writeBytes_below _ _ _ _ (by omega),
      poke_other _ _ _ _ (by omega)]

/-- The layout of the string pool after a program whose opcode stream ends
below the pool: the pool below the old cursor is as before, and the `i`-th
literal and its terminator are at the old cursor plus the sum of
`length + 1` over the literals before it. -/
theorem foldl_effect_pool : ∀ (prog : List Stmt) (c : Compiler),
    (∀ s ∈ literals prog, ∀ x ∈ s, x ≠ 34 ∧ x ≠ 0 ∧ x < 256) →
    c.length + streamSize prog ≤ 65536 →
    (∀ j, 65536 ≤ j → j < 65536 + c.statics.str_offset_inner →
      (prog.foldl Stmt.effect c).bytecode j = c.bytecode j) ∧
    (∀ i, i < (literals prog).length →
      IsCStringAt (prog.foldl Stmt.effect c).bytecode
        (65536 + c.statics.str_offset_inner + poolOffset (literals prog) i)
        ((literals prog).getD i [])) := by
  intro prog
  induction prog with
  | nil =>
    intro c _ _
    exact ⟨fun j _ _ => rfl, fun i hi => by simp [literals] at hi⟩
  | cons st ps ih =>
    intro c hlit hfit
    have hsz : c.length + st.size + streamSize ps ≤ 65536 := by
      simp only [streamSize, List.map_cons, List.sum_cons] at hfit
      simp only [streamSize]
      omega
    rw [List.foldl_cons]
    by_cases hst : ∃ s, st = Stmt.pushStr s
    · obtain ⟨s, rfl⟩ := hst
      have hlits : literals (Stmt.pushStr s :: ps) = s :: literals ps := rfl
      rw [hlits] at hlit ⊢
      have h5 : c.length + 5 ≤ 65536 := by
        simp only [Stmt.size] at hsz
        omega
      obtain ⟨e1, e2, e3⟩ := effect_pushStr c s (hlit s (List.mem_cons_self _ _)) h5
      obtain ⟨i1, i2⟩ := ih (Stmt.effect c (Stmt.pushStr s))
        (fun t ht => hlit t (List.mem_cons_of_mem _ ht))
        (by rw [effect_length]; exact hsz)
      rw [e1] at i1 i2
      refine ⟨fun j hj1 hj2 => ?_, fun i hi => ?_⟩
      · rw [i1 j hj1 (by omega), e3 j hj1 hj2]
      · cases i with
        | zero =>
          rw [poolOffset_zero, Nat.add_zero]
          show IsCStringAt _ _ s
          exact IsCStringAt_congr _ _ s _ (fun j hj1 hj2 => i1 j (by omega) (by omega)) e2
        | succ k =>
          rw [poolOffset_succ]
          have hk : k < (literals ps).length := by
            simp only [List.length_cons] at hi
            omega
          have := i2 k hk
          have e : 65536 + (c.statics.str_offset_inner + s.length + 1)
                + poolOffset (literals ps) k
              = 65536 + c.statics.str_offset_inner
                + (s.length + 1 + poolOffset (literals ps) k) := by omega
          rw [e] at this
          exact this
    · have hno : ∀ s, st ≠ Stmt.pushStr s := fun s h => hst ⟨s, h⟩
      have hlits : literals (st :: ps) = literals ps := by
        cases st with
        | simple o => rfl
        | pushInt n => rfl
        | pushStr s => exact absurd rfl (hno s)
        | call t => rfl
      rw [hlits] at hlit ⊢
      obtain ⟨e1, e2⟩ := effect_other c st hno (by omega)
      obtain ⟨i1, i2⟩ := ih (Stmt.effect c st) hlit (by rw [effect_length]; exact hsz)
      rw [e1] at i1 i2
      exact ⟨fun j hj1 hj2 => by rw [i1 j hj1 hj2, e2 j hj1], i2⟩

/-- Every statement that pushes a literal is in the list of literals. -/
theorem pushStr_mem_literals : ∀ (prog : List Stmt) (s : List Nat),
    Stmt.pushStr s ∈ prog → s ∈ literals prog := by
  intro prog
  induction prog with
  | nil => intro s h; simp at h
  | cons st ps ih =>
    intro s h
    rcases List.mem_cons.1 h with e | e
    · rw [← e]
      exact List.mem_cons_self _ _
    · have := ih s e
      cases st with
      | simple o => exact this
      | pushInt n => exact this
      | pushStr t => exact List.mem_cons_of_mem _ this
      | call t => exact this

/-- What `compile` returns for a program: the fold of the effects of its
statements from the start state. -/
theorem compile_program (st : Statics) (prog : List Stmt)
    (hq : ∀ s ∈ literals prog, 34 ∉ s) :
    compile st (programText prog)
      = { bytecode := (prog.foldl Stmt.effect (compileStart st)).bytecode,
          length := (prog.foldl Stmt.effect (compileStart st)).length,
          statics := (prog.foldl Stmt.effect (compileStart st)).statics } := by
  rw [compile_eq_compileFrom, compileFrom_program prog _
    (fun x hx s hs => hq s (pushStr_mem_literals prog s (hs ▸ hx)))]

theorem compile_program_length (st : Statics) (prog : List Stmt)
    (hq : ∀ s ∈ literals prog, 34 ∉ s) :
    (compile st (programText prog)).length
      = (prog.foldl Stmt.effect (compileStart st)).length := by
  rw [compile_program st prog hq]

theorem compile_program_bytecode (st : Statics) (prog : List Stmt)
    (hq : ∀ s ∈ literals prog, 34 ∉ s) :
    (compile st (programText prog)).bytecode
      = (prog.foldl Stmt.effect (compileStart st)).bytecode := by
  rw [compile_program st prog hq]

theorem literals_replicate_simple (o : SimpleOp) (tail : List Stmt) : ∀ n : Nat,
    literals (List.replicate n (Stmt.simple o) ++ tail) = literals tail := by
  intro n
  induction n with
  | zero => rfl
  | succ k ih =>
    rw [List.replicate_succ, List.cons_append]
    exact ih

theorem foldl_replicate_simple (o : SimpleOp) : ∀ (n : Nat) (c : Compiler),
    ((List.replicate n (Stmt.simple o)).foldl Stmt.effect c).length = c.length + n ∧
    ((List.replicate n (Stmt.simple o)).foldl Stmt.effect c).statics = c.statics := by
  intro n
  induction n with
  | zero => intro c; exact ⟨rfl, rfl⟩
  | succ k ih =>
    intro c
    rw [List.replicate_succ, List.foldl_cons]
    obtain ⟨h1, h2⟩ := ih (Stmt.effect c (Stmt.simple o))
    refine ⟨?_, h2⟩
    rw [h1]
    show c.length + 1 + k = c.length + (k + 1)
    omega

theorem literals_longProgram : literals longProgram = [cstr "hi"] :=
  literals_replicate_simple SimpleOp.POP [Stmt.pushStr (cstr "hi")] 65532

theorem longProgram_no_quote : ∀ s ∈ literals longProgram, 34 ∉ s := by
  intro s hs
  rw [literals_longProgram, List.mem_singleton] at hs
  rw [hs]
  decide

theorem longProgram_foldl (c : Compiler) :
    longProgram.foldl Stmt.effect c
      = Stmt.effect ((List.replicate 65532 (Stmt.simple SimpleOp.POP)).foldl Stmt.effect c)
          (Stmt.pushStr (cstr "hi")) := by
  unfold longProgram
  rw [List.foldl_append, List.foldl_cons, List.foldl_nil]

/-- The stream of `longProgram` has 65537 bytes. -/
theorem longProgram_length :
    (compile Statics.fresh (programText longProgram)).length = 65537 := by
  obtain ⟨h1, _⟩ := foldl_replicate_simple SimpleOp.POP 65532 (compileStart Statics.fresh)
  rw [compile_program_length _ _ longProgram_no_quote, longProgram_foldl, effect_length, h1]
  rfl

/-- The byte of `longProgram` at the start of the pool is the last byte of
the stream, the offset of the literal cut to one byte. -/
theorem longProgram_pool_byte :
    (compile Statics.fresh (programText longProgram)).bytecode STRING_POOL_START = 0 := by
  obtain ⟨h1, h2⟩ := foldl_replicate_simple SimpleOp.POP 65532 (compileStart Statics.fresh)
  have e1 : (compileStart Statics.fresh).length + 65532 + 1 + 3 = STRING_POOL_START := rfl
  rw [compile_program_bytecode _ _ longProgram_no_quote, longProgram_foldl,
    pushStr_effect_eq _ _ (by decide)]
  simp only [h1, h2]
  rw [e1, poke_same]
  rfl

/-! ## Lemmas: the dispatch loop -/

theorem VM_push_running (vm : VM) (v : Int) : (VM.push vm v).running = vm.running := rfl

theorem readToken_length_sum : ∀ (n : Nat) (p : List Nat),
    (readToken n p).1.length + (readToken n p).2.length = p.length := by
  intro n
  induction n with
  | zero => intro p; simp [readToken]
  | succ n ih =>
    intro p
    cases p with
    | nil => simp [readToken]
    | cons x xs =>
      simp only [readToken]
      split
      · simp
      · have := ih xs
        simp only [List.length_cons]
        omega

/-- The copy loop of lines 330-333 writes no byte below its first index. -/
theorem copyLiteral_below (loc : Nat) : ∀ (q : List Nat) (buf : Buffer) (i j : Nat),
    j < loc + i → (copyLiteral loc buf i q).1 j = buf j := by
  intro q
  induction q with
  | nil => intro buf i j _; rfl
  | cons x xs ih =>
    intro buf i j hj
    simp only [copyLiteral]
    split
    · rfl
    · rw [ih _ _ _ (by omega), poke_other _ _ _ _ (by omega)]

theorem emit_gap (c : Compiler) (b : Nat) (h : GapZero c) : GapZero (emit c b) := by
  intro j hj1 hj2
  have hl : (emit c b).length = c.length + 1 := rfl
  rw [hl] at hj1
  show poke c.bytecode c.length b j = 0
  rw [poke_other _ _ _ _ (by omega)]
  exact h j (by omega) hj2

/-- The string branch of `PUSH` adds four bytes to the stream and changes
below the pool nothing but these four bytes. -/
theorem compilePushString_frame (c : Compiler) (q : List Nat) :
    (compilePushString c q).1.length = c.length + 4 ∧
    (compilePushString c q).2.length ≤ q.length ∧
    ∀ j, j < STRING_POOL_START → (j < c.length ∨ c.length + 4 ≤ j) →
      (compilePushString c q).1.bytecode j = c.bytecode j := by
  have hP : STRING_POOL_START = 65536 := rfl
  refine ⟨rfl, ?_, fun j hj hout => ?_⟩
  · simp only [compilePushString]
    have h1 := skipQuote_length_le
      (copyLiteral (STRING_POOL_START + c.statics.str_offset_inner) c.bytecode 0 q).2.2
    have h2 := copyLiteral_length_le (STRING_POOL_START + c.statics.str_offset_inner) q
      c.bytecode 0
    omega
  · rw [hP] at hj
    simp only [compilePushString, emit]
    rw [poke_other _ _ _ _ (by omega), poke_other _ _ _ _ (by omega),
      poke_other _ _ _ _ (by omega), poke_other _ _ _ _ (by omega),
      poke_other _ _ _ _ (by rw [hP]; omega), copyLiteral_below _ _ _ _ _ (by rw [hP]; omega)]

theorem compilePushString_gap (c : Compiler) (q : List Nat) (h : GapZero c) :
    GapZero (compilePushString c q).1 := by
  obtain ⟨h1, _, h3⟩ := compilePushString_frame c q
  intro j hj1 hj2
  rw [h1] at hj1
  rw [h3 j hj2 (Or.inr hj1)]
  exact h j (by omega) hj2

/-- The `PUSH` branch: what it adds to the stream is covered by the four
bytes of the token and the text it consumes, and the gap stays 0. -/
theorem compilePush_inv (c : Compiler) (p : List Nat) (h : GapZero c) :
    (compilePush c p).1.length + (compilePush c p).2.length ≤ c.length + 4 + p.length ∧
    GapZero (compilePush c p).1 := by
  have hd := dropWhile_length_le (fun c => c == 32 || c == 9) p
  have hg := emit_gap c OP_PUSH h
  unfold compilePush skipInline
  cases hq : p.dropWhile (fun c => c == 32 || c == 9) with
  | nil =>
    simp only [compilePushInt]
    refine ⟨?_, emit_gap _ _ hg⟩
    show c.length + 1 + 1 + 0 ≤ _
    omega
  | cons d q =>
    rw [hq] at hd
    simp only [List.length_cons] at hd
    simp only []
    split
    · obtain ⟨h1, h2, _⟩ := compilePushString_frame (emit c OP_PUSH) q
      refine ⟨?_, compilePushString_gap _ _ hg⟩
      rw [h1]
      show c.length + 1 + 4 + _ ≤ _
      omega
    · simp only [compilePushInt]
      refine ⟨?_, emit_gap _ _ hg⟩
      have h1 := dropWhile_length_le isDigit (d :: q)
      simp only [List.length_cons] at h1
      show c.length + 1 + 1 + _ ≤ _
      omega

/-- The `CALL` branch: at most two bytes, and the gap stays 0. -/
theorem compileCall_inv (c : Compiler) (p : List Nat) (h : GapZero c) :
    (compileCall c p).1.length + (compileCall c p).2.length ≤ c.length + 4 + p.length ∧
    GapZero (compileCall c p).1 := by
  have hd := dropWhile_length_le (fun c => c == 32 || c == 9) p
  have hg := emit_gap c OP_CALL h
  have hl : ∀ b, (emit (emit c OP_CALL) b).length = c.length + 2 := fun _ => rfl
  unfold compileCall skipInline
  simp only []
  split
  · refine ⟨?_, emit_gap _ _ hg⟩
    rw [hl]
    simp only [List.length_drop]
    omega
  · split
    · refine ⟨?_, emit_gap _ _ hg⟩
      rw [hl]
      simp only [List.length_drop]
      omega
    · split
      · refine ⟨?_, emit_gap _ _ hg⟩
        rw [hl]
        simp only [List.length_drop]
        omega
      · split
        · refine ⟨?_, emit_gap _ _ hg⟩
          rw [hl]
          simp only [List.length_drop]
          omega
        · refine ⟨?_, hg⟩
          show c.length + 1 + (List.dropWhile (fun c => c == 32 || c == 9) p).length ≤ _
          omega

theorem emit_token_inv (c : Compiler) (b : Nat) (token p : List Nat) (h : GapZero c)
    (ht : 1 ≤ token.length) :
    (emit c b, p).1.length + (emit c b, p).2.length ≤ c.length + token.length + p.length ∧
    GapZero (emit c b, p).1 := by
  refine ⟨?_, emit_gap c b h⟩
  show c.length + 1 + p.length ≤ _
  omega

/-- One dispatch on a token: the bytes it adds to the stream are covered by
the bytes of the token and of the text it consumes, and the gap stays 0. -/
theorem compileToken_inv (token : List Nat) (c : Compiler) (p : List Nat) (h : GapZero c) :
    (compileToken token c p).1.length + (compileToken token c p).2.length
        ≤ c.length + token.length + p.length ∧
    GapZero (compileToken token c p).1 := by
  unfold compileToken
  by_cases h1 : token = cstr "PUSH"
  · rw [if_pos h1, h1]
    exact compilePush_inv c p h
  rw [if_neg h1]
  by_cases h2 : token = cstr "POP"
  · rw [if_pos h2]; exact emit_token_inv c _ token p h (by rw [h2]; decide)
  rw [if_neg h2]
  by_cases h3 : token = cstr "ADD"
  · rw [if_pos h3]; exact emit_token_inv c _ token p h (by rw [h3]; decide)
  rw [if_neg h3]
  by_cases h4 : token = cstr "SUB"
  · rw [if_pos h4]; exact emit_token_inv c _ token p h (by rw [h4]; decide)
  rw [if_neg h4]
  by_cases h5 : token = cstr "MUL"
  · rw [if_pos h5]; exact emit_token_inv c _ token p h (by rw [h5]; decide)
  rw [if_neg h5]
  by_cases h6 : token = cstr "DIV"
  · rw [if_pos h6]; exact emit_token_inv c _ token p h (by rw [h6]; decide)
  rw [if_neg h6]
  by_cases h7 : token = cstr "STORE"
  · rw [if_pos h7]; exact emit_token_inv c _ token p h (by rw [h7]; decide)
  rw [if_neg h7]
  by_cases h8 : token = cstr "LOAD"
  · rw [if_pos h8]; exact emit_token_inv c _ token p h (by rw [h8]; decide)
  rw [if_neg h8]
  by_cases h9 : token = cstr "CALL"
  · rw [if_pos h9, h9]
    exact compileCall_inv c p h
  rw [if_neg h9]
  by_cases h10 : token = cstr "CONCAT"
  · rw [if_pos h10]; exact emit_token_inv c _ token p h (by rw [h10]; decide)
  rw [if_neg h10]
  by_cases h11 : token = cstr "DUP"
  · rw [if_pos h11]; exact emit_token_inv c _ token p h (by rw [h11]; decide)
  rw [if_neg h11]
  by_cases h12 : token = cstr "SWAP"
  · rw [if_pos h12]; exact emit_token_inv c _ token p h (by rw [h12]; decide)
  rw [if_neg h12]
  by_cases h13 : token = cstr "PRINT"
  · rw [if_pos h13]; exact emit_token_inv c _ token p h (by rw [h13]; decide)
  rw [if_neg h13]
  exact ⟨by show c.length + p.length ≤ _; omega, h⟩

/-- The token loop: the stream grows by at most the length of the text, and
the gap between the stream and the pool stays 0. -/
theorem compileLoop_inv : ∀ (fuel : Nat) (p : List Nat) (c : Compiler), GapZero c →
    (compileLoop fuel p c).length ≤ c.length + p.length ∧ GapZero (compileLoop fuel p c) := by
  intro fuel
  induction fuel with
  | zero => intro p c h; exact ⟨by simp [compileLoop], h⟩
  | succ f ih =>
    intro p c h
    simp only [compileLoop]
    have hlen := skipSpace_length_le p false
    cases hq : skipSpace false p with
    | nil => exact ⟨by simp, h⟩
    | cons x xs =>
      simp only []
      rw [hq] at hlen
      have hsum := readToken_length_sum 255 (x :: xs)
      obtain ⟨h1, h2⟩ := compileToken_inv (readToken 255 (x :: xs)).1 c
        (readToken 255 (x :: xs)).2 h
      obtain ⟨h3, h4⟩ := ih (compileToken (readToken 255 (x :: xs)).1 c
        (readToken 255 (x :: xs)).2).2 (compileToken (readToken 255 (x :: xs)).1 c
        (readToken 255 (x :: xs)).2).1 h2
      exact ⟨by omega, h4⟩

/-! ## Lemmas: the data loop -/

theorem foldl_bind_map {α β γ : Type} (g : γ → α × β → γ) (rows : List α) (cols : List β) :
    ∀ st : γ, (rows.flatMap (fun r => cols.map (fun c => (r, c)))).foldl g st
      = rows.foldl (fun st r => cols.foldl (fun st c => g st (r, c)) st) st := by
  induction rows with
  | nil => intro st; rfl
  | cons r rs ih =>
    intro st
    rw [List.flatMap_cons, List.foldl_append, List.foldl_map, ih, List.foldl_cons]

/-- A band of `add_data` is the body of the column loop at the modules of
the band, in order. -/
theorem sweepBand_eq_placeAll (size : Nat) (data : List Nat) (length pos : Nat) (up : Bool)
    (st : DataState) :
    sweepBand size data length pos up st
      = placeAll size data length (bandCells size pos up) st := by
  unfold sweepBand placeAll bandCells
  rw [foldl_bind_map]

theorem bandCells_length (size pos : Nat) (up : Bool) :
    (bandCells size pos up).length ≤ 2 * size := by
  unfold bandCells
  have hrow : ∀ rows : List Nat,
      (rows.flatMap (fun row => (if 1 ≤ pos then [pos, pos - 1] else [pos]).map
        (fun col => (row, col)))).length ≤ 2 * rows.length := by
    intro rows
    induction rows with
    | nil => simp
    | cons r rs ih =>
      rw [List.flatMap_cons, List.length_append, List.length_map, List.length_cons]
      have : (if 1 ≤ pos then [pos, pos - 1] else [pos]).length ≤ 2 := by
        split <;> simp
      omega
  cases up
  · simpa using hrow (List.range size)
  · simpa using hrow (List.range size).reverse

/-- The body of the column loop changes no module but the one it visits. -/
theorem placeBit_other (size : Nat) (data : List Nat) (length : Nat) (st : DataState)
    (row col k : Nat) (hk : k ≠ row * size + col) :
    (placeBit size data length st row col).modules k = st.modules k := by
  unfold placeBit
  split
  · rfl
  · split
    · exact poke_other _ _ _ _ hk
    · rfl

/-- The body of the column loop changes no module that is set. -/
theorem placeBit_nonzero (size : Nat) (data : List Nat) (length : Nat) (st : DataState)
    (row col k : Nat) (hk : st.modules k ≠ 0) :
    (placeBit size data length st row col).modules k = st.modules k := by
  by_cases he : k = row * size + col
  · unfold placeBit
    split
    · rfl
    · rw [he] at hk
      rw [if_neg hk]
  · exact placeBit_other size data length st row col k he

theorem placeAll_nonzero (size : Nat) (data : List Nat) (length : Nat) :
    ∀ (cells : List (Nat × Nat)) (st : DataState) (k : Nat), st.modules k ≠ 0 →
      (placeAll size data length cells st).modules k = st.modules k := by
  intro cells
  induction cells with
  | nil => intro st k _; rfl
  | cons p ps ih =>
    intro st k hk
    have h1 := placeBit_nonzero size data length st p.1 p.2 k hk
    show (placeAll size data length ps (placeBit size data length st p.1 p.2)).modules k = _
    rw [ih _ k (by rw [h1]; exact hk), h1]

theorem dataLoop_nonzero (size : Nat) (data : List Nat) (length : Nat) :
    ∀ (fuel : Nat) (pos : Int) (up : Bool) (st : DataState) (k : Nat), st.modules k ≠ 0 →
      (dataLoop size data length fuel pos up st).modules k = st.modules k := by
  intro fuel
  induction fuel with
  | zero => intro pos up st k _; rfl
  | succ f ih =>
    intro pos up st k hk
    unfold dataLoop
    split
    · rfl
    · split
      · have h1 : (sweepBand size data length pos.toNat up st).modules k = st.modules k := by
          rw [sweepBand_eq_placeAll]
          exact placeAll_nonzero size data length _ st k hk
        rw [ih _ _ _ k (by rw [h1]; exact hk), h1]
      · rfl

/-- The function `add_data` changes no module that is set. -/
theorem add_data_nonzero (qr : QRCode) (data : List Nat) (length k : Nat)
    (hk : qr.modules k ≠ 0) : (add_data qr data length).modules k = qr.modules k :=
  dataLoop_nonzero qr.size data length qr.size _ true
    { modules := qr.modules, data_idx := 0, returned := false } k hk

/-! ## Lemmas: the structural patterns -/

/-- Two modules of a matrix with different rows or columns have different
indices. -/
theorem cell_index_ne (size r1 c1 r2 c2 : Nat) (h1 : c1 < size) (h2 : c2 < size)
    (h : r1 ≠ r2 ∨ c1 ≠ c2) : r1 * size + c1 ≠ r2 * size + c2 := by
  intro e
  rcases Nat.lt_trichotomy r1 r2 with hlt | heq | hgt
  · have := Nat.mul_le_mul_right size (Nat.succ_le_of_lt hlt)
    rw [Nat.succ_mul] at this
    omega
  · subst heq
    rcases h with h | h
    · exact h rfl
    · omega
  · have := Nat.mul_le_mul_right size (Nat.succ_le_of_lt hgt)
    rw [Nat.succ_mul] at this
    omega

theorem setModule_other_cell (size : Nat) (m : Nat → Nat) (row col : Nat) (v : Bool)
    (r c : Nat) (hc : c < size) (hcol : col < size) (h : r ≠ row ∨ c ≠ col) :
    setModule size m row col v (r * size + c) = m (r * size + c) :=
  poke_other _ _ _ _ (cell_index_ne size r c row col hc hcol h)

theorem setModule_same (size : Nat) (m : Nat → Nat) (row col : Nat) (v : Bool) :
    setModule size m row col v (row * size + col) = if v then 1 else 0 := by
  unfold setModule
  rw [poke_same]
  split <;> rfl

/-- A loop none of whose passes changes the byte at `k` leaves it as it
was. -/
theorem foldl_frame {α : Type} (step : (Nat → Nat) → α → Nat → Nat) (k : Nat) :
    ∀ (xs : List α) (m : Nat → Nat), (∀ m x, x ∈ xs → step m x k = m k) →
      xs.foldl step m k = m k := by
  intro xs
  induction xs with
  | nil => intro m _; rfl
  | cons x xs ih =>
    intro m h
    rw [List.foldl_cons, ih _ (fun m y hy => h m y (List.mem_cons_of_mem _ hy)),
      h m x (List.mem_cons_self _ _)]

/-- A counting loop whose pass `r` stores `v` at `k` and whose later passes
leave the byte at `k` alone ends with `v` at `k`. -/
theorem range_foldl_hit (step : (Nat → Nat) → Nat → Nat → Nat) (k v r : Nat)
    (hset : ∀ m, step m r k = v) (hlater : ∀ m y, r < y → step m y k = m k) :
    ∀ (n : Nat) (m : Nat → Nat), r < n → (List.range n).foldl step m k = v := by
  intro n
  induction n with
  | zero => intro m h; omega
  | succ n ih =>
    intro m h
    rw [List.range_succ, List.foldl_append, List.foldl_cons, List.foldl_nil]
    by_cases hr : r = n
    · rw [← hr]
      exact hset _
    · rw [hlater _ n (by omega)]
      exact ih m (by omega)

/-- Inside its block, `stampFinder` stores the finder pattern. -/
theorem stampFinder_hit (size : Nat) (m : Nat → Nat) (row col r c : Nat) (hr : r < 7)
    (hc : c < 7) (hcol : col + 7 ≤ size) :
    stampFinder size m row col ((row + r) * size + (col + c))
      = if finderModule r c then 1 else 0 := by
  unfold stampFinder
  refine range_foldl_hit
    (fun m r => (List.range 7).foldl (fun m c =>
      setModule size m (row + r) (col + c)
        ((r == 0 || r == 6 || c == 0 || c == 6) || (2 ≤ r && r ≤ 4 && 2 ≤ c && c ≤ 4))) m)
    _ _ r ?_ ?_ 7 m hr
  · intro m1
    refine range_foldl_hit
      (fun m c => setModule size m (row + r) (col + c)
        ((r == 0 || r == 6 || c == 0 || c == 6) || (2 ≤ r && r ≤ 4 && 2 ≤ c && c ≤ 4)))
      _ _ c ?_ ?_ 7 m1 hc
    · intro m2
      exact setModule_same size m2 (row + r) (col + c) _
    · intro m2 y hy
      exact poke_other _ _ _ _ (by omega)
  · intro m1 y hy
    refine foldl_frame _ _ _ _ (fun m2 x hx => ?_)
    have hx7 : x < 7 := List.mem_range.1 hx
    exact setModule_other_cell size m2 (row + y) (col + x) _ (row + r) (col + c) (by omega)
      (by omega) (Or.inl (by omega))

/-- Outside its block, `stampFinder` changes nothing. -/
theorem stampFinder_frame (size : Nat) (m : Nat → Nat) (row col R C : Nat) (hC : C < size)
    (hcol : col + 7 ≤ size) (hout : R < row ∨ row + 7 ≤ R ∨ C < col ∨ col + 7 ≤ C) :
    stampFinder size m row col (R * size + C) = m (R * size + C) := by
  unfold stampFinder
  refine foldl_frame _ _ _ _ (fun m1 y hy => ?_)
  have hy7 : y < 7 := List.mem_range.1 hy
  refine foldl_frame _ _ _ _ (fun m2 x hx => ?_)
  have hx7 : x < 7 := List.mem_range.1 hx
  exact setModule_other_cell size m2 (row + y) (col + x) _ R C hC (by omega) (by omega)

/-- The alignment pattern leaves the modules outside its block alone. -/
theorem add_alignment_frame (qr : QRCode) (s R C : Nat) (hs : qr.size = s) (h9 : 9 ≤ s)
    (hC : C < s) (hout : R + 9 < s ∨ C + 9 < s) :
    (add_alignment_patterns qr).modules (R * s + C) = qr.modules (R * s + C) := by
  unfold add_alignment_patterns
  split
  · simp only [hs]
    refine foldl_frame _ _ _ _ (fun m1 i hi => ?_)
    have hi5 : i < 5 := List.mem_range.1 hi
    refine foldl_frame _ _ _ _ (fun m2 j hj => ?_)
    have hj5 : j < 5 := List.mem_range.1 hj
    exact setModule_other_cell s m2 (s - 9 + i) (s - 9 + j) _ R C hC (by omega) (by omega)
  · rfl

theorem mem_upFrom (lo n x : Nat) (h : x ∈ upFrom lo n) : lo ≤ x ∧ x < lo + n := by
  unfold upFrom at h
  obtain ⟨i, hi, rfl⟩ := List.mem_map.1 h
  have := List.mem_range.1 hi
  omega

/-- The timing patterns leave the modules outside the two runs alone. -/
theorem add_timing_frame (qr : QRCode) (s R C : Nat) (hs : qr.size = s) (h16 : 16 ≤ s)
    (hC : C < s) (h1 : R ≠ 6 ∨ C < 8 ∨ s ≤ C + 8) (h2 : C ≠ 6 ∨ R < 8 ∨ s ≤ R + 8) :
    (add_timing_patterns qr).modules (R * s + C) = qr.modules (R * s + C) := by
  unfold add_timing_patterns
  simp only [hs]
  rw [foldl_frame _ _ _ _ (fun m1 i hi => by
    have hi2 := mem_upFrom _ _ _ hi
    exact setModule_other_cell s m1 i 6 _ R C hC (by omega) (by omega))]
  exact foldl_frame _ _ _ _ (fun m1 i hi => by
    have hi2 := mem_upFrom _ _ _ hi
    exact setModule_other_cell s m1 6 i _ R C hC (by omega) (by omega))

/-- The format bits leave the modules outside row 8 and column 8 alone. -/
theorem add_format_frame (qr : QRCode) (s R C : Nat) (hs : qr.size = s) (h21 : 21 ≤ s)
    (hC : C < s) (hR8 : R ≠ 8) (hC8 : C ≠ 8) :
    (add_format_info qr).modules (R * s + C) = qr.modules (R * s + C) := by
  unfold add_format_info
  simp only [hs]
  refine foldl_frame _ _ _ _ (fun m1 i hi => ?_)
  have hi15 : i < 15 := List.mem_range.1 hi
  split
  · exact setModule_other_cell s m1 i 8 _ R C hC (by omega) (Or.inr hC8)
  · split
    · exact setModule_other_cell s m1 (i + 1) 8 _ R C hC (by omega) (Or.inr hC8)
    · exact setModule_other_cell s m1 8 (s - 15 + i) _ R C hC (by omega) (Or.inl hR8)

/-- The alignment, timing and format steps leave a module alone that is
outside their blocks, runs, row 8 and column 8. -/
theorem structural_frame (q1 : QRCode) (s R C : Nat) (hs : q1.size = s) (h21 : 21 ≤ s)
    (hC : C < s) (ha : R + 9 < s ∨ C + 9 < s) (h1 : R ≠ 6 ∨ C < 8 ∨ s ≤ C + 8)
    (h2 : C ≠ 6 ∨ R < 8 ∨ s ≤ R + 8) (hR8 : R ≠ 8) (hC8 : C ≠ 8) :
    (add_format_info (add_timing_patterns (add_alignment_patterns q1))).modules (R * s + C)
      = q1.modules (R * s + C) := by
  have hs2 : (add_alignment_patterns q1).size = s := (add_alignment_patterns_size q1).1.trans hs
  have hs3 : (add_timing_patterns (add_alignment_patterns q1)).size = s := hs2
  rw [add_format_frame _ s R C hs3 h21 hC hR8 hC8,
    add_timing_frame _ s R C hs2 (by omega) hC h1 h2,
    add_alignment_frame _ s R C hs (by omega) hC ha]

/-- After the structural patterns are stamped, the three corner blocks hold
the finder pattern. -/
theorem structuralMatrix_finder (length : Nat) (ecc : QRCodeECC)
    (hv : findVersion length 41 1 ≤ 40) (r c : Nat) (hr : r < 7) (hc : c < 7) :
    getModule (structuralMatrix length ecc) r c = (if finderModule r c then 1 else 0) ∧
    getModule (structuralMatrix length ecc) ((structuralMatrix length ecc).size - 7 + r) c
      = (if finderModule r c then 1 else 0) ∧
    getModule (structuralMatrix length ecc) r ((structuralMatrix length ecc).size - 7 + c)
      = (if finderModule r c then 1 else 0) := by
  obtain ⟨v1, _, _, _⟩ := findVersion_spec length 41 1 (le_refl 1) (by norm_num) rfl
  have hsz : (structuralMatrix length ecc).size = 17 + 4 * findVersion length 41 1 := by
    unfold structuralMatrix
    simp only [add_format_info, add_timing_patterns, (add_alignment_patterns_size _).1,
      add_finder_patterns, initialize_modules]
    exact qrcode_get_size_valid _ v1 hv
  obtain ⟨s, hs⟩ : ∃ s, s = 17 + 4 * findVersion length 41 1 := ⟨_, rfl⟩
  have h21 : 21 ≤ s := by omega
  have hs0 : qrcode_get_size_for_version (findVersion length 41 1) = s := by
    rw [hs]
    exact qrcode_get_size_valid _ v1 hv
  rw [← hs] at hsz
  unfold getModule
  rw [hsz]
  have hmod : ∀ k, (structuralMatrix length ecc).modules k
      = (add_format_info (add_timing_patterns (add_alignment_patterns
          { version := findVersion length 41 1, size := s, ecc := ecc,
            modules := stampFinder s (stampFinder s (stampFinder s (fun _ => 0) 0 0)
              (s - 7) 0) 0 (s - 7),
            density := ⟨0, 0⟩, noise := ⟨0, 0⟩ }))).modules k := by
    intro k
    unfold structuralMatrix
    simp only [hs0]
    rfl
  refine ⟨?_, ?_, ?_⟩
  · rw [hmod, structural_frame _ s r c rfl h21 (by omega) (by omega) (by omega) (by omega)
      (by omega) (by omega)]
    show stampFinder s (stampFinder s (stampFinder s (fun _ => 0) 0 0) (s - 7) 0) 0 (s - 7)
      (r * s + c) = _
    rw [stampFinder_frame s _ 0 (s - 7) r c (by omega) (by omega) (by omega),
      stampFinder_frame s _ (s - 7) 0 r c (by omega) (by omega) (by omega)]
    have := stampFinder_hit s (fun _ => 0) 0 0 r c hr hc (by omega)
    simp only [Nat.zero_add] at this
    exact this
  · rw [hmod, structural_frame _ s (s - 7 + r) c rfl h21 (by omega) (by omega) (by omega)
      (by omega) (by omega) (by omega)]
    show stampFinder s (stampFinder s (stampFinder s (fun _ => 0) 0 0) (s - 7) 0) 0 (s - 7)
      ((s - 7 + r) * s + c) = _
    rw [stampFinder_frame s _ 0 (s - 7) (s - 7 + r) c (by omega) (by omega) (by omega)]
    have := stampFinder_hit s (stampFinder s (fun _ => 0) 0 0) (s - 7) 0 r c hr hc (by omega)
    simp only [Nat.zero_add] at this
    exact this
  · rw [hmod, structural_frame _ s r (s - 7 + c) rfl h21 (by omega) (by omega) (by omega)
      (by omega) (by omega) (by omega)]
    show stampFinder s (stampFinder s (stampFinder s (fun _ => 0) 0 0) (s - 7) 0) 0 (s - 7)
      (r * s + (s - 7 + c)) = _
    have := stampFinder_hit s (stampFinder s (stampFinder s (fun _ => 0) 0 0) (s - 7) 0)
      0 (s - 7) r c hr hc (by omega)
    simp only [Nat.zero_add] at this
    exact this

/-! ## Lemmas: the data loop reads the first bytes of the payload -/

theorem unsetCells_cons (size : Nat) (m : Nat → Nat) (p : Nat × Nat)
    (cells : List (Nat × Nat)) :
    unsetCells size m (p :: cells)
      = (if m (p.1 * size + p.2) = 0 then 1 else 0) + unsetCells size m cells := by
  unfold unsetCells
  rw [List.filter_cons]
  by_cases h : m (p.1 * size + p.2) = 0
  · simp [h]
    omega
  · simp [h]

theorem unsetCells_mono (size : Nat) (m m2 : Nat → Nat)
    (h : ∀ k, m2 k = 0 → m k = 0) : ∀ cells : List (Nat × Nat),
    unsetCells size m2 cells ≤ unsetCells size m cells := by
  intro cells
  induction cells with
  | nil => exact Nat.le_refl _
  | cons p ps ih =>
    rw [unsetCells_cons, unsetCells_cons]
    by_cases h2 : m2 (p.1 * size + p.2) = 0
    · rw [if_pos h2, if_pos (h _ h2)]
      omega
    · rw [if_neg h2]
      split <;> omega

theorem unsetCells_le_length (size : Nat) (m : Nat → Nat) (cells : List (Nat × Nat)) :
    unsetCells size m cells ≤ cells.length :=
  List.length_filter_le _ _

/-- The body of the column loop reads the payload only at the byte of
`data_idx`. -/
theorem placeBit_congr (size : Nat) (d1 d2 : List Nat) (length n : Nat) (st : DataState)
    (row col : Nat) (hd : AgreeBelow n d1 d2)
    (h : st.returned = true ∨ st.modules (row * size + col) ≠ 0 ∨ st.data_idx < 8 * n) :
    placeBit size d1 length st row col = placeBit size d2 length st row col := by
  unfold placeBit
  by_cases hr : st.returned = true
  · rw [if_pos hr, if_pos hr]
  · rw [if_neg hr, if_neg hr]
    by_cases hz : st.modules (row * size + col) = 0
    · rw [if_pos hz, if_pos hz]
      have hlt : st.data_idx < 8 * n := by
        rcases h with h | h | h
        · exact absurd h hr
        · exact absurd hz h
        · exact h
      rw [hd (st.data_idx / 8) (by omega)]
    · rw [if_neg hz, if_neg hz]

/-- What one module costs: a bit is placed only at a module that is
unset. -/
theorem placeBit_budget (size : Nat) (data : List Nat) (length : Nat) (st : DataState)
    (p : Nat × Nat) (cells : List (Nat × Nat)) :
    (placeBit size data length st p.1 p.2).data_idx
        + unsetCells size (placeBit size data length st p.1 p.2).modules cells
      ≤ st.data_idx + unsetCells size st.modules (p :: cells) := by
  rw [unsetCells_cons]
  unfold placeBit
  by_cases hr : st.returned = true
  · rw [if_pos hr]
    omega
  · rw [if_neg hr]
    by_cases hz : st.modules (p.1 * size + p.2) = 0
    · rw [if_pos hz, if_pos hz]
      have hm := unsetCells_mono size st.modules
        (setModule size st.modules p.1 p.2
          (data.getD (st.data_idx / 8) 0 / 2 ^ (7 - st.data_idx % 8) % 2 == 1))
        (fun k hk => by
          by_cases he : k = p.1 * size + p.2
          · rw [he]; exact hz
          · unfold setModule at hk
            rw [poke_other _ _ _ _ he] at hk
            exact hk) cells
      show st.data_idx + 1 + unsetCells size (setModule size st.modules p.1 p.2
          (data.getD (st.data_idx / 8) 0 / 2 ^ (7 - st.data_idx % 8) % 2 == 1)) cells ≤ _
      omega
    · rw [if_neg hz, if_neg hz]
      omega

theorem placeBit_data_idx_le (size : Nat) (data : List Nat) (length : Nat) (st : DataState)
    (row col : Nat) : st.data_idx ≤ (placeBit size data length st row col).data_idx := by
  unfold placeBit
  split
  · exact Nat.le_refl _
  · split
    · exact Nat.le_succ _
    · exact Nat.le_refl _

/-- The bits that a list of modules takes are at most its unset modules. -/
theorem placeAll_budget (size : Nat) (data : List Nat) (length : Nat) :
    ∀ (cells : List (Nat × Nat)) (st : DataState),
      (placeAll size data length cells st).data_idx
        ≤ st.data_idx + unsetCells size st.modules cells := by
  intro cells
  induction cells with
  | nil => intro st; exact Nat.le_add_right _ _
  | cons p ps ih =>
    intro st
    have h1 := ih (placeBit size data length st p.1 p.2)
    have h2 := placeBit_budget size data length st p ps
    show (placeAll size data length ps (placeBit size data length st p.1 p.2)).data_idx ≤ _
    omega

/-- Two payloads that agree in their first `n` bytes give the same result
on a list of modules, when the bits placed stay below `8 * n`. -/
theorem placeAll_congr (size : Nat) (d1 d2 : List Nat) (length n : Nat)
    (hd : AgreeBelow n d1 d2) :
    ∀ (cells : List (Nat × Nat)) (st : DataState),
      st.data_idx + unsetCells size st.modules cells ≤ 8 * n →
      placeAll size d1 length cells st = placeAll size d2 length cells st := by
  intro cells
  induction cells with
  | nil => intro st _; rfl
  | cons p ps ih =>
    intro st hb
    have hstep : placeBit size d1 length st p.1 p.2 = placeBit size d2 length st p.1 p.2 := by
      apply placeBit_congr size d1 d2 length n st p.1 p.2 hd
      by_cases hz : st.modules (p.1 * size + p.2) = 0
      · right; right
        rw [unsetCells_cons, if_pos hz] at hb
        omega
      · right; left; exact hz
    have h2 := placeBit_budget size d1 length st p ps
    show placeAll size d1 length ps (placeBit size d1 length st p.1 p.2)
      = placeAll size d2 length ps (placeBit size d2 length st p.1 p.2)
    rw [← hstep]
    exact ih _ (by omega)

theorem placeAll_congr_start (size : Nat) (d1 d2 : List Nat) (length n : Nat)
    (hd : AgreeBelow n d1 d2) (cells : List (Nat × Nat)) (M : Nat → Nat)
    (h : unsetCells size M cells ≤ 8 * n) :
    placeAll size d1 length cells { modules := M, data_idx := 0, returned := false }
      = placeAll size d2 length cells { modules := M, data_idx := 0, returned := false } :=
  placeAll_congr size d1 d2 length n hd cells _ (by show 0 + unsetCells size M cells ≤ _; omega)

/-- The loop of line 315 on two payloads of the same length that agree in
their first `n` bytes, when a band cannot take the bit count from below
`length` to above `8 * n`. -/
theorem dataLoop_congr (size : Nat) (d1 d2 : List Nat) (length n : Nat)
    (hd : AgreeBelow n d1 d2) (hb : length + 2 * size ≤ 8 * n + 1) :
    ∀ (fuel : Nat) (pos : Int) (up : Bool) (st : DataState),
      dataLoop size d1 length fuel pos up st = dataLoop size d2 length fuel pos up st := by
  intro fuel
  induction fuel with
  | zero => intro pos up st; rfl
  | succ f ih =>
    intro pos up st
    unfold dataLoop
    by_cases hr : st.returned = true
    · rw [if_pos hr, if_pos hr]
    · rw [if_neg hr, if_neg hr]
      by_cases hc : 0 ≤ pos ∧ st.data_idx < length
      · rw [if_pos hc, if_pos hc]
        have hs : sweepBand size d1 length pos.toNat up st
            = sweepBand size d2 length pos.toNat up st := by
          rw [sweepBand_eq_placeAll, sweepBand_eq_placeAll]
          apply placeAll_congr size d1 d2 length n hd
          have h1 := unsetCells_le_length size st.modules (bandCells size pos.toNat up)
          have h2 := bandCells_length size pos.toNat up
          omega
        rw [hs]
        exact ih _ _ _
      · rw [if_neg hc, if_neg hc]

/-- The loop of line 315 ends with a bit count that is below `length` plus
the modules of one band. -/
theorem dataLoop_bound (size : Nat) (data : List Nat) (length bound : Nat)
    (hb : length + 2 * size ≤ bound + 1) :
    ∀ (fuel : Nat) (pos : Int) (up : Bool) (st : DataState), st.data_idx ≤ bound →
      (dataLoop size data length fuel pos up st).data_idx ≤ bound := by
  intro fuel
  induction fuel with
  | zero => intro pos up st h; exact h
  | succ f ih =>
    intro pos up st h
    unfold dataLoop
    split
    · exact h
    · split
      · rename_i hc
        apply ih
        rw [sweepBand_eq_placeAll]
        have h0 := placeAll_budget size data length (bandCells size pos.toNat up) st
        have h1 := unsetCells_le_length size st.modules (bandCells size pos.toNat up)
        have h2 := bandCells_length size pos.toNat up
        omega
      · exact h

theorem unsetCells_congr (size : Nat) (m m2 : Nat → Nat) : ∀ cells : List (Nat × Nat),
    (∀ q ∈ cells, m2 (q.1 * size + q.2) = m (q.1 * size + q.2)) →
    unsetCells size m2 cells = unsetCells size m cells := by
  intro cells
  induction cells with
  | nil => intro _; rfl
  | cons p ps ih =>
    intro h
    rw [unsetCells_cons, unsetCells_cons, h p (List.mem_cons_self _ _),
      ih (fun q hq => h q (List.mem_cons_of_mem _ hq))]

/-- On modules that are pairwise distinct, with the bit count staying below
`8 * length`, every unset module takes one bit. -/
theorem placeAll_exact (size : Nat) (data : List Nat) (length : Nat) :
    ∀ (cells : List (Nat × Nat)) (st : DataState),
      (cells.map (fun p => p.1 * size + p.2)).Nodup → st.returned = false →
      st.data_idx + unsetCells size st.modules cells < 8 * length →
      (placeAll size data length cells st).data_idx
          = st.data_idx + unsetCells size st.modules cells ∧
        (placeAll size data length cells st).returned = false := by
  intro cells
  induction cells with
  | nil => intro st _ hr _; exact ⟨rfl, hr⟩
  | cons p ps ih =>
    intro st hnd hr hb
    rw [List.map_cons, List.nodup_cons] at hnd
    rw [unsetCells_cons] at hb ⊢
    show (placeAll size data length ps (placeBit size data length st p.1 p.2)).data_idx = _ ∧
      (placeAll size data length ps (placeBit size data length st p.1 p.2)).returned = false
    by_cases hz : st.modules (p.1 * size + p.2) = 0
    · rw [if_pos hz] at hb ⊢
      have hst : placeBit size data length st p.1 p.2
          = { modules := setModule size st.modules p.1 p.2
                (data.getD (st.data_idx / 8) 0 / 2 ^ (7 - st.data_idx % 8) % 2 == 1),
              data_idx := st.data_idx + 1,
              returned := decide (length * 8 ≤ st.data_idx + 1) } := by
        unfold placeBit
        rw [hr]
        simp only [Bool.false_eq_true, if_false, if_pos hz]
      have hcount : unsetCells size (placeBit size data length st p.1 p.2).modules ps
          = unsetCells size st.modules ps := by
        apply unsetCells_congr
        intro q hq
        apply placeBit_other
        intro he
        exact hnd.1 (List.mem_map.2 ⟨q, hq, he⟩)
      have hidx : (placeBit size data length st p.1 p.2).data_idx = st.data_idx + 1 := by
        rw [hst]
      have hret : (placeBit size data length st p.1 p.2).returned = false := by
        rw [hst]
        show decide (length * 8 ≤ st.data_idx + 1) = false
        rw [decide_eq_false_iff_not]
        omega
      obtain ⟨h1, h2⟩ := ih (placeBit size data length st p.1 p.2) hnd.2 hret
        (by rw [hidx, hcount]; omega)
      refine ⟨?_, h2⟩
      rw [h1, hidx, hcount]
      omega
    · rw [if_neg hz] at hb ⊢
      have hst : placeBit size data length st p.1 p.2 = st := by
        unfold placeBit
        rw [hr]
        simp only [Bool.false_eq_true, if_false, if_neg hz]
      rw [hst]
      obtain ⟨h1, h2⟩ := ih st hnd.2 hr (by omega)
      exact ⟨by rw [h1]; omega, h2⟩

/-- What `qrcode_create` returns when the payload fits: the structural
matrix, then `add_data`, then the two metrics. -/
theorem qrcode_create_some (data : List Nat) (ecc : QRCodeECC)
    (h : findVersion data.length 41 1 ≤ 40) :
    qrcode_create data ecc
      = some (computeMetrics (add_data (structuralMatrix data.length ecc) data data.length)) := by
  unfold qrcode_create
  have hn : ¬ MAX_VERSION < findVersion data.length 41 1 := by
    show ¬ 40 < _
    omega
  simp only [hn, if_false]
  rfl

theorem structuralMatrix_size (length : Nat) (ecc : QRCodeECC) :
    (structuralMatrix length ecc).size
      = qrcode_get_size_for_version (findVersion length 41 1) := by
  unfold structuralMatrix
  simp only [add_format_info, add_timing_patterns, (add_alignment_patterns_size _).1,
    add_finder_patterns, initialize_modules]

theorem structuralMatrix_congr (l1 l2 : Nat) (ecc : QRCodeECC)
    (h : findVersion l1 41 1 = findVersion l2 41 1) :
    structuralMatrix l1 ecc = structuralMatrix l2 ecc := by
  unfold structuralMatrix
  rw [h]

theorem findVersion_small (length : Nat) (h : length ≤ 55) : findVersion length 41 1 = 1 := by
  have hs : qrcode_get_size_for_version 1 = 21 := by decide
  simp only [findVersion, hs]
  rw [if_pos (by decide), if_pos (by omega)]

/-- A payload of at most 3916 bytes gets a version from 1 to 40 whose
predecessor, if any, is too small for it. -/
theorem findVersion_fits (length : Nat) (h : length ≤ 3916) :
    1 ≤ findVersion length 41 1 ∧ findVersion length 41 1 ≤ 40 ∧
    (2 ≤ findVersion length 41 1 → capacity (findVersion length 41 1 - 1) < length) := by
  obtain ⟨h1, _, _, h4⟩ := findVersion_spec length 41 1 (le_refl 1) (by norm_num) rfl
  have h40 : findVersion length 41 1 ≤ 40 := by
    by_contra hc
    have := h4 40 (by norm_num) (by omega)
    rw [capacity_40] at this
    omega
  exact ⟨h1, h40, fun h2v => h4 _ (by omega) (by omega)⟩

/-- From version 2 on, seven times the least payload of a version covers
two sides of the matrix and 63. -/
theorem version_table : ∀ v, v < 41 → 2 ≤ v → 97 + 8 * v ≤ 7 * (capacity (v - 1) + 1) := by
  decide

theorem nonceBytes_length (n : Nat) : (nonceBytes n).length = 8 := by
  simp [nonceBytes]

theorem agreeBelow_append (header t1 t2 : List Nat) :
    AgreeBelow header.length (header ++ t1) (header ++ t2) := by
  intro i hi
  rw [List.getD_append _ _ _ _ hi, List.getD_append _ _ _ _ hi]

/-- For a payload of at least 15 bytes, a band cannot take the bit count
from below the payload length to above eight times the length less 64. -/
theorem band_budget (length : Nat) (h15 : 15 ≤ length) (hfit : length ≤ 3916) :
    length + 2 * qrcode_get_size_for_version (findVersion length 41 1)
      ≤ 8 * (length - 8) + 1 := by
  obtain ⟨h1, h40, hprev⟩ := findVersion_fits length hfit
  rw [qrcode_get_size_valid _ h1 h40]
  by_cases h2 : 2 ≤ findVersion length 41 1
  · have ht := version_table (findVersion length 41 1) (by omega) h2
    have hp := hprev h2
    omega
  · have : findVersion length 41 1 = 1 := by omega
    rw [this]
    omega

theorem dataLoop_succ (size : Nat) (data : List Nat) (length fuel : Nat) (pos : Int)
    (up : Bool) (st : DataState) :
    dataLoop size data length (fuel + 1) pos up st
      = if st.returned then st
        else if 0 ≤ pos ∧ st.data_idx < length then
          dataLoop size data length fuel (pos - 2) (!up)
            (sweepBand size data length pos.toNat up st)
        else st := rfl

set_option maxRecDepth 1000000 in
/-- The first band of the version 1 matrix with error class H: its 42
modules are pairwise distinct and 31 of them are unset. -/
theorem first_band_version_1 :
    (structuralMatrix 0 QRCodeECC.H).size = 21 ∧
    ((bandCells 21 20 true).map (fun p => p.1 * 21 + p.2)).Nodup ∧
    unsetCells 21 (structuralMatrix 0 QRCodeECC.H).modules (bandCells 21 20 true) = 31 := by
  refine ⟨by decide!, by decide!, by decide!⟩

/-- The loop of line 315 when the first band it sweeps takes the bit count
to the payload length or above: that band is all it does. -/
theorem dataLoop_one_band (size : Nat) (data : List Nat) (length fuel : Nat) (pos : Int)
    (up : Bool) (st : DataState) (hpos : 0 ≤ pos) (hr : st.returned = false)
    (h0 : st.data_idx < length)
    (hnd : ((bandCells size pos.toNat up).map (fun p => p.1 * size + p.2)).Nodup)
    (hk : length ≤ st.data_idx + unsetCells size st.modules (bandCells size pos.toNat up))
    (hlt : st.data_idx + unsetCells size st.modules (bandCells size pos.toNat up)
      < 8 * length) :
    dataLoop size data length (fuel + 2) pos up st
        = placeAll size data length (bandCells size pos.toNat up) st ∧
    (placeAll size data length (bandCells size pos.toNat up) st).data_idx
        = st.data_idx + unsetCells size st.modules (bandCells size pos.toNat up) := by
  obtain ⟨hx1, hx2⟩ := placeAll_exact size data length (bandCells size pos.toNat up) st
    hnd hr hlt
  refine ⟨?_, hx1⟩
  rw [dataLoop_succ, hr]
  simp only [Bool.false_eq_true, if_false]
  rw [if_pos ⟨hpos, h0⟩, sweepBand_eq_placeAll, dataLoop_succ, hx2]
  simp only [Bool.false_eq_true, if_false]
  rw [if_neg (by rw [hx1]; omega)]

/-- For a payload of 4 to 31 bytes in the version 1 matrix with error class
H, `add_data` is the first band alone, and it places 31 bits. -/
theorem add_data_final_small (data : List Nat) (length : Nat) (h4 : 4 ≤ length)
    (h31 : length ≤ 31) :
    add_data_final (structuralMatrix 0 QRCodeECC.H) data length
        = placeAll 21 data length (bandCells 21 20 true)
            { modules := (structuralMatrix 0 QRCodeECC.H).modules, data_idx := 0,
              returned := false } ∧
    (add_data_final (structuralMatrix 0 QRCodeECC.H) data length).data_idx = 31 := by
  obtain ⟨hsz, hnd, hcount⟩ := first_band_version_1
  obtain ⟨M, hM⟩ : ∃ M, M = (structuralMatrix 0 QRCodeECC.H).modules := ⟨_, rfl⟩
  obtain ⟨cells, hcells⟩ : ∃ cells, cells = bandCells 21 20 true := ⟨_, rfl⟩
  rw [← hM, ← hcells] at hcount
  rw [← hcells] at hnd
  have e1 : (((21 : Nat) : Int) - 1).toNat = 20 := rfl
  have hone := dataLoop_one_band 21 data length 19 (((21 : Nat) : Int) - 1) true
    { modules := M, data_idx := 0, returned := false } (by norm_num) rfl
    (by show 0 < length; omega)
    (by rw [e1, ← hcells]; exact hnd)
    (by rw [e1, ← hcells]; show length ≤ 0 + unsetCells 21 M cells; omega)
    (by rw [e1, ← hcells]; show 0 + unsetCells 21 M cells < 8 * length; omega)
  rw [e1, ← hcells] at hone
  have hrun : add_data_final (structuralMatrix 0 QRCodeECC.H) data length
      = placeAll 21 data length cells { modules := M, data_idx := 0, returned := false } := by
    unfold add_data_final
    rw [hsz, ← hM]
    exact hone.1
  have hidx : (add_data_final (structuralMatrix 0 QRCodeECC.H) data length).data_idx
      = 31 := by
    rw [hrun, hone.2]
    show 0 + unsetCells 21 M cells = 31
    omega
  subst hM hcells
  exact ⟨hrun, hidx⟩

/-- The modules that `add_data` leaves do not depend on the last 8 bytes
of a payload of at least 12 bytes, and the bits it places are bits of the
bytes before them. -/
theorem add_data_final_header (header t1 t2 : List Nat) (hL : 4 ≤ header.length)
    (hfit : header.length + 8 ≤ 3916) :
    add_data_final (structuralMatrix (header.length + 8) QRCodeECC.H) (header ++ t1)
        (header.length + 8)
      = add_data_final (structuralMatrix (header.length + 8) QRCodeECC.H) (header ++ t2)
          (header.length + 8) ∧
    (add_data_final (structuralMatrix (header.length + 8) QRCodeECC.H) (header ++ t1)
        (header.length + 8)).data_idx ≤ 8 * header.length := by
  have hd := agreeBelow_append header t1 t2
  by_cases hs : header.length + 8 ≤ 31
  · have hm : structuralMatrix (header.length + 8) QRCodeECC.H
        = structuralMatrix 0 QRCodeECC.H :=
      structuralMatrix_congr _ _ _
        ((findVersion_small _ (by omega)).trans (findVersion_small 0 (by omega)).symm)
    rw [hm]
    obtain ⟨a1, a2⟩ := add_data_final_small (header ++ t1) (header.length + 8) (by omega) hs
    obtain ⟨b1, _⟩ := add_data_final_small (header ++ t2) (header.length + 8) (by omega) hs
    refine ⟨?_, by rw [a2]; omega⟩
    rw [a1, b1]
    exact placeAll_congr_start 21 _ _ _ header.length hd _ _
      (by rw [first_band_version_1.2.2]; omega)
  · have hb := band_budget (header.length + 8) (by omega) hfit
    rw [← structuralMatrix_size _ QRCodeECC.H] at hb
    have e : header.length + 8 - 8 = header.length := by omega
    rw [e] at hb
    refine ⟨?_, ?_⟩
    · unfold add_data_final
      exact dataLoop_congr _ _ _ _ header.length hd hb _ _ _ _
    · unfold add_data_final
      exact dataLoop_bound _ _ _ (8 * header.length) hb _ _ _ _ (Nat.zero_le _)

/-- The matrix that `qrcode_create` builds from a header of at least 4
bytes followed by 8 further bytes does not depend on these 8 bytes. -/
theorem qrcode_create_header (header : List Nat) (n1 n2 : Nat) (hL : 4 ≤ header.length)
    (hfit : header.length + 8 ≤ 3916) :
    qrcode_create (header ++ nonceBytes n1) QRCodeECC.H
        = qrcode_create (header ++ nonceBytes n2) QRCodeECC.H ∧
    ∃ qr, qrcode_create (header ++ nonceBytes n1) QRCodeECC.H = some qr := by
  have hl : ∀ n, (header ++ nonceBytes n).length = header.length + 8 := by
    intro n
    rw [List.length_append, nonceBytes_length]
  have hv : ∀ n, findVersion (header ++ nonceBytes n).length 41 1 ≤ 40 := by
    intro n
    rw [hl]
    exact (findVersion_fits _ hfit).2.1
  rw [qrcode_create_some _ _ (hv n1), qrcode_create_some _ _ (hv n2), hl, hl]
  refine ⟨?_, _, rfl⟩
  have h := (add_data_final_header header (nonceBytes n1) (nonceBytes n2) hL hfit).1
  have e : ∀ t, add_data (structuralMatrix (header.length + 8) QRCodeECC.H) (header ++ t)
        (header.length + 8)
      = { structuralMatrix (header.length + 8) QRCodeECC.H with
          modules := (add_data_final (structuralMatrix (header.length + 8) QRCodeECC.H)
            (header ++ t) (header.length + 8)).modules } := fun _ => rfl
  rw [e, e, h]

theorem attemptAccepted_header (sha256 : List Nat → List Nat) (header target : List Nat)
    (hL : 4 ≤ header.length) (hfit : header.length + 8 ≤ 3916) (n : Nat) :
    attemptAccepted sha256 header target n = attemptAccepted sha256 header target 0 := by
  unfold attemptAccepted
  rw [(qrcode_create_header header n 0 hL hfit).1]

/-! ## The claims -/

/-- Claim C1, as the code behaves: for every string `s` without a double
quote, the program that pushes the string literal `s` and then executes
`PRINT`, compiled from a fresh state and run as `main` does, prints the
single line `0`, whatever `s` is. -/
theorem print_string_prints_zero (bridge : Nat → VM → Option VM) (s : List Nat)
    (hs : 34 ∉ s) :
    run_main bridge Statics.fresh (printStringProgram s) = some [cstr "0"] := by
  obtain ⟨hl, b0, b1, b2, b3, b4, b5⟩ := compile_printStringProgram s hs
  unfold run_main
  simp only []
  rw [hl, vm_execute_printString bridge _ _ b0 b1 b2 b3 b4 b5 rfl rfl]
  simp [vm_init, copyPool]

/-- Witness for claim C1: the program of Scenario B, with `s` the string
`hi`, prints `0` and not `hi`. -/
theorem scenario_B_prints_zero :
    34 ∉ cstr "hi" ∧
      run_main noBridge Statics.fresh (printStringProgram (cstr "hi")) = some [cstr "0"] ∧
      run_main noBridge Statics.fresh (printStringProgram (cstr "hi")) ≠ some [cstr "hi"] := by
  have h := print_string_prints_zero noBridge (cstr "hi") (by decide)
  refine ⟨by decide, h, ?_⟩
  rw [h]
  decide

/-- Claim C2, as the code behaves: two calls of `compile` on a `PUSH` of
the string literal `hi` return the same length but different buffers. The
first call stores the literal at pool offset 0 and emits operand byte 0, the
second stores it at pool offset 3 and emits operand byte 3. -/
theorem compile_twice_differs :
    (compileTwice (pushStringProgram (cstr "hi"))).1.length = 5 ∧
    (compileTwice (pushStringProgram (cstr "hi"))).2.length = 5 ∧
    (List.range 5).map (compileTwice (pushStringProgram (cstr "hi"))).1.bytecode
      = [1, 1, 255, 1, 0] ∧
    (List.range 5).map (compileTwice (pushStringProgram (cstr "hi"))).2.bytecode
      = [1, 1, 255, 1, 3] ∧
    (List.range 6).map (fun i =>
        (compileTwice (pushStringProgram (cstr "hi"))).1.bytecode (STRING_POOL_START + i))
      = [104, 105, 0, 0, 0, 0] ∧
    (List.range 6).map (fun i =>
        (compileTwice (pushStringProgram (cstr "hi"))).2.bytecode (STRING_POOL_START + i))
      = [0, 0, 0, 104, 105, 0] ∧
    (compileTwice (pushStringProgram (cstr "hi"))).1.bytecode
      ≠ (compileTwice (pushStringProgram (cstr "hi"))).2.bytecode := by
  refine ⟨by decide!, by decide!, by decide!, by decide!, by decide!, by decide!, ?_⟩
  intro h
  have h4 := congrFun h 4
  revert h4
  decide!

/-- Claim C3, as the code behaves: for every string literal `s` without a
double quote, the stream that `compile` emits for a `PUSH` of `s` from a
fresh state is the five bytes 01 01 FF 01 00, not two `PUSH` operations.
Run on an empty stack it performs `PUSH 1`, skips the byte FF as an unknown
opcode, performs `PUSH 0`, and leaves the two values 1 and 0 (0 on top),
neither the marker 255 nor the pool offset 65536. -/
theorem push_string_stream (bridge : Nat → VM → Option VM) (s : List Nat) (hs : 34 ∉ s) :
    (compile Statics.fresh (pushStringProgram s)).length = 5 ∧
    (List.range 5).map (compile Statics.fresh (pushStringProgram s)).bytecode
      = [OP_PUSH, OP_PUSH, STRING_MARKER, OP_PUSH, 0] ∧
    (vm_execute bridge (vm_init VM_MEMORY_SIZE)
        (compile Statics.fresh (pushStringProgram s)).bytecode
        (compile Statics.fresh (pushStringProgram s)).length).map (fun vm => vm.stack)
      = some [0, 1] := by
  obtain ⟨hl, b0, b1, b2, b3, b4⟩ := compile_pushStringProgram s hs
  refine ⟨hl, ?_, ?_⟩
  · simp [List.range, List.range.loop, b0, b1, b2, b3, b4]
  · rw [hl, vm_execute_pushString bridge _ _ b0 b1 b2 b3 b4 rfl rfl]
    rfl

/-- Witness for claim C3: the string literal `hi`. -/
theorem push_string_stream_witness :
    34 ∉ cstr "hi" ∧
    (compile Statics.fresh (pushStringProgram (cstr "hi"))).length = 5 ∧
    (List.range 5).map (compile Statics.fresh (pushStringProgram (cstr "hi"))).bytecode
      = [OP_PUSH, OP_PUSH, STRING_MARKER, OP_PUSH, 0] ∧
    (vm_execute noBridge (vm_init VM_MEMORY_SIZE)
        (compile Statics.fresh (pushStringProgram (cstr "hi"))).bytecode
        (compile Statics.fresh (pushStringProgram (cstr "hi"))).length).map (fun vm => vm.stack)
      = some [0, 1] :=
  ⟨by decide, push_string_stream noBridge (cstr "hi") (by decide)⟩

/-- Claim C4, amended: for all `a`, `b` in `0..255` with `a + b ≠ 255`, the
program `PUSH a`, `PUSH b`, `ADD`, `PRINT`, compiled from a fresh state and
run as `main` does, prints exactly one line, the decimal representation of
`a + b`. -/
theorem scenario_A_add_print (bridge : Nat → VM → Option VM) (a b : Nat)
    (ha : a ≤ 255) (hb : b ≤ 255) (hne : a + b ≠ 255) :
    run_main bridge Statics.fresh (addPrintProgram a b) = some [decimal (a + b)] := by
  unfold run_main
  rw [compile_addPrintProgram]
  have ea : a % 256 = a := by omega
  have eb : b % 256 = b := by omega
  simp only []
  rw [vm_execute_addPrint bridge _ _ a b hne (by omega) (by simp [poke]) (by simp [poke, ea])
    (by simp [poke]) (by simp [poke, eb]) (by simp [poke, OP_ADD]) (by simp [poke, OP_PRINT])
    rfl rfl]
  simp [vm_init, copyPool]

/-- Witness for claim C4: Scenario A, `a = 2` and `b = 3`, prints `5`. -/
theorem scenario_A_add_print_witness :
    2 ≤ 255 ∧ 3 ≤ 255 ∧ 2 + 3 ≠ 255 ∧
      run_main noBridge Statics.fresh (addPrintProgram 2 3) = some [decimal (2 + 3)] ∧
      decimal (2 + 3) = cstr "5" :=
  ⟨by decide, by decide, by decide,
    scenario_A_add_print noBridge 2 3 (by decide) (by decide) (by decide), by decide⟩

/-- Counterexample to claim C4 as stated: for `a = 255` and `b = 0` the sum
is the string marker 255; `PRINT` takes it for a string tag, finds no second
value to pop, and prints nothing. -/
theorem scenario_A_sum_255_prints_nothing :
    255 ≤ 255 ∧ 0 ≤ 255 ∧
      run_main noBridge Statics.fresh (addPrintProgram 255 0) = some [] ∧
      run_main noBridge Statics.fresh (addPrintProgram 255 0) ≠ some [decimal (255 + 0)] := by
  refine ⟨by decide, by decide, by decide!, by decide!⟩

/-- The metrics that `qrcode_create` stores are single-precision values. -/
theorem qrcode_create_isSingle (data : List Nat) (ecc : QRCodeECC) (qr : QRCode)
    (h : qrcode_create data ecc = some qr) :
    qr.density.IsSingle ∧ qr.noise.IsSingle := by
  obtain ⟨s1, s2, _, _⟩ := findVersion_spec data.length 41 1 (le_refl 1) (by norm_num) rfl
  rcases qrcode_create_eq data ecc with ⟨_, hnone⟩ | ⟨hv, qr0, hsome, e1, e2, _, e4, e5⟩
  · rw [hnone] at h
    exact absurd h (by simp)
  · rw [hsome] at h
    have : qr0 = qr := Option.some.inj h
    subst this
    rw [qrcode_get_size_valid _ s1 hv] at e2
    have hsz1 : 0 < qr0.size * qr0.size := by rw [e2]; positivity
    have hsz2 : qr0.size * qr0.size < 2 ^ 24 := by
      have : qr0.size ≤ 177 := by omega
      calc qr0.size * qr0.size ≤ 177 * 177 := Nat.mul_le_mul this this
        _ < 2 ^ 24 := by norm_num
    rw [e4, e5]
    exact ⟨f32div_isSingle _ _ (set_modules_le_total qr0) hsz1 hsz2,
      f32div_isSingle _ _ (noise_count_le_total qr0) hsz1 hsz2⟩

/-- The validator reads only the two stored metrics and the digest. -/
theorem validate_pow_fields (sha256 : List Nat → List Nat) (qr : QRCode) (target : List Nat)
    (d n : Dyadic) (hd : qr.density = d) (hn : qr.noise = n) :
    qrcode_validate_pow sha256 qr target =
      (if Dyadic.lt d MIN_DENSITY || Dyadic.lt MAX_DENSITY d then false
       else if Dyadic.lt MAX_NOISE n then false
       else compareHash (sha256 (moduleBytes qr)) target SHA256_DIGEST_LENGTH 0) := by
  subst hd
  subst hn
  rfl

set_option maxRecDepth 1000000 in
/-- The two counters of `denseMatrix`. -/
theorem denseMatrix_counters :
    set_modules denseMatrix = 500 ∧ noise_count denseMatrix = 0 := by
  decide!

/-- The stored metrics of `denseMatrix`: 4/5 rounded up, and 0. -/
theorem denseMatrix_metrics :
    denseMatrix.density = ⟨13421773, 24⟩ ∧ denseMatrix.noise = ⟨0, 0⟩ := by
  have h1 : denseMatrix.density
      = f32div (set_modules denseMatrix) (denseMatrix.size * denseMatrix.size) :=
    (computeMetrics_eq _).1
  have h2 : denseMatrix.noise
      = f32div (noise_count denseMatrix) (denseMatrix.size * denseMatrix.size) :=
    (computeMetrics_eq _).2
  have hz : denseMatrix.size = 25 := rfl
  rw [h1, h2, denseMatrix_counters.1, denseMatrix_counters.2, hz]
  exact ⟨by decide, by decide⟩

set_option maxRecDepth 1000000 in
/-- The two counters of `halfMatrix`. -/
theorem halfMatrix_counters :
    set_modules halfMatrix = 300 ∧ noise_count halfMatrix = 0 := by
  decide!

/-- The stored metrics of `halfMatrix`: 0.48 rounded, and 0. -/
theorem halfMatrix_metrics :
    halfMatrix.density = ⟨16106127, 25⟩ ∧ halfMatrix.noise = ⟨0, 0⟩ := by
  have h1 : halfMatrix.density
      = f32div (set_modules halfMatrix) (halfMatrix.size * halfMatrix.size) :=
    (computeMetrics_eq _).1
  have h2 : halfMatrix.noise
      = f32div (noise_count halfMatrix) (halfMatrix.size * halfMatrix.size) :=
    (computeMetrics_eq _).2
  have hz : halfMatrix.size = 25 := rfl
  rw [h1, h2, halfMatrix_counters.1, halfMatrix_counters.2, hz]
  exact ⟨by decide, by decide⟩

set_option maxRecDepth 1000000 in
/-- The two counters of `holeMatrix`. -/
theorem holeMatrix_counters :
    set_modules holeMatrix = 475 ∧ noise_count holeMatrix = 125 := by
  decide!

/-- The stored metrics of `holeMatrix`: 0.76 rounded, and 1/5 rounded up. -/
theorem holeMatrix_metrics :
    holeMatrix.density = ⟨12750684, 24⟩ ∧ holeMatrix.noise = ⟨13421773, 26⟩ := by
  have h1 : holeMatrix.density
      = f32div (set_modules holeMatrix) (holeMatrix.size * holeMatrix.size) :=
    (computeMetrics_eq _).1
  have h2 : holeMatrix.noise
      = f32div (noise_count holeMatrix) (holeMatrix.size * holeMatrix.size) :=
    (computeMetrics_eq _).2
  have hz : holeMatrix.size = 25 := rfl
  rw [h1, h2, holeMatrix_counters.1, holeMatrix_counters.2, hz]
  exact ⟨by decide, by decide⟩

set_option maxRecDepth 1000000 in
/-- The matrix built from the payload `X` with error class H has side 21 and
110 set modules. -/
theorem create_X_counters :
    (qrcode_create (cstr "X") QRCodeECC.H).map (fun qr => (qr.size, set_modules qr))
      = some (21, 110) := by
  decide!

/-- Claim C5, amended: for every matrix whose stored density and noise are
single-precision values and every target, `qrcode_validate_pow` returns true
if and only if the stored density lies in the closed interval [0.30, 0.80],
the stored noise is at most 0.20, and the SHA-256 digest of the `side ^ 2`
module bytes is at most the target in big-endian lexicographic order (a
digest equal to the target in every byte is accepted). The stored metrics
are the ratios rounded to single precision, not the exact ratios. -/
theorem qrcode_validate_pow_iff (sha256 : List Nat → List Nat) (qr : QRCode)
    (target : List Nat) (hd : qr.density.IsSingle) (hn : qr.noise.IsSingle) :
    qrcode_validate_pow sha256 qr target = true ↔
      (3 / 10 ≤ qr.density.toRat ∧ qr.density.toRat ≤ 4 / 5) ∧ qr.noise.toRat ≤ 1 / 5 ∧
        LexLe (sha256 (moduleBytes qr)) target :=
  validate_pow_eq_true_iff sha256 qr target hd hn

/-- Witness for claim C5: the matrix built from the payload `X` with error
class H has single-precision metrics, so the characterisation applies. -/
theorem qrcode_validate_pow_iff_witness :
    ∃ qr, qrcode_create (cstr "X") QRCodeECC.H = some qr ∧
      qr.density.IsSingle ∧ qr.noise.IsSingle ∧
      (qrcode_validate_pow zeroHash qr maxTarget = true ↔
        (3 / 10 ≤ qr.density.toRat ∧ qr.density.toRat ≤ 4 / 5) ∧ qr.noise.toRat ≤ 1 / 5 ∧
          LexLe (zeroHash (moduleBytes qr)) maxTarget) := by
  rcases qrcode_create_eq (cstr "X") QRCodeECC.H with ⟨hv, _⟩ | ⟨_, qr, hsome, _⟩
  · exact absurd hv (by decide)
  · have hs := qrcode_create_isSingle _ _ qr hsome
    exact ⟨qr, hsome, hs.1, hs.2, qrcode_validate_pow_iff zeroHash qr maxTarget hs.1 hs.2⟩

/-- Counterexample to claim C5 as stated: a 25 x 25 matrix with 500 of its
625 modules set has the exact density 4/5, inside [0.30, 0.80], the exact
noise 0, and a digest below the target, yet it is rejected: the stored
density is 4/5 rounded to single precision, 13421773 / 2 ^ 24, which
exceeds the double-precision bound 0.8. -/
theorem validate_pow_rejects_density_four_fifths :
    denseMatrix.density = qrcode_calculate_density denseMatrix ∧
    denseMatrix.noise = qrcode_calculate_noise denseMatrix ∧
    (3 / 10 ≤ exactDensity denseMatrix ∧ exactDensity denseMatrix ≤ 4 / 5) ∧
    exactNoise denseMatrix ≤ 1 / 5 ∧
    LexLe (zeroHash (moduleBytes denseMatrix)) maxTarget ∧
    denseMatrix.density = ⟨13421773, 24⟩ ∧
    qrcode_validate_pow zeroHash denseMatrix maxTarget = false := by
  have hz : denseMatrix.size = 25 := rfl
  refine ⟨(computeMetrics_eq _).1, (computeMetrics_eq _).2, ?_, ?_, ?_,
    denseMatrix_metrics.1, ?_⟩
  · unfold exactDensity
    rw [denseMatrix_counters.1, hz]
    norm_num
  · unfold exactNoise
    rw [denseMatrix_counters.2, hz]
    norm_num
  · right
    exact ⟨0, by norm_num, by decide, fun j hj => absurd hj (Nat.not_lt_zero j)⟩
  · rw [validate_pow_fields zeroHash denseMatrix maxTarget _ _ denseMatrix_metrics.1
      denseMatrix_metrics.2]
    decide

/-- Claim C6: `qrcode_generate_pow_nonce` returns the nonce `n` exactly when
the matrix built from the header followed by the 8 bytes of `n` (error class
H) is accepted, no matrix built with a smaller nonce is accepted, and the
search lasts long enough to reach `n`: the search starts at 0, goes up by
one, and returns the least accepted nonce. -/
theorem qrcode_generate_pow_nonce_least (sha256 : List Nat → List Nat)
    (header target : List Nat) (fuel n : Nat) :
    qrcode_generate_pow_nonce sha256 header target fuel = some n ↔
      n < fuel ∧ n < 2 ^ 64 ∧
      (∃ qr, qrcode_create (header ++ nonceBytes n) QRCodeECC.H = some qr ∧
        qrcode_validate_pow sha256 qr target = true) ∧
      ∀ k, k < n → ¬ ∃ qr, qrcode_create (header ++ nonceBytes k) QRCodeECC.H = some qr ∧
        qrcode_validate_pow sha256 qr target = true := by
  unfold qrcode_generate_pow_nonce
  rw [mineFrom_eq_some_iff sha256 header target fuel 0 n (by norm_num)
    (fun k hk => absurd hk (Nat.not_lt_zero k))]
  rw [attemptAccepted_iff]
  constructor
  · rintro ⟨_, h2, h3, h4, h5⟩
    refine ⟨by omega, h3, h4, ?_⟩
    intro k hk hex
    have := h5 k hk
    rw [← attemptAccepted_iff] at hex
    rw [hex] at this
    exact absurd this (by simp)
  · rintro ⟨h1, h2, h3, h4⟩
    refine ⟨Nat.zero_le _, by omega, h2, h3, ?_⟩
    intro k hk
    have := h4 k hk
    rw [← attemptAccepted_iff] at this
    simpa using this

/-- Claim C7: `qrcode_create` returns no matrix if and only if the payload
is longer than 3916 bytes, the capacity `floor (177 ^ 2 / 8)` of version 40;
otherwise the matrix has the least version `v` in `1..40` with
`floor ((17 + 4 v) ^ 2 / 8)` at least the payload length, and side
`17 + 4 v`. -/
theorem qrcode_create_version (data : List Nat) (ecc : QRCodeECC) :
    (qrcode_create data ecc = none ↔ 3916 < data.length) ∧
    ∀ qr, qrcode_create data ecc = some qr →
      (1 ≤ qr.version ∧ qr.version ≤ 40) ∧
      data.length ≤ (17 + 4 * qr.version) ^ 2 / 8 ∧
      (∀ v, 1 ≤ v → v < qr.version → (17 + 4 * v) ^ 2 / 8 < data.length) ∧
      qr.size = 17 + 4 * qr.version := by
  obtain ⟨s1, s2, s3, s4⟩ := findVersion_spec data.length 41 1 (le_refl 1) (by norm_num) rfl
  rcases qrcode_create_eq data ecc with ⟨hv, hnone⟩ | ⟨hv, qr0, hsome, e1, e2, _, _, _⟩
  · constructor
    · constructor
      · intro _
        have := s4 40 (by norm_num) (by omega)
        rw [capacity_40] at this
        exact this
      · intro _; exact hnone
    · intro qr hq
      rw [hnone] at hq
      exact absurd hq (by simp)
  · have hcap := s3 hv
    constructor
    · constructor
      · intro hnone
        rw [hsome] at hnone
        exact absurd hnone (by simp)
      · intro hlen
        have := capacity_mono hv
        rw [capacity_40] at this
        omega
    · intro qr hq
      rw [hsome] at hq
      have : qr0 = qr := Option.some.inj hq
      subst this
      rw [e1]
      refine ⟨⟨s1, hv⟩, hcap, ?_, ?_⟩
      · intro v hv1 hv2
        exact s4 v hv1 hv2
      · rw [e2, qrcode_get_size_valid _ s1 hv]

/-- Claim C8: for every payload of at most 3916 bytes and every error
class, `qrcode_create` returns a matrix whose density and noise, taken as
exact ratios of the counters to `side ^ 2`, lie in [0, 1]; the stored
single-precision metrics are those ratios rounded and lie in [0, 1] too. -/
theorem qrcode_create_metrics_unit_interval (data : List Nat) (ecc : QRCodeECC)
    (hlen : data.length ≤ 3916) :
    ∃ qr, qrcode_create data ecc = some qr ∧
      (0 ≤ exactDensity qr ∧ exactDensity qr ≤ 1) ∧
      (0 ≤ exactNoise qr ∧ exactNoise qr ≤ 1) ∧
      qr.density = f32div (set_modules qr) (qr.size * qr.size) ∧
      qr.noise = f32div (noise_count qr) (qr.size * qr.size) ∧
      (0 ≤ qr.density.toRat ∧ qr.density.toRat ≤ 1) ∧
      (0 ≤ qr.noise.toRat ∧ qr.noise.toRat ≤ 1) := by
  obtain ⟨s1, s2, s3, s4⟩ := findVersion_spec data.length 41 1 (le_refl 1) (by norm_num) rfl
  rcases qrcode_create_eq data ecc with ⟨hv, _⟩ | ⟨hv, qr, hsome, e1, e2, _, e4, e5⟩
  · have := s4 40 (by norm_num) (by omega)
    rw [capacity_40] at this
    omega
  · rw [qrcode_get_size_valid _ s1 hv] at e2
    have hsz1 : 0 < qr.size * qr.size := by rw [e2]; positivity
    have hsq : (0 : ℚ) < ((qr.size * qr.size : Nat) : ℚ) := by exact_mod_cast hsz1
    refine ⟨qr, hsome, ⟨?_, ?_⟩, ⟨?_, ?_⟩, e4, e5, ⟨Dyadic.toRat_nonneg _, ?_⟩,
      ⟨Dyadic.toRat_nonneg _, ?_⟩⟩
    · unfold exactDensity; positivity
    · unfold exactDensity
      rw [div_le_one hsq]
      exact_mod_cast set_modules_le_total qr
    · unfold exactNoise; positivity
    · unfold exactNoise
      rw [div_le_one hsq]
      exact_mod_cast noise_count_le_total qr
    · rw [e4]
      exact Dyadic.toRat_le_one _ (f32div_mant_le _ _ (set_modules_le_total qr) hsz1)
    · rw [e5]
      exact Dyadic.toRat_le_one _ (f32div_mant_le _ _ (noise_count_le_total qr) hsz1)

/-- Witness for claim C8: the one-byte payload `X` with error class H. -/
theorem qrcode_create_metrics_unit_interval_witness :
    (cstr "X").length ≤ 3916 ∧
    ∃ qr, qrcode_create (cstr "X") QRCodeECC.H = some qr ∧
      (0 ≤ exactDensity qr ∧ exactDensity qr ≤ 1) ∧
      (0 ≤ exactNoise qr ∧ exactNoise qr ≤ 1) ∧
      qr.density = f32div (set_modules qr) (qr.size * qr.size) ∧
      qr.noise = f32div (noise_count qr) (qr.size * qr.size) ∧
      (0 ≤ qr.density.toRat ∧ qr.density.toRat ≤ 1) ∧
      (0 ≤ qr.noise.toRat ∧ qr.noise.toRat ≤ 1) :=
  ⟨by decide, qrcode_create_metrics_unit_interval (cstr "X") QRCodeECC.H (by decide)⟩

/-- Claim C9: acceptance is monotonic in the target. For every matrix and
all targets `t1`, `t2` with `t2` at most `t1` in big-endian lexicographic
order, if `qrcode_validate_pow` accepts the matrix against `t2` then it
accepts it against `t1`. -/
theorem qrcode_validate_pow_monotone (sha256 : List Nat → List Nat) (qr : QRCode)
    (t1 t2 : List Nat) (h12 : LexLe t2 t1)
    (h : qrcode_validate_pow sha256 qr t2 = true) :
    qrcode_validate_pow sha256 qr t1 = true :=
  validate_pow_mono_aux sha256 qr t1 t2 h12 h

/-- Witness for claim C9: a matrix of density 0.48 and noise 0 whose digest
is all zero is accepted against the all-zero target, a tie in every byte,
and so against the maximal target. -/
theorem qrcode_validate_pow_monotone_witness :
    LexLe zeroTarget maxTarget ∧
    qrcode_validate_pow zeroHash halfMatrix zeroTarget = true ∧
    qrcode_validate_pow zeroHash halfMatrix maxTarget = true := by
  have h12 : LexLe zeroTarget maxTarget :=
    Or.inr ⟨0, by norm_num, by decide, fun j hj => absurd hj (Nat.not_lt_zero j)⟩
  have h2 : qrcode_validate_pow zeroHash halfMatrix zeroTarget = true := by
    rw [validate_pow_fields zeroHash halfMatrix zeroTarget _ _ halfMatrix_metrics.1
      halfMatrix_metrics.2]
    decide
  exact ⟨h12, h2, qrcode_validate_pow_monotone zeroHash halfMatrix maxTarget zeroTarget h12 h2⟩

/-- Claim C10, amended: for every matrix whose stored single-precision
density lies in [0.30, 0.80] and whose stored noise is at most 0.20,
`qrcode_validate_pow` returns true against the maximal target of 32 bytes
`0xFF`, whatever the bytes of the digest are. -/
theorem qrcode_validate_pow_maximal_target (sha256 : List Nat → List Nat) (qr : QRCode)
    (hd : qr.density.IsSingle) (hn : qr.noise.IsSingle)
    (hbytes : ∀ i, (sha256 (moduleBytes qr)).getD i 0 ≤ 255)
    (h1 : 3 / 10 ≤ qr.density.toRat) (h2 : qr.density.toRat ≤ 4 / 5)
    (h3 : qr.noise.toRat ≤ 1 / 5) :
    qrcode_validate_pow sha256 qr maxTarget = true := by
  rw [validate_pow_eq_true_iff sha256 qr maxTarget hd hn]
  refine ⟨⟨h1, h2⟩, h3, ?_⟩
  rw [← compareHash_eq_true_iff]
  exact compareHash_maxTarget _ hbytes 32 0 (by norm_num)

/-- Witness for claim C10: a 25 x 25 matrix with 300 of 625 modules set,
density 0.48 and noise 0. -/
theorem qrcode_validate_pow_maximal_target_witness :
    halfMatrix.density.IsSingle ∧ halfMatrix.noise.IsSingle ∧
    (∀ i, (zeroHash (moduleBytes halfMatrix)).getD i 0 ≤ 255) ∧
    3 / 10 ≤ halfMatrix.density.toRat ∧ halfMatrix.density.toRat ≤ 4 / 5 ∧
    halfMatrix.noise.toRat ≤ 1 / 5 ∧
    qrcode_validate_pow zeroHash halfMatrix maxTarget = true := by
  have hd := halfMatrix_metrics.1
  have hn := halfMatrix_metrics.2
  have hb : ∀ i, (zeroHash (moduleBytes halfMatrix)).getD i 0 ≤ 255 := by
    intro i
    by_cases hi : i < 32
    · interval_cases i <;> decide
    · unfold zeroHash
      rw [List.getD_eq_default _ _ (by simpa using hi)]
      norm_num
  have s1 : halfMatrix.density.IsSingle := by rw [hd]; decide
  have s2 : halfMatrix.noise.IsSingle := by rw [hn]; decide
  have r1 : 3 / 10 ≤ halfMatrix.density.toRat := by rw [hd]; norm_num [Dyadic.toRat]
  have r2 : halfMatrix.density.toRat ≤ 4 / 5 := by rw [hd]; norm_num [Dyadic.toRat]
  have r3 : halfMatrix.noise.toRat ≤ 1 / 5 := by rw [hn]; norm_num [Dyadic.toRat]
  exact ⟨s1, s2, hb, r1, r2, r3,
    qrcode_validate_pow_maximal_target zeroHash halfMatrix s1 s2 hb r1 r2 r3⟩

/-- Counterexample to claim C10 as stated. The matrix built from the
payload `X` with error class H, the claim's witness, has 110 of its 441
modules set, a stored density below 0.30, and is rejected against the
maximal target. And a 25 x 25 matrix with the exact density 475 / 625 and
the exact noise 125 / 625 = 0.20 is rejected against the maximal target: its
stored noise, 1/5 rounded to single precision, exceeds the double-precision
bound 0.2. -/
theorem maximal_target_rejections :
    (∃ qr, qrcode_create (cstr "X") QRCodeECC.H = some qr ∧
      qr.size = 21 ∧ set_modules qr = 110 ∧ qr.density = ⟨16739172, 26⟩ ∧
      qr.density.toRat < 3 / 10 ∧
      qrcode_validate_pow zeroHash qr maxTarget = false) ∧
    ((3 / 10 ≤ exactDensity holeMatrix ∧ exactDensity holeMatrix ≤ 4 / 5) ∧
      exactNoise holeMatrix ≤ 1 / 5 ∧
      holeMatrix.density = qrcode_calculate_density holeMatrix ∧
      holeMatrix.noise = qrcode_calculate_noise holeMatrix ∧
      holeMatrix.noise = ⟨13421773, 26⟩ ∧
      qrcode_validate_pow zeroHash holeMatrix maxTarget = false) := by
  have hz : holeMatrix.size = 25 := rfl
  refine ⟨?_, ⟨?_, ?_⟩, ?_, (computeMetrics_eq _).1, (computeMetrics_eq _).2,
    holeMatrix_metrics.2, ?_⟩
  · rcases qrcode_create_eq (cstr "X") QRCodeECC.H with ⟨hv, _⟩ | ⟨_, qr, hsome, _, _, _, e4, _⟩
    · exact absurd hv (by decide)
    · have hc := create_X_counters
      rw [hsome] at hc
      have hc2 : (qr.size, set_modules qr) = (21, 110) := Option.some.inj hc
      have hsz : qr.size = 21 := congrArg Prod.fst hc2
      have hset : set_modules qr = 110 := congrArg Prod.snd hc2
      have hden : qr.density = ⟨16739172, 26⟩ := by
        rw [e4, hset, hsz]
        decide
      refine ⟨qr, hsome, hsz, hset, hden, ?_, ?_⟩
      · rw [hden]
        norm_num [Dyadic.toRat]
      · rw [validate_pow_fields zeroHash qr maxTarget _ qr.noise hden rfl]
        rfl
  · unfold exactDensity
    rw [holeMatrix_counters.1, hz]
    norm_num
  · unfold exactDensity
    rw [holeMatrix_counters.1, hz]
    norm_num
  · unfold exactNoise
    rw [holeMatrix_counters.2, hz]
    norm_num
  · rw [validate_pow_fields zeroHash holeMatrix maxTarget _ _ holeMatrix_metrics.1
      holeMatrix_metrics.2]
    decide

/-- Claim C11, amended: for every decimal literal `n`, compiling `PUSH n`
emits the two bytes `OP_PUSH` and `n mod 256` (the operand is stored in one
byte), and executing them on a running VM whose stack is not full pushes
`n mod 256` on top and leaves the values below unchanged; for `n ≤ 255` the
value pushed is `n` itself. The model reads any digit string exactly; in C
the literal has to fit an `int` for `atoi`. -/
theorem push_int_literal_pushes_low_byte (bridge : Nat → VM → Option VM) (st : Statics)
    (n : Nat) (vm : VM) (hrun : vm.running = true) (hroom : vm.stack.length < STACK_SIZE) :
    (compile st (pushIntProgram n)).length = 2 ∧
    (compile st (pushIntProgram n)).bytecode 0 = OP_PUSH ∧
    (compile st (pushIntProgram n)).bytecode 1 = n % 256 ∧
    vm_execute bridge vm (compile st (pushIntProgram n)).bytecode
        (compile st (pushIntProgram n)).length
      = some { vm with stack := ((n % 256 : Nat) : Int) :: vm.stack } ∧
    (n ≤ 255 → vm_execute bridge vm (compile st (pushIntProgram n)).bytecode
        (compile st (pushIntProgram n)).length
      = some { vm with stack := (n : Int) :: vm.stack }) := by
  rw [compile_pushIntProgram]
  have h0 : poke (poke zeroBuffer 0 OP_PUSH) 1 n 0 = OP_PUSH := by
    rw [poke_other _ _ _ _ (by norm_num), poke_same]
    rfl
  have h1 : poke (poke zeroBuffer 0 OP_PUSH) 1 n 1 = n % 256 := poke_same _ _ _
  have hx := vm_execute_push bridge _ vm h0 hrun hroom
  rw [h1] at hx
  refine ⟨rfl, h0, h1, hx, fun hn => ?_⟩
  rw [hx, Nat.mod_eq_of_lt (by omega)]

/-- Witness for claim C11: the literal 7 on the empty stack of a fresh VM. -/
theorem push_int_literal_pushes_low_byte_witness :
    (vm_init 16).running = true ∧ (vm_init 16).stack.length < STACK_SIZE ∧
    (compile Statics.fresh (pushIntProgram 7)).length = 2 ∧
    (vm_execute noBridge (vm_init 16) (compile Statics.fresh (pushIntProgram 7)).bytecode
        (compile Statics.fresh (pushIntProgram 7)).length).map (fun v => v.stack)
      = some [7] :=
  have h := push_int_literal_pushes_low_byte noBridge Statics.fresh 7 (vm_init 16) rfl
    (by decide)
  ⟨rfl, by decide, h.1, by rw [h.2.2.2.2 (by decide)]; rfl⟩

/-- Counterexample to claim C11 as stated: for the literal 256 the operand
byte is 0, and executing `PUSH 256` pushes 0, not 256. -/
theorem push_256_pushes_zero :
    (compile Statics.fresh (pushIntProgram 256)).length = 2 ∧
    (compile Statics.fresh (pushIntProgram 256)).bytecode 1 = 0 ∧
    (vm_execute noBridge (vm_init 16) (compile Statics.fresh (pushIntProgram 256)).bytecode
        (compile Statics.fresh (pushIntProgram 256)).length).map (fun v => v.stack)
      = some [0] ∧
    (0 : Int) ≠ 256 := by
  decide

/-- Claim C12, amended: in a VM whose operand stack holds `b` on top and `a`
directly below, `ADD`, `SUB` and `MUL` remove both and push `a + b`, `a - b`
and `a * b` as 32-bit machine integers; `DIV` removes both and pushes the
quotient truncated toward zero when `b` is not 0 and the operands are not
`INT_MIN` and `-1` (for `int` operands the value pushed is the quotient
itself), and removes both and pushes nothing when `b = 0`. In these cases
the values below `a`, the memory and every other field of the VM are
unchanged, and execution goes on with the next opcode. For `INT_MIN` and
`-1` the pass does not return. -/
theorem arithmetic_pops_two_pushes_one (bridge : Nat → VM → Option VM) (bytecode : Buffer)
    (length pc : Nat) (vm : VM) (a b : Int) (rest : Stack)
    (hst : vm.stack = b :: a :: rest) (hdepth : vm.stack.length ≤ STACK_SIZE) :
    (bytecode pc = OP_ADD → vm_step bridge bytecode length pc vm
        = some (pc + 1, { vm with stack := wrap32 (a + b) :: rest })) ∧
    (bytecode pc = OP_SUB → vm_step bridge bytecode length pc vm
        = some (pc + 1, { vm with stack := wrap32 (a - b) :: rest })) ∧
    (bytecode pc = OP_MUL → vm_step bridge bytecode length pc vm
        = some (pc + 1, { vm with stack := wrap32 (a * b) :: rest })) ∧
    (bytecode pc = OP_DIV → b ≠ 0 → ¬ (a = -2147483648 ∧ b = -1) →
      vm_step bridge bytecode length pc vm
        = some (pc + 1, { vm with stack := wrap32 (Int.tdiv a b) :: rest })) ∧
    (bytecode pc = OP_DIV → b = 0 → vm_step bridge bytecode length pc vm
        = some (pc + 1, { vm with stack := rest })) ∧
    (-2147483648 ≤ a → a < 2147483648 → b ≠ 0 → ¬ (a = -2147483648 ∧ b = -1) →
      wrap32 (Int.tdiv a b) = Int.tdiv a b) ∧
    (bytecode pc = OP_DIV → a = -2147483648 → b = -1 →
      vm_step bridge bytecode length pc vm = none) := by
  refine ⟨fun h => ?_, fun h => ?_, fun h => ?_, fun h hb hex => ?_, fun h hb => ?_,
    fun h0 h1 hb hex => tdiv_in_range a b h0 h1 hb hex, fun h ha hb => ?_⟩
  · rw [vm_step_ADD _ _ _ _ _ h, binop_two _ vm a b rest hst hdepth]
  · rw [vm_step_SUB _ _ _ _ _ h, binop_two _ vm a b rest hst hdepth]
  · rw [vm_step_MUL _ _ _ _ _ h, binop_two _ vm a b rest hst hdepth]
  · have ht : divTraps vm.stack = false := by
      rw [hst, divTraps_two]
      exact decide_eq_false hex
    rw [vm_step_DIV _ _ _ _ _ h ht, binop_two _ vm a b rest hst hdepth]
    simp [hb]
  · have ht : divTraps vm.stack = false := by
      rw [hst, divTraps_two]
      exact decide_eq_false (fun hc => by rw [hb] at hc; exact absurd hc.2 (by decide))
    rw [vm_step_DIV _ _ _ _ _ h ht, binop_two _ vm a b rest hst hdepth]
    simp [hb]
  · have ht : divTraps vm.stack = true := by
      rw [hst, divTraps_two]
      exact decide_eq_true ⟨ha, hb⟩
    exact vm_step_DIV_trap _ _ _ _ _ h ht

/-- Witness for claim C12: `7` below `2` on the stack of a fresh VM; `ADD`
leaves 9 and `DIV` leaves 3. -/
theorem arithmetic_pops_two_pushes_one_witness :
    ({ vm_init 16 with stack := [2, 7] } : VM).stack.length ≤ STACK_SIZE ∧
    (vm_step noBridge (fun _ => OP_ADD) 1 0 { vm_init 16 with stack := [2, 7] }).map
        (fun r => (r.1, r.2.stack)) = some (1, [9]) ∧
    (vm_step noBridge (fun _ => OP_DIV) 1 0 { vm_init 16 with stack := [2, 7] }).map
        (fun r => (r.1, r.2.stack)) = some (1, [3]) :=
  ⟨by decide,
    by rw [(arithmetic_pops_two_pushes_one noBridge (fun _ => OP_ADD) 1 0
        { vm_init 16 with stack := [2, 7] } 7 2 [] rfl (by decide)).1 rfl]; rfl,
    by rw [(arithmetic_pops_two_pushes_one noBridge (fun _ => OP_DIV) 1 0
        { vm_init 16 with stack := [2, 7] } 7 2 [] rfl (by decide)).2.2.2.1 rfl (by decide)
        (by decide)]
       rfl⟩

/-- Counterexample to claim C12 as stated: with `-1` on top of the stack and
`INT_MIN` below it, `b` is not 0, but the quotient 2147483648 is not an
`int`; the division of line 143 traps and the pass does not return, so
nothing is pushed and execution does not go on. -/
theorem div_int_min_by_minus_one_traps :
    ({ vm_init 16 with stack := [-1, -2147483648] } : VM).stack = [-1, -2147483648] ∧
    (-1 : Int) ≠ 0 ∧
    Int.tdiv (-2147483648) (-1) = 2147483648 ∧
    ¬ ((2147483648 : Int) < 2147483648) ∧
    vm_step noBridge (fun _ => OP_DIV) 1 0 { vm_init 16 with stack := [-1, -2147483648] }
      = none :=
  ⟨rfl, by decide, by decide, by decide, vm_step_DIV_trap _ _ _ _ _ rfl rfl⟩

/-- Claim C13, as the code has it: an opcode that needs two operands (`ADD`,
`SUB`, `MUL`, `DIV`, `STORE`, `CONCAT`) has no effect on an empty stack, but on
a stack that holds exactly one value it pops that value and pushes nothing:
the first `stack_pop` has been done when the second one fails. The memory is
unchanged and execution goes on with the next opcode in both cases. -/
theorem underflow_with_one_value_pops_it (bridge : Nat → VM → Option VM) (bytecode : Buffer)
    (length pc : Nat) (vm : VM)
    (hop : bytecode pc = OP_ADD ∨ bytecode pc = OP_SUB ∨ bytecode pc = OP_MUL ∨
      bytecode pc = OP_DIV ∨ bytecode pc = OP_STORE ∨ bytecode pc = OP_CONCAT) :
    (vm.stack = [] → vm_step bridge bytecode length pc vm = some (pc + 1, vm)) ∧
    (∀ x, vm.stack = [x] →
      vm_step bridge bytecode length pc vm = some (pc + 1, { vm with stack := [] })) := by
  have hstore0 : vm.stack = [] → op_store vm = vm := by
    intro h; unfold op_store; rw [h]; rfl
  have hstore1 : ∀ x, vm.stack = [x] → op_store vm = { vm with stack := [] } := by
    intro x h; unfold op_store; rw [h]; rfl
  have hcat0 : vm.stack = [] → op_concat vm = vm := by
    intro h; unfold op_concat; rw [h]; rfl
  have hcat1 : ∀ x, vm.stack = [x] → op_concat vm = { vm with stack := [] } := by
    intro x h; unfold op_concat; rw [h]; rfl
  rcases hop with h | h | h | h | h | h
  · rw [vm_step_ADD _ _ _ _ _ h]
    exact ⟨fun h0 => by rw [binop_empty _ _ h0], fun x h1 => by rw [binop_one _ _ x h1]⟩
  · rw [vm_step_SUB _ _ _ _ _ h]
    exact ⟨fun h0 => by rw [binop_empty _ _ h0], fun x h1 => by rw [binop_one _ _ x h1]⟩
  · rw [vm_step_MUL _ _ _ _ _ h]
    exact ⟨fun h0 => by rw [binop_empty _ _ h0], fun x h1 => by rw [binop_one _ _ x h1]⟩
  · exact ⟨fun h0 => by
        rw [vm_step_DIV _ _ _ _ _ h (by rw [h0]; rfl), binop_empty _ _ h0],
      fun x h1 => by
        rw [vm_step_DIV _ _ _ _ _ h (by rw [h1]; rfl), binop_one _ _ x h1]⟩
  · rw [vm_step_STORE _ _ _ _ _ h]
    exact ⟨fun h0 => by rw [hstore0 h0], fun x h1 => by rw [hstore1 x h1]⟩
  · rw [vm_step_CONCAT _ _ _ _ _ h]
    exact ⟨fun h0 => by rw [hcat0 h0], fun x h1 => by rw [hcat1 x h1]⟩

/-- Witness for claim C13: `ADD` on a stack that holds the single value 7
leaves the stack empty. -/
theorem underflow_with_one_value_pops_it_witness :
    ({ vm_init 16 with stack := [7] } : VM).stack = [7] ∧
    (vm_step noBridge (fun _ => OP_ADD) 1 0 { vm_init 16 with stack := [7] }).map
        (fun r => (r.1, r.2.stack)) = some (1, []) :=
  ⟨rfl,
    by rw [(underflow_with_one_value_pops_it noBridge (fun _ => OP_ADD) 1 0
        { vm_init 16 with stack := [7] } (Or.inl rfl)).2 7 rfl]; rfl⟩

/-- Claim C14: `stack_pop` on an empty stack reports failure and the stack
stays empty; `stack_push` on a stack that holds `STACK_SIZE = 1024` values
reports failure and returns the same stack, depth and values; and after any
sequence of pushes and pops from `stack_init`, failed ones included, the
depth is at most 1024. -/
theorem stack_ops_keep_state_on_failure :
    STACK_SIZE = 1024 ∧
    (stack_pop [] = none ∧ StackOp.run [] StackOp.pop = []) ∧
    (∀ (s : Stack) (v : Int), s.length = STACK_SIZE →
      stack_push s v = (false, s) ∧ StackOp.run s (StackOp.push v) = s) ∧
    (∀ ops : List StackOp, (runStackOps ops stack_init).length ≤ STACK_SIZE) := by
  refine ⟨rfl, ⟨rfl, rfl⟩, fun s v hs => ?_, fun ops => ?_⟩
  · have h : ¬ s.length < STACK_SIZE := by omega
    simp only [StackOp.run, stack_push, if_neg h, and_self]
  · exact runStackOps_depth ops stack_init (by simp [stack_init])

/-- Claim C15: when the popped address `x` is not in `0 ≤ x < mem_size`
(negative `int` values included), `STORE` pops the value and the address and
changes no memory byte, and `LOAD` pops the address and pushes nothing; both
go on with the next opcode. Here `x` is an `int` and the memory is an object
that can be allocated, at most `2 ^ 63 - 1` bytes. -/
theorem store_load_out_of_range (bridge : Nat → VM → Option VM) (bytecode : Buffer)
    (length pc : Nat) (vm : VM) (x : Int)
    (hint : -2147483648 ≤ x ∧ x < 2147483648) (hmem : vm.mem_size ≤ 9223372036854775807)
    (hout : ¬ (0 ≤ x ∧ x < vm.mem_size)) :
    (∀ (v : Int) (rest : Stack), vm.stack = v :: x :: rest → bytecode pc = OP_STORE →
      vm_step bridge bytecode length pc vm = some (pc + 1, { vm with stack := rest })) ∧
    (∀ rest : Stack, vm.stack = x :: rest → bytecode pc = OP_LOAD →
      vm_step bridge bytecode length pc vm = some (pc + 1, { vm with stack := rest })) := by
  have hin := inMemory_out_of_range vm x hint hmem hout
  refine ⟨fun v rest hst h => ?_, fun rest hst h => ?_⟩
  · rw [vm_step_STORE _ _ _ _ _ h]
    unfold op_store
    rw [hst]
    simp [stack_pop, hin]
  · rw [vm_step_LOAD _ _ _ _ _ h]
    unfold op_load
    rw [hst]
    simp [stack_pop, hin]

/-- Witness for claim C15: the address `-1` in a memory of 16 bytes. -/
theorem store_load_out_of_range_witness :
    ((-2147483648 : Int) ≤ -1 ∧ (-1 : Int) < 2147483648) ∧
    ({ vm_init 16 with stack := [5, -1] } : VM).mem_size ≤ 9223372036854775807 ∧
    ¬ ((0 : Int) ≤ -1 ∧ (-1 : Int) < ({ vm_init 16 with stack := [5, -1] } : VM).mem_size) ∧
    (vm_step noBridge (fun _ => OP_STORE) 1 0 { vm_init 16 with stack := [5, -1] }).map
        (fun r => (r.1, r.2.stack, (List.range 16).map r.2.memory))
      = some (1, [], List.replicate 16 0) :=
  ⟨by decide, by decide, by decide,
    by rw [(store_load_out_of_range noBridge (fun _ => OP_STORE) 1 0
        { vm_init 16 with stack := [5, -1] } (-1) (by decide) (by decide) (by decide)).1
        5 [] rfl rfl]; rfl⟩

/-- Claim C16: for offsets `a`, `b`, `c` of NUL-terminated strings that lie
below the top 256 bytes of memory and whose total length is below 256, the
string at the offset pushed by `CONCAT(CONCAT(a, b), c)` and the string at
the offset pushed by `CONCAT(a, CONCAT(b, c))` are both the bytes of `a`,
then those of `b`, then those of `c`. -/
theorem concat_associative_on_content (vm : VM) (a b c : Nat) (sa sb sc : List Nat)
    (ha : IsCStringAt vm.memory a sa) (ha2 : a + sa.length + 1 ≤ vm.mem_size - 256)
    (hb : IsCStringAt vm.memory b sb) (hb2 : b + sb.length + 1 ≤ vm.mem_size - 256)
    (hc : IsCStringAt vm.memory c sc) (hc2 : c + sc.length + 1 ≤ vm.mem_size - 256)
    (htot : sa.length + sb.length + sc.length < 256)
    (hM : vm.mem_size < 2147483648) (hdepth : vm.stack.length + 3 ≤ STACK_SIZE) :
    stringAtTop (concatLeft vm a b c) = sa ++ sb ++ sc ∧
    stringAtTop (concatRight vm a b c) = sa ++ sb ++ sc ∧
    stringAtTop (concatLeft vm a b c) = stringAtTop (concatRight vm a b c) := by
  have hS : STACK_SIZE = 1024 := rfl
  rw [hS] at hdepth
  have hleft : stringAtTop (concatLeft vm a b c) = sa ++ sb ++ sc := by
    unfold concatLeft
    have e1 : VM.push (VM.push vm a) b
        = { vm with stack := (b : Int) :: (a : Int) :: vm.stack } := by
      rw [VM_push_eq vm a (by rw [hS]; omega),
        VM_push_eq _ _ (by simp only [List.length_cons]; omega)]
    rw [e1]
    obtain ⟨h1, h2, h3, h4⟩ := op_concat_result
      { vm with stack := (b : Int) :: (a : Int) :: vm.stack } a b sa sb vm.stack rfl
      (by simp only [List.length_cons]; omega) ha (by simp only []; omega) hb
      (by simp only []; omega) hM
    simp only [] at h2 h3 h4
    rw [List.length_append] at h1 h3 h4
    have e2 : VM.push (op_concat { vm with stack := (b : Int) :: (a : Int) :: vm.stack }) c
        = { op_concat { vm with stack := (b : Int) :: (a : Int) :: vm.stack } with
            stack := (c : Int) :: ((vm.mem_size - (sa.length + sb.length) - 1 : Nat) : Int)
              :: vm.stack } := by
      rw [VM_push_eq _ _ (by rw [h1]; simp only [List.length_cons]; omega), h1]
    rw [e2]
    refine stringAtTop_concat _ (vm.mem_size - (sa.length + sb.length) - 1) c (sa ++ sb) sc
      vm.stack rfl (by simp only [List.length_cons]; omega) h3 ?_ ?_ ?_ ?_ ?_
    · simp only [h2, List.length_append]; omega
    · exact IsCStringAt_congr _ _ _ _ (fun j _ hj => h4 j (by omega)) hc
    · simp only [h2]; omega
    · simp only [h2, List.length_append]; omega
    · simp only [h2]; exact hM
  have hright : stringAtTop (concatRight vm a b c) = sa ++ sb ++ sc := by
    unfold concatRight
    have e1 : VM.push (VM.push (VM.push vm a) b) c
        = { vm with stack := (c : Int) :: (b : Int) :: (a : Int) :: vm.stack } := by
      rw [VM_push_eq vm a (by rw [hS]; omega),
        VM_push_eq { vm with stack := (a : Int) :: vm.stack } b
          (by simp only [List.length_cons]; omega),
        VM_push_eq _ _ (by simp only [List.length_cons]; omega)]
    rw [e1]
    obtain ⟨h1, h2, h3, h4⟩ := op_concat_result
      { vm with stack := (c : Int) :: (b : Int) :: (a : Int) :: vm.stack } b c sb sc
      ((a : Int) :: vm.stack) rfl
      (by simp only [List.length_cons]; omega) hb (by simp only []; omega) hc
      (by simp only []; omega) hM
    simp only [] at h2 h3 h4
    rw [List.length_append] at h1 h3 h4
    rw [List.append_assoc]
    refine stringAtTop_concat _ a (vm.mem_size - (sb.length + sc.length) - 1) sa (sb ++ sc)
      vm.stack h1 (by rw [h1]; simp only [List.length_cons]; omega) ?_ ?_ h3 ?_ ?_ ?_
    · exact IsCStringAt_congr _ _ _ _ (fun j _ hj => h4 j (by omega)) ha
    · simp only [h2]; omega
    · simp only [h2, List.length_append]; omega
    · simp only [h2, List.length_append]; omega
    · simp only [h2]; exact hM
  exact ⟨hleft, hright, hleft.trans hright.symm⟩

/-- Witness for claim C16: the strings `a`, `b`, `c` at the offsets 0, 2, 4
of a memory of 1024 bytes; `ab` joined with `c` and `a` joined with `bc`
both give `abc`. -/
theorem concat_associative_on_content_witness :
    stringAtTop (concatLeft abcMachine (0 : Nat) (2 : Nat) (4 : Nat)) = cstr "abc" ∧
    stringAtTop (concatRight abcMachine (0 : Nat) (2 : Nat) (4 : Nat)) = cstr "abc" :=
  have h := concat_associative_on_content abcMachine 0 2 4 (cstr "a") (cstr "b") (cstr "c")
    (by decide) (by decide) (by decide) (by decide) (by decide) (by decide) (by decide)
    (by decide) (by decide)
  ⟨h.1.trans (by decide), h.2.1.trans (by decide)⟩

/-- Claim C17, amended: every `CONCAT` whose joined string fits the local
buffer `combined[256]` (at most 255 bytes before the NUL) writes its result
so that the NUL terminator is the last byte of memory, whatever was
concatenated before: the pushed offset plus the length of the result plus
one is the memory size. The second of two such successive results therefore
ends at the same byte as the first and overlaps it; after the second
`CONCAT` its result is at its offset, and only the bytes below that offset
are as the first `CONCAT` left them. -/
theorem concat_results_end_at_top (vm : VM) (a b c d : Nat) (sa sb sc sd : List Nat)
    (rest rest2 : Stack)
    (hst : vm.stack = (b : Int) :: (a : Int) :: rest) (hdepth : vm.stack.length ≤ STACK_SIZE)
    (ha : IsCStringAt vm.memory a sa) (ha2 : a + sa.length < vm.mem_size)
    (hb : IsCStringAt vm.memory b sb) (hb2 : b + sb.length < vm.mem_size)
    (hbuf : (sa ++ sb).length < 256)
    (hfit : (sa ++ sb).length < vm.mem_size)
    (hdepth2 : rest2.length + 2 ≤ STACK_SIZE)
    (hc : IsCStringAt (op_concat vm).memory c sc) (hc2 : c + sc.length < vm.mem_size)
    (hd : IsCStringAt (op_concat vm).memory d sd) (hd2 : d + sd.length < vm.mem_size)
    (hbuf2 : (sc ++ sd).length < 256)
    (hfit2 : (sc ++ sd).length < vm.mem_size)
    (hM : vm.mem_size < 2147483648) :
    ∃ o1 o2 : Nat,
      (op_concat vm).stack = (o1 : Int) :: rest ∧
      (op_concat { op_concat vm with stack := (d : Int) :: (c : Int) :: rest2 }).stack
        = (o2 : Int) :: rest2 ∧
      o1 + (sa ++ sb).length + 1 = vm.mem_size ∧
      o2 + (sc ++ sd).length + 1 = vm.mem_size ∧
      vm.mem_size ≤ o1 + 256 ∧ vm.mem_size ≤ o2 + 256 ∧
      IsCStringAt (op_concat { op_concat vm with stack := (d : Int) :: (c : Int) :: rest2 }).memory
        o2 (sc ++ sd) ∧
      (∀ j, j < o2 →
        (op_concat { op_concat vm with stack := (d : Int) :: (c : Int) :: rest2 }).memory j
          = (op_concat vm).memory j) := by
  obtain ⟨h1, h2, _, _⟩ := op_concat_result vm a b sa sb rest hst hdepth ha ha2 hb hb2 hM
  obtain ⟨vm2, hvm2⟩ : ∃ v : VM,
      v = { op_concat vm with stack := (d : Int) :: (c : Int) :: rest2 } := ⟨_, rfl⟩
  rw [← hvm2]
  have hs2 : vm2.stack = (d : Int) :: (c : Int) :: rest2 := by rw [hvm2]
  have hm2 : vm2.memory = (op_concat vm).memory := by rw [hvm2]
  have hz2 : vm2.mem_size = vm.mem_size := by rw [hvm2]; exact h2
  rw [← hm2] at hc hd
  obtain ⟨k1, _, k3, k4⟩ := op_concat_result vm2 c d sc sd rest2 hs2
    (by rw [hs2]; simp only [List.length_cons]; omega) hc (by omega) hd (by omega)
    (by omega)
  rw [hz2] at k1 k3 k4
  rw [hm2] at k4
  refine ⟨vm.mem_size - (sa ++ sb).length - 1, vm.mem_size - (sc ++ sd).length - 1,
    h1, k1, ?_, ?_, ?_, ?_, k3, k4⟩
  · omega
  · omega
  · omega
  · omega

/-- Witness for claim C17: `CONCAT` of `a` and `b`, then `CONCAT` of `c` and
`b`, in a memory of 1024 bytes. -/
theorem concat_results_end_at_top_witness :
    ∃ o1 o2 : Nat,
      firstConcat.stack = (o1 : Int) :: [] ∧
      secondConcat.stack = (o2 : Int) :: [(1021 : Int)] ∧
      o1 + (cstr "a" ++ cstr "b").length + 1 = 1024 ∧
      o2 + (cstr "c" ++ cstr "b").length + 1 = 1024 :=
  have h := concat_results_end_at_top { abcMachine with stack := [2, 0] } 0 2 4 2
    (cstr "a") (cstr "b") (cstr "c") (cstr "b") [] [(1021 : Int)]
    rfl (by decide) (by decide) (by decide) (by decide) (by decide) (by decide) (by decide)
    (by decide) (by decide) (by decide) (by decide) (by decide) (by decide) (by decide)
    (by decide)
  match h with
  | ⟨o1, o2, h1, h2, h3, h4, _, _, _, _⟩ => ⟨o1, o2, h1, h2, h3, h4⟩

/-- Counterexample to claim C17 as stated: in a memory of 1024 bytes the
first `CONCAT` puts `ab` at offset 1021; the second `CONCAT` puts `cb` at the
same offset 1021, not below it, and the string at the offset of the first
result is then `cb`. -/
theorem second_concat_overwrites_first :
    firstConcat.stack = [1021] ∧
    cstringAt firstConcat.memory 3 1021 = cstr "ab" ∧
    secondConcat.stack = [1021, 1021] ∧
    cstringAt secondConcat.memory 3 1021 = cstr "cb" ∧
    cstr "cb" ≠ cstr "ab" := by
  decide

/-- Claim C18, amended: for every word `w` of at most 255 bytes that holds
no blank, tab, newline or `#` and is not a recognised mnemonic, `compile`
emits nothing for `w`: a source that is `w` alone gives length 0 and an
untouched buffer, the token loop that meets the line `w` goes on behind it in
the same state, and a program with the line `w` inserted where the loop
stands in front of a token compiles to the same result as without it. -/
theorem unknown_word_emits_nothing (w : List Nat) (hne : w ≠ [])
    (hw : ∀ x ∈ w, ¬ isDelim x) (hlen : w.length ≤ 255) (hm : w ∉ mnemonics) :
    (∀ st : Statics, (compile st w).length = 0 ∧ ∀ j, (compile st w).bytecode j = 0) ∧
    (∀ (c : Compiler) (rest : List Nat), compileFrom c (w ++ 10 :: rest) = compileFrom c rest) ∧
    (∀ (st : Statics) (pre post : List Nat) (c1 : Compiler),
      (∀ x, compileFrom (compileStart st) (pre ++ x) = compileFrom c1 x) →
      compile st (pre ++ (w ++ 10 :: post)) = compile st (pre ++ post)) := by
  refine ⟨fun st => ?_, fun c rest => compileFrom_unknown w c rest hne hw hlen hm,
    fun st pre post c1 hpre => ?_⟩
  · rw [compile_eq_compileFrom, compileFrom_unknown_last w _ hne hw hlen hm]
    exact ⟨rfl, fun j => rfl⟩
  · rw [compile_eq_compileFrom, compile_eq_compileFrom, hpre, hpre,
      compileFrom_unknown w c1 post hne hw hlen hm]

/-- Witness for claim C18: the word `HELLO`, alone and as an extra line
between `POP` and `ADD`. -/
theorem unknown_word_emits_nothing_witness :
    (compile Statics.fresh (cstr "HELLO")).length = 0 ∧
    compile Statics.fresh ((cstr "POP" ++ [10]) ++ (cstr "HELLO" ++ 10 :: cstr "ADD"))
      = compile Statics.fresh ((cstr "POP" ++ [10]) ++ cstr "ADD") :=
  have h := unknown_word_emits_nothing (cstr "HELLO") (by decide) (by decide) (by decide)
    (by decide)
  ⟨(h.1 Statics.fresh).1,
    h.2.2 Statics.fresh (cstr "POP" ++ [10]) (cstr "ADD")
      (emit (compileStart Statics.fresh) OP_POP)
      (fun x => by
        rw [List.append_assoc]
        exact compileFrom_simple SimpleOp.POP _ x)⟩

set_option maxRecDepth 1000000 in
/-- Counterexample to claim C18 as stated: the word of 258 bytes made of 255
times `x` and then `POP` holds no blank and is no mnemonic, but the tokenizer
cuts it after 255 bytes and reads the rest as the token `POP`: the source
that is this word alone compiles to the one byte `OP_POP`. -/
theorem long_word_emits_opcode :
    longWord.length = 258 ∧ (∀ x ∈ longWord, ¬ isDelim x) ∧ longWord ∉ mnemonics ∧
    (compile Statics.fresh longWord).length = 1 ∧
    (compile Statics.fresh longWord).bytecode 0 = OP_POP := by
  decide!

/-- Claim C19, amended: for every program written one statement per line
whose string literals hold no double quote (and no NUL), whose emitted
opcode stream ends at or below `STRING_POOL_START`, and whose literals with
their NUL terminators end inside the buffer of `VM_MEMORY_SIZE` bytes that
`compile` allocates, `compile` from a fresh state leaves the `i`-th literal,
byte for byte and followed by one NUL byte, at the buffer offset
`STRING_POOL_START` plus the sum over `j < i` of `length (s_j) + 1`, inside
the buffer. -/
theorem string_pool_layout (prog : List Stmt)
    (hlit : ∀ s ∈ literals prog, ∀ x ∈ s, x ≠ 34 ∧ x ≠ 0 ∧ x < 256)
    (hfit : (compile Statics.fresh (programText prog)).length ≤ STRING_POOL_START)
    (hpool : STRING_POOL_START + poolOffset (literals prog) (literals prog).length
      ≤ VM_MEMORY_SIZE) :
    ∀ i, i < (literals prog).length →
      IsCStringAt (compile Statics.fresh (programText prog)).bytecode
        (STRING_POOL_START + poolOffset (literals prog) i) ((literals prog).getD i []) ∧
      STRING_POOL_START + poolOffset (literals prog) i + ((literals prog).getD i []).length + 1
        ≤ VM_MEMORY_SIZE := by
  have hq : ∀ s ∈ literals prog, 34 ∉ s := fun s hs h => (hlit s hs 34 h).1 rfl
  rw [compile_program_length _ prog hq, foldl_effect_length] at hfit
  rw [compile_program_bytecode _ prog hq]
  have hP : STRING_POOL_START = 65536 := rfl
  rw [hP] at hfit hpool ⊢
  intro i hi
  have h := (foldl_effect_pool prog (compileStart Statics.fresh) hlit hfit).2 i hi
  have e : (compileStart Statics.fresh).statics.str_offset_inner = 0 := rfl
  rw [e, Nat.add_zero] at h
  refine ⟨h, ?_⟩
  have hs := poolOffset_step (literals prog) i hi
  have hm := poolOffset_mono (literals prog) (i + 1) (literals prog).length (by omega)
  omega

set_option maxRecDepth 100000 in
/-- Witness for claim C19: in `PUSH "hi"`, `PUSH 7`, `PUSH "yo"` the second
literal is at offset 65536 + 3. -/
theorem string_pool_layout_witness :
    (compile Statics.fresh (programText twoLiterals)).length ≤ STRING_POOL_START ∧
    STRING_POOL_START + poolOffset (literals twoLiterals) (literals twoLiterals).length
      ≤ VM_MEMORY_SIZE ∧
    IsCStringAt (compile Statics.fresh (programText twoLiterals)).bytecode 65539 (cstr "yo") :=
  ⟨by decide, by decide,
    (string_pool_layout twoLiterals (by decide) (by decide) (by decide) 1 (by decide)).1⟩

/-- Counterexample to claim C19 as stated: in the program of 65532 lines
`POP` followed by `PUSH "hi"` the opcode stream has 65537 bytes; its last
byte, the operand of the second `PUSH` of the string branch, is written to
offset 65536 after the literal was stored there, so the buffer holds 0 and
not `h` at `STRING_POOL_START`. -/
theorem long_stream_overwrites_literal :
    literals longProgram = [cstr "hi"] ∧
    (compile Statics.fresh (programText longProgram)).length = 65537 ∧
    (compile Statics.fresh (programText longProgram)).bytecode STRING_POOL_START = 0 ∧
    ¬ IsCStringAt (compile Statics.fresh (programText longProgram)).bytecode
        (STRING_POOL_START + poolOffset (literals longProgram) 0) (cstr "hi") := by
  refine ⟨literals_longProgram, longProgram_length, longProgram_pool_byte, fun h => ?_⟩
  rw [literals_longProgram, poolOffset_zero, Nat.add_zero] at h
  have h0 : (compile Statics.fresh (programText longProgram)).bytecode STRING_POOL_START
      = 104 := h.1
  rw [longProgram_pool_byte] at h0
  exact absurd h0 (by decide)

set_option maxRecDepth 1000000 in
/-- Claim C20, as the code has it: for the payload of six bytes `0xFF` with
error class H the matrix has version 1 and side 21, and 334 of its modules
are unset after the structural patterns, far more than the 48 data bits; but
`add_data` places only 31 bits. The loop of line 315 tests
`data_idx < length` with `length` in bytes, so it ends after the first band
of two columns, when 31 bits are placed, and the `return` of line 325 for
`data_idx >= length * 8` is never reached. -/
theorem add_data_stops_after_first_band :
    qrcode_create sixBytes QRCodeECC.H
      = some (computeMetrics (add_data (structuralMatrix 6 QRCodeECC.H) sixBytes 6)) ∧
    (add_data (structuralMatrix 6 QRCodeECC.H) sixBytes 6).modules
      = (add_data_final (structuralMatrix 6 QRCodeECC.H) sixBytes 6).modules ∧
    (structuralMatrix 6 QRCodeECC.H).version = 1 ∧
    (structuralMatrix 6 QRCodeECC.H).size = 21 ∧
    unset_modules (structuralMatrix 6 QRCodeECC.H) = 334 ∧
    8 * sixBytes.length = 48 ∧
    (add_data_final (structuralMatrix 6 QRCodeECC.H) sixBytes 6).data_idx = 31 ∧
    (add_data_final (structuralMatrix 6 QRCodeECC.H) sixBytes 6).returned = false := by
  refine ⟨rfl, rfl, ?_, ?_, ?_, ?_, ?_, ?_⟩
  · decide!
  · decide!
  · decide!
  · decide!
  · decide!
  · decide!

/-- Claim C21, amended: for every payload and error class for which
`qrcode_create` returns a matrix, the structural patterns leave the finder
pattern in each of the three 7x7 corner blocks (top-left, bottom-left at
rows `size - 7` on, top-right at columns `size - 7` on): set on the border
ring and the 3x3 core, unset on the ring between; and in the returned
matrix the border and core modules of the three blocks are still set.
Nothing is said of the 16 modules of the inner ring in the returned matrix:
`add_data` writes payload bits into them. -/
theorem finder_blocks_kept (data : List Nat) (ecc : QRCodeECC) (qr : QRCode)
    (h : qrcode_create data ecc = some qr) (r c : Nat) (hr : r < 7) (hc : c < 7) :
    qr.size = (structuralMatrix data.length ecc).size ∧
    21 ≤ qr.size ∧
    getModule (structuralMatrix data.length ecc) r c = (if finderModule r c then 1 else 0) ∧
    getModule (structuralMatrix data.length ecc) (qr.size - 7 + r) c
      = (if finderModule r c then 1 else 0) ∧
    getModule (structuralMatrix data.length ecc) r (qr.size - 7 + c)
      = (if finderModule r c then 1 else 0) ∧
    (finderModule r c = true →
      getModule qr r c = 1 ∧ getModule qr (qr.size - 7 + r) c = 1 ∧
      getModule qr r (qr.size - 7 + c) = 1) := by
  have hv : findVersion data.length 41 1 ≤ 40 := by
    by_contra hc2
    unfold qrcode_create at h
    have hn : MAX_VERSION < findVersion data.length 41 1 := by
      show 40 < _
      omega
    simp only [hn, if_true] at h
    exact absurd h (by simp)
  obtain ⟨v1, _, _, _⟩ := findVersion_spec data.length 41 1 (le_refl 1) (by norm_num) rfl
  rw [qrcode_create_some data ecc hv] at h
  have hq : qr = computeMetrics (add_data (structuralMatrix data.length ecc) data data.length) :=
    (Option.some.inj h).symm
  have hsz : qr.size = (structuralMatrix data.length ecc).size := by
    rw [hq]
    rfl
  have hmod : ∀ k, qr.modules k
      = (add_data (structuralMatrix data.length ecc) data data.length).modules k := by
    intro k
    rw [hq]
    rfl
  have h21 : 21 ≤ qr.size := by
    rw [hsz, structuralMatrix_size, qrcode_get_size_valid _ v1 hv]
    omega
  obtain ⟨f1, f2, f3⟩ := structuralMatrix_finder data.length ecc hv r c hr hc
  rw [← hsz] at f2 f3
  refine ⟨hsz, h21, f1, f2, f3, ?_⟩
  intro hf
  rw [if_pos hf] at f1 f2 f3
  unfold getModule at f1 f2 f3 ⊢
  rw [← hsz] at f1 f2 f3
  refine ⟨?_, ?_, ?_⟩
  · rw [hmod, add_data_nonzero _ _ _ _ (by rw [f1]; decide), f1]
  · rw [hmod, add_data_nonzero _ _ _ _ (by rw [f2]; decide), f2]
  · rw [hmod, add_data_nonzero _ _ _ _ (by rw [f3]; decide), f3]

set_option maxRecDepth 1000000 in
theorem finder_blocks_kept_witness :
    qrcode_create sixBytes QRCodeECC.H
      = some (computeMetrics (add_data (structuralMatrix 6 QRCodeECC.H) sixBytes 6)) ∧
    (computeMetrics (add_data (structuralMatrix 6 QRCodeECC.H) sixBytes 6)).size
      = (structuralMatrix sixBytes.length QRCodeECC.H).size ∧
    (finderModule 0 3 = true →
      getModule (computeMetrics (add_data (structuralMatrix 6 QRCodeECC.H) sixBytes 6)) 0 3 = 1 ∧
      getModule (computeMetrics (add_data (structuralMatrix 6 QRCodeECC.H) sixBytes 6))
        ((computeMetrics (add_data (structuralMatrix 6 QRCodeECC.H) sixBytes 6)).size - 7 + 0) 3
        = 1 ∧
      getModule (computeMetrics (add_data (structuralMatrix 6 QRCodeECC.H) sixBytes 6)) 0
        ((computeMetrics (add_data (structuralMatrix 6 QRCodeECC.H) sixBytes 6)).size - 7 + 3)
        = 1) :=
  ⟨rfl,
   (finder_blocks_kept sixBytes QRCodeECC.H _ rfl 0 3 (by decide) (by decide)).1,
   (finder_blocks_kept sixBytes QRCodeECC.H _ rfl 0 3 (by decide) (by decide)).2.2.2.2.2⟩

set_option maxRecDepth 1000000 in
/-- Claim C21, as the code has it: for the payload of six bytes `0xFF` with
error class H the matrix has side 21, so its top-right block starts at
column 14; the module at row 1, column 19 is module (1, 5) of that block, on
the ring between border and core, which the structural patterns leave unset;
in the matrix that `qrcode_create` returns it is set, by the payload bit that
`add_data` placed there. -/
theorem finder_ring_overwritten :
    finderModule 1 5 = false ∧
    getModule (structuralMatrix 6 QRCodeECC.H) 1 (21 - 7 + 5) = 0 ∧
    (qrcode_create sixBytes QRCodeECC.H).map (fun qr => (qr.size, getModule qr 1 (21 - 7 + 5)))
      = some (21, 1) := by
  refine ⟨by decide, ?_, ?_⟩
  · decide!
  · decide!

/-- Claim C23, amended: for every source text, the opcode stream that
`compile` emits is no longer than the source, so for a source of at most
65536 bytes it occupies the indices `[0, length)` with
`length ≤ STRING_POOL_START`; the bytes from `length` up to the pool start
are untouched; and the string branch of `PUSH` changes, below the pool, no
byte but the four stream bytes it emits: literal bytes go to indices from
65536 on. -/
theorem stream_below_pool (st : Statics) (source : List Nat)
    (hsrc : source.length ≤ STRING_POOL_START) :
    (compile st source).length ≤ source.length ∧
    (compile st source).length ≤ STRING_POOL_START ∧
    (∀ j, (compile st source).length ≤ j → j < STRING_POOL_START →
      (compile st source).bytecode j = 0) ∧
    (∀ (c : Compiler) (q : List Nat) (j : Nat), j < STRING_POOL_START →
      (j < c.length ∨ c.length + 4 ≤ j) →
      (compilePushString c q).1.bytecode j = c.bytecode j) := by
  have hstart : GapZero (compileStart st) := fun j _ _ => rfl
  obtain ⟨h1, h2⟩ := compileLoop_inv (source.length + 1) source (compileStart st) hstart
  have hl : (compile st source).length ≤ source.length := by
    have e : (compileStart st).length = 0 := rfl
    rw [e, Nat.zero_add] at h1
    exact h1
  exact ⟨hl, le_trans hl hsrc, h2, fun c q j hj hout => (compilePushString_frame c q).2.2 j hj hout⟩

/-- Witness for claim C23: the source `PUSH "hi"` of nine bytes. -/
theorem stream_below_pool_witness :
    (pushStringProgram (cstr "hi")).length ≤ STRING_POOL_START ∧
    (compile Statics.fresh (pushStringProgram (cstr "hi"))).length
      ≤ (pushStringProgram (cstr "hi")).length ∧
    (compile Statics.fresh (pushStringProgram (cstr "hi"))).length ≤ STRING_POOL_START :=
  have h := stream_below_pool Statics.fresh (pushStringProgram (cstr "hi")) (by decide)
  ⟨by decide, h.1, h.2.1⟩

/-- Counterexample to claim C23 as stated: the program of 65532 lines `POP`
followed by `PUSH "hi"` compiles to a stream of 65537 bytes, more than
`STRING_POOL_START`; the index 65536 is both the last index of the stream
and the offset of the literal, and it holds the operand byte 0 of the
stream. -/
theorem stream_reaches_pool :
    (compile Statics.fresh (programText longProgram)).length = 65537 ∧
    ¬ (compile Statics.fresh (programText longProgram)).length ≤ STRING_POOL_START ∧
    STRING_POOL_START < (compile Statics.fresh (programText longProgram)).length ∧
    STRING_POOL_START + poolOffset (literals longProgram) 0 = STRING_POOL_START ∧
    (compile Statics.fresh (programText longProgram)).bytecode STRING_POOL_START = 0 := by
  refine ⟨longProgram_length, ?_, ?_, ?_, longProgram_pool_byte⟩
  · rw [longProgram_length]
    decide
  · rw [longProgram_length]
    decide
  · rw [poolOffset_zero]

/-- Claim C24: for every header of at least 4 bytes that, with the 8 nonce
bytes, fits the largest version (`L + 8 <= 3916`), and for any two nonces,
`qrcode_create` with error class H returns a matrix for header plus nonce
and the two matrices are equal; the embedding loop of `add_data` stops with
`data_idx` at most `8 * L`, before any bit of the nonce is read. So every
nonce is accepted exactly when nonce 0 is: the mining search returns 0 on its
first pass when nonce 0 is accepted, and never returns otherwise. -/
theorem nonce_independent_matrix (sha256 : List Nat → List Nat) (header target : List Nat)
    (hL : 4 ≤ header.length) (hfit : header.length + 8 ≤ 3916) :
    (∀ n1 n2, qrcode_create (header ++ nonceBytes n1) QRCodeECC.H
        = qrcode_create (header ++ nonceBytes n2) QRCodeECC.H) ∧
    (∀ n, ∃ qr, qrcode_create (header ++ nonceBytes n) QRCodeECC.H = some qr) ∧
    (∀ n, (add_data_final (structuralMatrix (header.length + 8) QRCodeECC.H)
        (header ++ nonceBytes n) (header.length + 8)).data_idx ≤ 8 * header.length) ∧
    (∀ n, attemptAccepted sha256 header target n = attemptAccepted sha256 header target 0) ∧
    (attemptAccepted sha256 header target 0 = true →
      ∀ fuel, qrcode_generate_pow_nonce sha256 header target (fuel + 1) = some 0) ∧
    (attemptAccepted sha256 header target 0 = false →
      ∀ fuel, qrcode_generate_pow_nonce sha256 header target fuel = none) := by
  refine ⟨fun n1 n2 => (qrcode_create_header header n1 n2 hL hfit).1,
    fun n => (qrcode_create_header header n n hL hfit).2,
    fun n => (add_data_final_header header (nonceBytes n) (nonceBytes n) hL hfit).2,
    fun n => attemptAccepted_header sha256 header target hL hfit n, ?_, ?_⟩
  · intro h0 fuel
    unfold qrcode_generate_pow_nonce mineFrom
    rw [if_pos h0]
  · intro h0 fuel
    unfold qrcode_generate_pow_nonce
    exact mineFrom_none sha256 header target
      (fun k _ => (attemptAccepted_header sha256 header target hL hfit k).trans h0)
      fuel 0 (by norm_num)

theorem nonce_independent_matrix_witness :
    4 ≤ (cstr "abcd").length ∧ (cstr "abcd").length + 8 ≤ 3916 ∧
    (∀ n1 n2, qrcode_create (cstr "abcd" ++ nonceBytes n1) QRCodeECC.H
        = qrcode_create (cstr "abcd" ++ nonceBytes n2) QRCodeECC.H) ∧
    (∀ n, attemptAccepted zeroHash (cstr "abcd") maxTarget n
      = attemptAccepted zeroHash (cstr "abcd") maxTarget 0) :=
  ⟨by decide, by decide,
   (nonce_independent_matrix zeroHash (cstr "abcd") maxTarget (by decide) (by decide)).1,
   (nonce_independent_matrix zeroHash (cstr "abcd") maxTarget (by decide) (by decide)).2.2.2.1⟩

/-- Claim C25: for every VM whose stack holds the value `v` on top and an
address below it with `0 ≤ address < mem_size`, `STORE`, then a push of the
address, then `LOAD` leaves `v mod 256`, a value in `0..255`, on top of the
stack, leaves the stack below it as it was under the two operands, stores
`v mod 256` at the address and changes no other memory byte. -/
theorem store_load_round_trip (vm : VM) (address : Nat) (v : Int) (rest : Stack)
    (hst : vm.stack = v :: (address : Int) :: rest) (hdepth : vm.stack.length ≤ STACK_SIZE)
    (haddr : address < vm.mem_size) :
    (storeThenLoad vm address).stack = ((v % 256).toNat : Int) :: rest ∧
    (v % 256).toNat < 256 ∧
    (storeThenLoad vm address).memory address = (v % 256).toNat ∧
    (∀ j, j ≠ address → (storeThenLoad vm address).memory j = vm.memory j) ∧
    (storeThenLoad vm address).mem_size = vm.mem_size := by
  have hlen : rest.length < 1024 := by
    rw [hst] at hdepth
    simp only [List.length_cons, STACK_SIZE] at hdepth
    omega
  have hbyte : (v % 256).toNat < 256 := by omega
  have hin : inMemory vm (address : Int) = true := by
    unfold inMemory
    rw [decide_eq_true_iff]
    omega
  have hstore : op_store vm
      = { vm with stack := rest, memory := poke vm.memory address (byteOfInt v) } := by
    unfold op_store
    rw [hst]
    simp only [stack_pop, hin, if_true, Int.toNat_ofNat]
  have hpush : VM.push (op_store vm) address
      = { vm with stack := (address : Int) :: rest,
                  memory := poke vm.memory address (byteOfInt v) } := by
    rw [hstore, VM_push_eq _ _ (by simpa [STACK_SIZE] using hlen)]
  have hin2 : inMemory
      { vm with stack := (address : Int) :: rest,
                memory := poke vm.memory address (byteOfInt v) } (address : Int) = true := hin
  have hload : storeThenLoad vm address
      = { vm with stack := ((v % 256).toNat : Int) :: rest,
                  memory := poke vm.memory address (byteOfInt v) } := by
    unfold storeThenLoad
    rw [hpush]
    unfold op_load
    simp only [stack_pop, hin2, if_true, Int.toNat_ofNat, poke_same]
    rw [VM_push_eq _ _ (by simpa [STACK_SIZE] using hlen)]
    have e : byteOfInt v % 256 = (v % 256).toNat := by
      unfold byteOfInt
      omega
    simp only [e]
  rw [hload]
  refine ⟨rfl, hbyte, ?_, fun j hj => poke_other _ _ _ _ hj, rfl⟩
  show poke vm.memory address (byteOfInt v) address = _
  rw [poke_same]
  unfold byteOfInt
  omega

/-- Witness for claim C25: the value `-1` stored at address 3 of a memory of
16 bytes is read back as 255. -/
theorem store_load_round_trip_witness :
    (storeThenLoad { vm_init 16 with stack := [-1, 3, 9] } (3 : Nat)).stack = [255, 9] ∧
    (storeThenLoad { vm_init 16 with stack := [-1, 3, 9] } (3 : Nat)).memory 3 = 255 :=
  have h := store_load_round_trip { vm_init 16 with stack := [-1, 3, 9] } 3 (-1) [9] rfl
    (by decide) (by decide)
  ⟨h.1, h.2.2.1⟩

end Chrysalis
